import Mathlib

/-!
csvHelper: the CSV codec and the transformation pipeline of `src/main.cpp`.

A shallow embedding of `class CSVReader`.

* A `std::string` is a list of bytes; a byte is written as a `Char`.
* A `std::map<std::string, V>` is a list of entries kept in strictly ascending key order
  (the order in which the source iterates over it).
* A file is the text it holds; `getlines` is the sequence of lines that repeated
  `std::getline` calls deliver.
* A `while` loop whose termination is not evident from its shape takes an explicit bound
  on the number of iterations (`fuel`) and returns `none` when the bound is exhausted.
-/

namespace CsvHelper

/-! ## Strings -/

/-- A `std::string`. -/
abbrev Str := List Char

/-- The comparison `a < b` of two `std::string`s: lexicographic on the byte values. -/
def strLt : Str → Str → Bool
  | [], [] => false
  | [], _ :: _ => true
  | _ :: _, [] => false
  | a :: as, b :: bs =>
    if a.toNat < b.toNat then true
    else if b.toNat < a.toNat then false
    else strLt as bs

/-- The first index at which `needle` occurs in `hay`, scanning from the start
(`std::string::find` from position 0). The empty needle occurs at index 0. -/
def findFirst (needle : Str) : Str → Option Nat
  | [] => if needle = [] then some 0 else none
  | c :: cs =>
    if needle.isPrefixOf (c :: cs) then some 0
    else (findFirst needle cs).map (· + 1)

/-- The call `hay.find(needle, pos)`: the first index `i ≥ pos` at which `needle` occurs,
`none` standing for `npos` (also when `pos` is beyond the end). -/
def find (hay needle : Str) (pos : Nat) : Option Nat :=
  if hay.length < pos then none
  else (findFirst needle (hay.drop pos)).map (· + pos)

/-- The call `s.replace(pos, len, t)`. -/
def replace (s : Str) (pos len : Nat) (t : Str) : Str :=
  s.take pos ++ t ++ s.drop (pos + len)

/-- The loop shared by `restoreCommas` and `doColumnReplacements`:
```
size_t pos = 0;
while ((pos = s.find(from, pos)) != npos) { s.replace(pos, from.length(), to); pos += to.length(); }
```
started in the state `(s, pos)`; `fuel` bounds the number of evaluations of the loop test. -/
def replaceLoop (fromStr toStr : Str) : Nat → Str → Nat → Option Str
  | 0, _, _ => none
  | fuel + 1, s, pos =>
    match find s fromStr pos with
    | none => some s
    | some p =>
      replaceLoop fromStr toStr fuel (replace s p fromStr.length toStr) (p + toStr.length)

/-- The placeholder that stands for a comma inside quotes. -/
def sentinel : Str := "#!*".toList

/-- The number of `"` characters of a string (`std::count(.., '"')`). -/
def countQuotes (s : Str) : Nat := s.count '"'

/-! ## `std::map` -/

/-- A `std::map<std::string, V>`. -/
abbrev StrMap (V : Type) := List (Str × V)

/-- The lookup `m.find(k)`: the value stored under `k`, `none` standing for `m.end()`. -/
def mapFind {V : Type} (k : Str) : StrMap V → Option V
  | [] => none
  | (k', v) :: rest => if k' = k then some v else mapFind k rest

/-- The assignment `m[k] = v`: overwrite the entry of `k`, or insert it at its place in
the key order. -/
def mapSet {V : Type} (k : Str) (v : V) : StrMap V → StrMap V
  | [] => [(k, v)]
  | (k', v') :: rest =>
    if k' = k then (k, v) :: rest
    else if strLt k k' then (k, v) :: (k', v') :: rest
    else (k', v') :: mapSet k v rest

/-- The call `m.erase(k)`: the map without an entry for the key `k`. -/
def mapErase {V : Type} (k : Str) (m : StrMap V) : StrMap V :=
  m.filter (fun entry => decide (entry.1 ≠ k))

/-- The text that the expression `row[k]` refers to: the stored value, or the empty
string that `operator[]` inserts when the key is absent. -/
def cellText (k : Str) (row : StrMap Str) : Str :=
  (mapFind k row).getD []

/-! ## The reader object -/

/-- The data members of `class CSVReader`. -/
structure CSVReader where
  mHeadings : List Str
  mCsvData : List (StrMap Str)
deriving DecidableEq

/-- A freshly constructed `CSVReader`. -/
def CSVReader.fresh : CSVReader := ⟨[], []⟩

/-- The function `getHeadingIndexByName` on the heading list: the first index that holds
the name, `none` standing for `-1`. -/
def getHeadingIndexByName : List Str → Str → Option Nat
  | [], _ => none
  | heading :: rest, headingName =>
    if heading = headingName then some 0
    else (getHeadingIndexByName rest headingName).map (· + 1)

/-! ## Tokenizer -/

/-- The `for` loop of `splitLineAndReplaceCommas`, in the state
`(tokens, token, insideQuotes)`, over the characters still to be read; the final
`tokens.push_back(token)` is its last step. -/
def splitLoop : List Str → Str → Bool → Str → List Str
  | tokens, token, _, [] => tokens ++ [token]
  | tokens, token, insideQuotes, currentChar :: rest =>
    if currentChar = '"' then
      splitLoop tokens (token ++ [currentChar]) (!insideQuotes) rest
    else if currentChar = ',' ∧ insideQuotes = true then
      splitLoop tokens (token ++ sentinel) insideQuotes rest
    else if currentChar = ',' ∧ insideQuotes = false then
      splitLoop (tokens ++ [token]) [] insideQuotes rest
    else
      splitLoop tokens (token ++ [currentChar]) insideQuotes rest

/-- The function `splitLineAndReplaceCommas`. -/
def splitLineAndReplaceCommas (line : Str) : List Str :=
  splitLoop [] [] false line

/-- The function `restoreCommas`; its loop ends after at most `str.length + 1` tests
(`restoreCommas_eq_spec`), so the fallback is never taken. -/
def restoreCommas (str : Str) : Str :=
  (replaceLoop sentinel [','] (str.length + 1) str 0).getD str

/-! ## Reading -/

/-- The lines delivered by repeated `std::getline(file, line)` on a stream holding the
remaining characters, `cur` being the part of the current line already extracted.
A final line needs no terminating newline; after the last newline nothing is delivered. -/
def getlinesAux : Str → Str → List Str
  | cur, [] => if cur = [] then [] else [cur]
  | cur, c :: cs => if c = '\n' then cur :: getlinesAux [] cs else getlinesAux (cur ++ [c]) cs

/-- The lines of a file. -/
def getlines (file : Str) : List Str := getlinesAux [] file

/-- The inner loop of `readCsv`,
```
while (quoteCount % 2 != 0) { if (!getline(file, nextLine)) break; line += "\n" + nextLine; quoteCount += count(nextLine); }
```
over the lines still in the stream: the joined record and the lines left. -/
def joinLines (line : Str) (quoteCount : Nat) : List Str → Str × List Str
  | [] => (line, [])
  | nextLine :: rest =>
    if quoteCount % 2 ≠ 0 then
      joinLines (line ++ '\n' :: nextLine) (quoteCount + countQuotes nextLine) rest
    else (line, nextLine :: rest)

/-- The loop `for (i = 0; i < tokens.size(); ++i) if (i < mHeadings.size())
rowData[mHeadings[i]] = restoreCommas(tokens[i]);` from index `i` on, the arguments
being the headings and tokens from that index. -/
def fillRow : List Str → List Str → StrMap Str → StrMap Str
  | h :: hs, t :: ts, rowData => fillRow hs ts (mapSet h (restoreCommas t) rowData)
  | _, _, rowData => rowData

/-- The row that `readCsv` builds from one logical record. -/
def buildRow (mHeadings : List Str) (line : Str) : StrMap Str :=
  fillRow mHeadings (splitLineAndReplaceCommas line) []

/-- The outer loop `while (std::getline(file, line))` of `readCsv` over the lines still in
the stream: the rows pushed onto `mCsvData`. Every iteration consumes a line, so the
number of lines bounds the number of iterations (`fuel`, see `readLoop_fuel`). -/
def readLoop (mHeadings : List Str) : Nat → List Str → List (StrMap Str)
  | 0, _ => []
  | _ + 1, [] => []
  | fuel + 1, line :: rest =>
    if line = [] then readLoop mHeadings fuel rest
    else
      let joined := joinLines line (countQuotes line) rest
      buildRow mHeadings joined.1 :: readLoop mHeadings fuel joined.2

/-- The rows read from the lines that follow the heading line. -/
def readRows (mHeadings : List Str) (lines : List Str) : List (StrMap Str) :=
  readLoop mHeadings lines.length lines

/-- The function `readCsv` on a file that could be opened, `file` being its content.
The first `getline` leaves `line` empty when the file is empty. -/
def readCsv (self : CSVReader) (file : Str) : CSVReader :=
  let lines := getlines file
  let mHeadings := splitLineAndReplaceCommas (lines.headD [])
  { mHeadings := mHeadings
    mCsvData := self.mCsvData ++ readRows mHeadings lines.tail }

/-! ## Writing -/

/-- The value of `mHeadings.size() - 1` in `size_t`: for the empty list the subtraction
wraps around to the largest value (a vector has fewer than `2 ^ 64` elements, so no
other size wraps). -/
def sizeMinusOne (size : Nat) : Nat :=
  if size = 0 then 2 ^ 64 - 1 else size - 1

/-- The loop `for (i = 0; i < mHeadings.size(); ++i) { file << field;
if (i < mHeadings.size() - 1) file << ","; }` of `writeCsv` from the index `i` on, `fields`
being the texts written from this index on; `size` is `mHeadings.size()`. -/
def writeLoop (size : Nat) : Nat → List Str → Str
  | _, [] => []
  | i, field :: rest =>
    field ++ (if i < sizeMinusOne size then [','] else []) ++ writeLoop size (i + 1) rest

/-- The fields written for one row: for each heading the stored value, or the empty
string when `row.find` fails. -/
def rowFields (mHeadings : List Str) (row : StrMap Str) : List Str :=
  mHeadings.map (fun h => (mapFind h row).getD [])

/-- The function `writeCsv` on a file that could be opened: the text written. -/
def writeCsv (self : CSVReader) : Str :=
  writeLoop self.mHeadings.length 0 self.mHeadings ++ ['\n'] ++
    (self.mCsvData.map (fun row =>
      writeLoop self.mHeadings.length 0 (rowFields self.mHeadings row) ++ ['\n'])).flatten

/-! ## Stage 1: description date extraction -/

/-- The character class `\d` of the date pattern. -/
def isDigit (c : Char) : Bool :=
  decide ('0'.toNat ≤ c.toNat) && decide (c.toNat ≤ '9'.toNat)

/-- Whether a text as a whole matches the pattern `\d{2}/\d{2}/\d{2}`. -/
def isDateText : Str → Bool
  | [d1, d2, s1, m1, m2, s2, y1, y2] =>
    isDigit d1 && isDigit d2 && decide (s1 = '/') && isDigit m1 && isDigit m2
      && decide (s2 = '/') && isDigit y1 && isDigit y2
  | _ => false

/-- Whether the pattern `\d{2}/\d{2}/\d{2}` matches at the start of the text: a match
has 8 characters. -/
def dateAt (s : Str) : Bool := isDateText (s.take 8)

/-- Modelled from the C++ standard library: `std::regex_search(text, match, dateRegex)`
followed by `match.str(0)`. The search reports the leftmost match, here its 8 characters;
`none` stands for a search that returns false. -/
def regexSearchDate : Str → Option Str
  | [] => none
  | c :: cs => if dateAt (c :: cs) then some ((c :: cs).take 8) else regexSearchDate cs

/-- Modelled from the C++ standard library: `std::regex_replace(text, dateRegex, "")`.
The text is scanned from the left; a match is replaced by the empty format string and the
scan resumes behind it (`skip` counts the characters of the current match still to be
dropped), unmatched characters are copied. -/
def regexReplaceDate : Nat → Str → Str
  | _, [] => []
  | skip + 1, _ :: cs => regexReplaceDate skip cs
  | 0, c :: cs => if dateAt (c :: cs) then regexReplaceDate 7 cs else c :: regexReplaceDate 0 cs

/-- The body of the row loop of `addDescriptionDateColumn`. The parameter `timeStampOf`
gives the text stored in `DescDateTimeStamp` for an extracted date: the decimal
`mktime` value of the date parsed with `%d/%m/%y`, or `0` when parsing or conversion
fails; it depends on the time zone of the process. -/
def descDateRow (timeStampOf : Str → Str) (row : StrMap Str) : StrMap Str :=
  let description := cellText "*Description".toList row
  let row := mapSet "*Description".toList description row
  match regexSearchDate description with
  | some date =>
    let row := mapSet "*Description".toList (regexReplaceDate 0 description) row
    let row := mapSet "DescDate".toList date row
    mapSet "DescDateTimeStamp".toList (timeStampOf date) row
  | none =>
    let row := mapSet "DescDate".toList "N/A".toList row
    mapSet "DescDateTimeStamp".toList "0".toList row

/-- The function `addDescriptionDateColumn`. -/
def addDescriptionDateColumn (timeStampOf : Str → Str) (self : CSVReader) : CSVReader :=
  let mHeadings := self.mHeadings ++ ["DescDate".toList]
  let mHeadings := mHeadings ++ ["DescDateTimeStamp".toList]
  match getHeadingIndexByName mHeadings "*Description".toList with
  | none => { self with mHeadings := mHeadings }
  | some _ => { mHeadings := mHeadings, mCsvData := self.mCsvData.map (descDateRow timeStampOf) }

/-! ## Stage 2: column replacements -/

/-- The map `replacementMap` filled by `replacementMap[from] = to` for the pairs matched
on one settings line, in the order of the matches. -/
def buildReplacementMap (pairs : List (Str × Str)) : StrMap Str :=
  pairs.foldl (fun replacementMap pair => mapSet pair.1 pair.2 replacementMap) []

/-- The map `replacements` after the settings loop; `settingsLines` holds, for each line
of the `replacements:` section that has a colon, the heading before the first colon and
the pairs matched behind it. A line whose heading is unknown is skipped. -/
def buildReplacements (mHeadings : List Str) (settingsLines : List (Str × List (Str × Str))) :
    StrMap (StrMap Str) :=
  settingsLines.foldl (fun replacements l =>
    match getHeadingIndexByName mHeadings l.1 with
    | none => replacements
    | some _ => mapSet l.1 (buildReplacementMap l.2) replacements) []

/-- The loop `for (const auto &pair: replacementMap)` on one cell: the pairs are visited
in the order of the map. `none` when a replace loop exhausts `fuel`. -/
def applyPairs (fuel : Nat) : StrMap Str → Str → Option Str
  | [], cellData => some cellData
  | (fromStr, toStr) :: rest, cellData =>
    match replaceLoop fromStr toStr fuel cellData 0 with
    | none => none
    | some cellData => applyPairs fuel rest cellData

/-- The loop `for (const auto &replacement: replacements)` on one row. -/
def replaceRow (fuel : Nat) (mHeadings : List Str) :
    StrMap (StrMap Str) → StrMap Str → Option (StrMap Str)
  | [], row => some row
  | (heading, replacementMap) :: rest, row =>
    match getHeadingIndexByName mHeadings heading with
    | none => replaceRow fuel mHeadings rest row
    | some _ =>
      match applyPairs fuel replacementMap (cellText heading row) with
      | none => none
      | some cellData => replaceRow fuel mHeadings rest (mapSet heading cellData row)

/-- The loop `for (auto &row: this->mCsvData)` of `doColumnReplacements`. -/
def replaceRows (fuel : Nat) (mHeadings : List Str) (replacements : StrMap (StrMap Str)) :
    List (StrMap Str) → Option (List (StrMap Str))
  | [] => some []
  | row :: rest =>
    match replaceRow fuel mHeadings replacements row with
    | none => none
    | some row =>
      match replaceRows fuel mHeadings replacements rest with
      | none => none
      | some rest => some (row :: rest)

/-- The function `doColumnReplacements` for the given lines of the `replacements:`
section; `none` when a replace loop does not end within `fuel` tests. -/
def doColumnReplacements (fuel : Nat) (settingsLines : List (Str × List (Str × Str)))
    (self : CSVReader) : Option CSVReader :=
  match replaceRows fuel self.mHeadings (buildReplacements self.mHeadings settingsLines)
      self.mCsvData with
  | none => none
  | some mCsvData => some { self with mCsvData := mCsvData }

/-! ## Stage 3: sorting -/

/-- The lambda `compare` of `applySorting`; `none` when `row.at(heading)` throws
`std::out_of_range`. -/
def compareRows (heading : Str) (ascending : Bool) (row1 row2 : StrMap Str) : Option Bool :=
  match mapFind heading row1, mapFind heading row2 with
  | some a, some b => some (if ascending then strLt a b else strLt b a)
  | _, _ => none

/-- Insertion of `x`, which stood before all elements of the sorted list, behind the
elements that compare less than it. -/
def insertSortedM {α : Type} (comp : α → α → Option Bool) (x : α) : List α → Option (List α)
  | [] => some [x]
  | y :: ys =>
    match comp y x with
    | none => none
    | some true => (insertSortedM comp x ys).map (y :: ·)
    | some false => some (x :: y :: ys)

/-- Modelled from the C++ standard library: `std::stable_sort(first, last, comp)`. The
range is sorted with respect to `comp` and elements that are equivalent keep their
order; an exception thrown by `comp` leaves the call (`none`). The standard fixes the
result, not the sequence of comparisons; here each element, from the back, is inserted
into the sorted rest. -/
def stableSortM {α : Type} (comp : α → α → Option Bool) : List α → Option (List α)
  | [] => some []
  | x :: xs =>
    match stableSortM comp xs with
    | none => none
    | some sorted => insertSortedM comp x sorted

/-- The loop `for (auto it = sortOrder.rbegin(); it != sortOrder.rend(); ++it)` over the
reversed sort order. -/
def sortLoop (mHeadings : List Str) : List (Str × Str) → List (StrMap Str) →
    Option (List (StrMap Str))
  | [], mCsvData => some mCsvData
  | (heading, order) :: rest, mCsvData =>
    match getHeadingIndexByName mHeadings heading with
    | none => sortLoop mHeadings rest mCsvData
    | some _ =>
      match stableSortM (compareRows heading (decide (order = "asc".toList))) mCsvData with
      | none => none
      | some mCsvData => sortLoop mHeadings rest mCsvData

/-- The function `applySorting` for the parsed `sortOrder`; `none` when a comparison
throws. -/
def applySorting (sortOrder : List (Str × Str)) (self : CSVReader) : Option CSVReader :=
  if sortOrder = [] then some self
  else
    match sortLoop self.mHeadings sortOrder.reverse self.mCsvData with
    | none => none
    | some mCsvData => some { self with mCsvData := mCsvData }

/-! ## Stage 4: date reinsertion -/

/-- The function `removeHeader`: erase the first occurrence of the name, if any. -/
def removeHeader : List Str → Str → List Str
  | [], _ => []
  | heading :: rest, headerName =>
    if heading = headerName then rest else heading :: removeHeader rest headerName

/-- The body of the first row loop of `applyDateToDescription` when `DescDate` is a
heading. -/
def insertDate (row : StrMap Str) : StrMap Str :=
  let descDate := cellText "DescDate".toList row
  let row := mapSet "DescDate".toList descDate row
  let description := cellText "*Description".toList row
  let description :=
    if description ≠ [] ∧ description.head? = some '"' then
      description.take 1 ++ (descDate ++ " ".toList) ++ description.drop 1
    else descDate ++ " ".toList ++ description
  mapSet "*Description".toList description row

/-- The body of the second row loop of `applyDateToDescription`. -/
def eraseScratch (descDateIdx timeStampIdx : Option Nat) (row : StrMap Str) : StrMap Str :=
  let row := if descDateIdx.isSome then mapErase "DescDate".toList row else row
  if timeStampIdx.isSome then mapErase "DescDateTimeStamp".toList row else row

/-- The function `applyDateToDescription`. -/
def applyDateToDescription (self : CSVReader) : CSVReader :=
  let descDateIdx := getHeadingIndexByName self.mHeadings "DescDate".toList
  let timeStampIdx := getHeadingIndexByName self.mHeadings "DescDateTimeStamp".toList
  match getHeadingIndexByName self.mHeadings "*Description".toList with
  | none => self
  | some _ =>
    let mCsvData := if descDateIdx.isSome then self.mCsvData.map insertDate else self.mCsvData
    let mHeadings :=
      if descDateIdx.isSome then removeHeader self.mHeadings "DescDate".toList
      else self.mHeadings
    let mHeadings :=
      if timeStampIdx.isSome then removeHeader mHeadings "DescDateTimeStamp".toList
      else mHeadings
    { mHeadings := mHeadings, mCsvData := mCsvData.map (eraseScratch descDateIdx timeStampIdx) }

/-! ## Stage 5: due-date shift -/

/-- The white space that `std::stoi` and the stream sentry skip (`isspace` in the C
locale). -/
def isSpace (c : Char) : Bool :=
  decide (c = ' ') || decide (c = '\t') || decide (c = '\n') || decide (c = '\x0b')
    || decide (c = '\x0c') || decide (c = '\r')

/-- The value of a text of decimal digits. -/
def digitsValue (digits : Str) : Nat :=
  digits.foldl (fun v c => 10 * v + (c.toNat - '0'.toNat)) 0

/-- Modelled from the C++ standard library: `std::stoi(str)`. Leading white space is
skipped, an optional sign and the longest run of decimal digits are read, what follows
is ignored. `none` stands for the exception thrown: `std::invalid_argument` when there
is no digit, `std::out_of_range` when the value does not fit into `int` (32 bits). -/
def stoi (str : Str) : Option Int :=
  let s := str.dropWhile isSpace
  let negative := decide (s.head? = some '-')
  let s := if s.head? = some '-' ∨ s.head? = some '+' then s.drop 1 else s
  let digits := s.takeWhile isDigit
  if digits = [] then none
  else
    let v : Int := if negative then -(digitsValue digits : Int) else (digitsValue digits : Int)
    if v < -2147483648 ∨ 2147483647 < v then none else some v

/-- The loop `while (std::getline(settingsFile, line))` of `updateDueDate` over the lines
of the settings file: the value of `daysToAdd` behind the loop, which starts as 0;
`none` when `std::stoi` throws. The text converted is `line.substr(line.find(':') + 1)`. -/
def findDaysToAdd : List Str → Option Int
  | [] => some 0
  | line :: rest =>
    match find line "due date additional days:".toList 0 with
    | none => findDaysToAdd rest
    | some _ =>
      match find line [':'] 0 with
      | none => stoi line
      | some colonPos => stoi (line.drop (colonPos + 1))

/-- The fields of `std::tm` that the program reads or writes; the time of day stays
`00:00:00` and `tm_isdst` stays 0. -/
structure Tm where
  tm_mday : Int
  tm_mon : Int
  tm_year : Int
deriving DecidableEq

/-- Modelled from the C++ standard library: one numeric conversion of `std::get_time`
(`%d`, `%m`, `%Y`). At most `width` decimal digits are read, leading zeros are permitted
and not required; the value has to lie in the range of the conversion. The result is
the value and the text behind it, `none` stands for a failed conversion. -/
def getNum (width lo hi : Nat) (s : Str) : Option (Nat × Str) :=
  let digits := (s.take width).takeWhile isDigit
  if digits = [] then none
  else if lo ≤ digitsValue digits ∧ digitsValue digits ≤ hi then
    some (digitsValue digits, s.drop digits.length)
  else none

/-- The function `stringToDate` for the format `%d/%m/%Y`: `tm` starts zeroed, the stream
extraction skips leading white space, and each conversion stores its field; when the
text does not match, the fields converted before the failure keep their values and the
others stay 0 (the stream state is not examined). -/
def stringToDate (dateStr : Str) : Tm :=
  match getNum 2 1 31 (dateStr.dropWhile isSpace) with
  | none => ⟨0, 0, 0⟩
  | some (day, s1) =>
    match s1 with
    | '/' :: s2 =>
      match getNum 2 1 12 s2 with
      | none => ⟨day, 0, 0⟩
      | some (month, s3) =>
        match s3 with
        | '/' :: s4 =>
          match getNum 4 0 9999 s4 with
          | none => ⟨day, (month : Int) - 1, 0⟩
          | some (year, _) => ⟨day, (month : Int) - 1, (year : Int) - 1900⟩
        | _ => ⟨day, (month : Int) - 1, 0⟩
    | _ => ⟨day, 0, 0⟩

/-- The decimal digit of a number below 10. -/
def digitChar : Nat → Char
  | 0 => '0' | 1 => '1' | 2 => '2' | 3 => '3' | 4 => '4'
  | 5 => '5' | 6 => '6' | 7 => '7' | 8 => '8' | _ => '9'

/-- The decimal digits of a number, most significant first; `fuel` bounds the number
of digits. -/
def decimalAux : Nat → Nat → Str
  | 0, _ => []
  | fuel + 1, n =>
    if n < 10 then [digitChar n] else decimalAux fuel (n / 10) ++ [digitChar (n % 10)]

/-- The decimal representation of an integer (conversion `%Y` of `std::put_time`). -/
def decimal (v : Int) : Str :=
  if v < 0 then '-' :: decimalAux (v.natAbs + 1) v.natAbs
  else decimalAux (v.natAbs + 1) v.natAbs

/-- A number from 0 to 99 in two decimal digits (conversions `%d` and `%m` of
`std::put_time`). -/
def twoDigits (v : Int) : Str :=
  [digitChar (v.toNat / 10 % 10), digitChar (v.toNat % 10)]

/-- The function `dateToString` for the format `%d/%m/%Y`. -/
def dateToString (tm : Tm) : Str :=
  twoDigits tm.tm_mday ++ '/' :: twoDigits (tm.tm_mon + 1) ++ '/' :: decimal (tm.tm_year + 1900)

/-- A calendar date. -/
structure Date where
  year : Int
  month : Int
  day : Int
deriving DecidableEq

/-- The number of days from 1 January 1970 to the day `d` of the month `m` of the year
`y` in the Gregorian calendar; `d` may lie outside the month and is counted on. -/
def daysFromCivil (y m d : Int) : Int :=
  let y' := if m ≤ 2 then y - 1 else y
  let era := y' / 400
  let yoe := y' % 400
  let mp := if 2 < m then m - 3 else m + 9
  let doy := (153 * mp + 2) / 5 + d - 1
  let doe := yoe * 365 + yoe / 4 - yoe / 100 + doy
  era * 146097 + doe - 719468

/-- The Gregorian date that lies the given number of days from 1 January 1970. -/
def civilFromDays (z : Int) : Date :=
  let z := z + 719468
  let era := z / 146097
  let doe := z % 146097
  let yoe := (doe - doe / 1460 + doe / 36524 - doe / 146096) / 365
  let y := yoe + era * 400
  let doy := doe - (365 * yoe + yoe / 4 - yoe / 100)
  let mp := (5 * doy + 2) / 153
  let d := doy - (153 * mp + 2) / 5 + 1
  let m := if mp < 10 then mp + 3 else mp - 9
  ⟨if m ≤ 2 then y + 1 else y, m, d⟩

/-- The time zone of the process as far as the program depends on it: the seconds by
which its standard time is ahead of UTC, and the seconds by which its clock is put
forward (daylight saving) at an instant. -/
structure Zone where
  utcOffset : Int
  dstShift : Int → Int

/-- Modelled from the C standard library: `mktime` for a broken-down time with the time
of day `00:00:00` and `tm_isdst = 0`, which is taken as standard time. Fields out of
range are normalised. The result is in seconds since the epoch (`time_t` has 64 bits and
holds it for every `tm` that `stringToDate` yields); a zone whose standard offset changes
is outside the model. -/
def mktime (zone : Zone) (tm : Tm) : Int :=
  daysFromCivil (tm.tm_year + 1900 + tm.tm_mon / 12) (tm.tm_mon % 12 + 1) tm.tm_mday * 86400
    - zone.utcOffset

/-- Modelled from the C standard library: the date fields of `localtime`. -/
def localtime (zone : Zone) (t : Int) : Tm :=
  let date := civilFromDays ((t + zone.utcOffset + zone.dstShift t) / 86400)
  ⟨date.day, date.month - 1, date.year - 1900⟩

/-- The value of an integer expression in `int` (32 bits, two's complement). Signed
overflow is undefined behaviour in C++; the compiled program wraps around, and so does
this function. -/
def toInt32 (v : Int) : Int :=
  (v + 2147483648) % 4294967296 - 2147483648

/-- The value of an integer expression in `int64_t` (two's complement, wrapping around in
the same way). -/
def toInt64 (v : Int) : Int :=
  (v + 9223372036854775808) % 18446744073709551616 - 9223372036854775808

/-- The product `24 * daysToAdd` in `int`. -/
def hoursToAdd (daysToAdd : Int) : Int :=
  toInt32 (24 * daysToAdd)

/-- Modelled from the C++ standard library (libstdc++): `system_clock::from_time_t`. The
time point of `std::chrono::system_clock` counts nanoseconds since the epoch in a signed
64-bit integer, so it holds the times from 21 September 1677 to 11 April 2262. -/
def fromTimeT (t : Int) : Int :=
  toInt64 (t * 1000000000)

/-- Modelled from the C++ standard library (libstdc++): `tp += std::chrono::hours(h)`.
The hours are converted to the duration of the clock (nanoseconds, 64 bits) and added
to the count of the time point. -/
def addHours (tp h : Int) : Int :=
  toInt64 (tp + toInt64 (h * 3600000000000))

/-- Modelled from the C++ standard library (libstdc++): `system_clock::to_time_t`, a
`duration_cast` to seconds, which truncates towards zero. -/
def toTimeT (tp : Int) : Int :=
  Int.tdiv tp 1000000000

/-- The body of the row loop of `updateDueDate`. -/
def updateDueDateRow (zone : Zone) (daysToAdd : Int) (row : StrMap Str) : StrMap Str :=
  let dueDateStr := cellText "*DueDate".toList row
  let dueDateTm := stringToDate dueDateStr
  let dueDateTp := fromTimeT (mktime zone dueDateTm)
  let dueDateTp := addHours dueDateTp (hoursToAdd daysToAdd)
  let newTime := toTimeT dueDateTp
  mapSet "*DueDate".toList (dateToString (localtime zone newTime)) row

/-- The function `updateDueDate`, `settingsFile` being the content of `settings.txt`;
`none` when `std::stoi` throws. -/
def updateDueDate (zone : Zone) (settingsFile : Str) (self : CSVReader) : Option CSVReader :=
  match findDaysToAdd (getlines settingsFile) with
  | none => none
  | some daysToAdd =>
    if daysToAdd = 0 then some self
    else
      match getHeadingIndexByName self.mHeadings "*DueDate".toList with
      | none => some self
      | some _ =>
        some { self with mCsvData := self.mCsvData.map (updateDueDateRow zone daysToAdd) }

/-! ## Stage 6: conditional appendage -/

/-- The map `appendagesMap` after the settings loop; `settingsLines` holds, for each line
of the `appendages:` section that matches `([^:]+):(.+)`, the column name and the pairs
matched behind it; each pair is added by
`appendagesMap[columnName].emplace_back(key, value)`. -/
def buildAppendages (settingsLines : List (Str × List (Str × Str))) :
    StrMap (List (Str × Str)) :=
  settingsLines.foldl (fun appendagesMap l =>
    l.2.foldl (fun appendagesMap pair =>
      mapSet l.1 ((mapFind l.1 appendagesMap).getD [] ++ [pair]) appendagesMap) appendagesMap) []

/-- The loop `for (const auto &pair: appendage.second)` on one row. -/
def applyRules (columnName : Str) : List (Str × Str) → StrMap Str → StrMap Str
  | [], row => row
  | (key, value) :: rest, row =>
    match find (cellText columnName row) key 0 with
    | none => applyRules columnName rest row
    | some _ =>
      applyRules columnName rest
        (mapSet columnName (cellText columnName row ++ (" ".toList ++ value)) row)

/-- The loop `for (const auto &appendage: appendagesMap)` on one row. -/
def appendRow : StrMap (List (Str × Str)) → StrMap Str → StrMap Str
  | [], row => row
  | (columnName, rules) :: rest, row =>
    match mapFind columnName row with
    | none => appendRow rest row
    | some text =>
      match find text "Claim Type".toList 0 with
      | none => appendRow rest (applyRules columnName rules row)
      | some _ => appendRow rest row

/-- The function `addAppendages` for the given lines of the `appendages:` section. -/
def addAppendages (settingsLines : List (Str × List (Str × Str))) (self : CSVReader) :
    CSVReader :=
  { self with mCsvData := self.mCsvData.map (appendRow (buildAppendages settingsLines)) }

/-! ## Reference definitions used in the statements -/

/-- The text in which every occurrence of `fromStr` that is found scanning from the
left, each scan resuming behind the occurrence just found, is replaced by `toStr`:
non-overlapping occurrences, the inserted text never being examined. `skip` is the
number of characters of the occurrence just replaced that the scan still passes over. -/
def replaceAllSpec (fromStr toStr : Str) : Nat → Str → Str
  | _, [] => []
  | skip + 1, _ :: cs => replaceAllSpec fromStr toStr skip cs
  | 0, c :: cs =>
    if fromStr.isPrefixOf (c :: cs) then toStr ++ replaceAllSpec fromStr toStr (fromStr.length - 1) cs
    else c :: replaceAllSpec fromStr toStr 0 cs


/-- One line of output: the fields joined by commas, then a newline. -/
def writeLine (fields : List Str) : Str :=
  [','].intercalate fields ++ ['\n']

/-- Prepend a text to the first token of a token list. -/
def consHead (x : Str) : List Str → List Str
  | [] => [x]
  | t :: ts => (x ++ t) :: ts

/-- The pieces into which the commas outside quoted regions cut a text; `inside` tells
whether the text starts inside a quoted region. Every `"` toggles the region. -/
def piecesFrom : Bool → Str → List Str
  | _, [] => [[]]
  | inside, c :: cs =>
    if c = '"' then consHead [c] (piecesFrom (!inside) cs)
    else if c = ',' ∧ inside = false then [] :: piecesFrom inside cs
    else consHead [c] (piecesFrom inside cs)

/-- The text with every comma replaced by the placeholder. -/
def escapeCommas (s : Str) : Str :=
  s.flatMap (fun c => if c = ',' then sentinel else [c])

/-- The text with every placeholder, found scanning from the left, replaced by a comma. -/
def restoreRec : Str → Str
  | '#' :: '!' :: '*' :: rest => ',' :: restoreRec rest
  | c :: rest => c :: restoreRec rest
  | [] => []

/-- The number of commas of a text that lie outside quoted regions. -/
def outsideCommas : Bool → Str → Nat
  | _, [] => 0
  | inside, c :: cs =>
    if c = '"' then outsideCommas (!inside) cs
    else if c = ',' ∧ inside = false then outsideCommas inside cs + 1
    else outsideCommas inside cs

/-- Whether the position behind the text `p` lies inside a quoted region, when `p` starts
in the state `inside`. -/
def insideAfter (inside : Bool) (p : Str) : Bool :=
  xor inside (decide (countQuotes p % 2 = 1))

/-- The fields of a line as `readCsv` stores them: the tokens, each passed through
`restoreCommas`. -/
def fields (line : Str) : List Str :=
  (splitLineAndReplaceCommas line).map restoreCommas

/-- The logical record made of a first physical line and the `k` lines that follow it,
each appended behind a newline. -/
def joinedRecord (line : Str) (rest : List Str) (k : Nat) : Str :=
  line ++ (rest.take k).flatMap (fun nextLine => '\n' :: nextLine)

/-- The cell after replace-all was applied for each pair of a list, first pair first. -/
def replaceListed (pairs : List (Str × Str)) (cell : Str) : Str :=
  pairs.foldl (fun c pair => replaceAllSpec pair.1 pair.2 0 c) cell

/-- The entries of a map are in strictly ascending key order. -/
def KeysAscending {V : Type} (m : StrMap V) : Prop :=
  m.Pairwise (fun a b => strLt a.1 b.1 = true)

/-- The occurrence `m` behind the prefix `p` is the leftmost text of the shape dd/mm/yy
in `p ++ m ++ q`. -/
def LeftmostDate (p m q : Str) : Prop :=
  isDateText m = true ∧
    ∀ p' m' q', p ++ m ++ q = p' ++ m' ++ q' → isDateText m' = true → p.length ≤ p'.length

/-- No part of the text has the shape dd/mm/yy. -/
def NoDate (s : Str) : Prop :=
  ∀ p m q, s = p ++ m ++ q → isDateText m = false

/-- The second text is the first with every non-overlapping match of the shape dd/mm/yy
removed, the matches being taken from the left: the leftmost match is removed and the
text behind it is treated in the same way. -/
inductive DatesRemoved : Str → Str → Prop
  | none (s : Str) : NoDate s → DatesRemoved s s
  | first (p m q r : Str) : LeftmostDate p m q → DatesRemoved q r →
      DatesRemoved (p ++ m ++ q) (p ++ r)

/-- Insertion of `x`, which stood before all elements of the sorted list, behind the
elements that are less than it. -/
def insertSorted {α : Type} (lt : α → α → Bool) (x : α) : List α → List α
  | [] => [x]
  | y :: ys => if lt y x then y :: insertSorted lt x ys else x :: y :: ys

/-- One stable sort of a list under the order `lt`. -/
def stableSort {α : Type} (lt : α → α → Bool) : List α → List α
  | [] => []
  | x :: xs => insertSorted lt x (stableSort lt xs)

/-- The order of two rows by the stored text of one column, ascending or descending. -/
def columnLt (heading : Str) (ascending : Bool) (row1 row2 : StrMap Str) : Bool :=
  if ascending then strLt (cellText heading row1) (cellText heading row2)
  else strLt (cellText heading row2) (cellText heading row1)

/-- The composite order: column `A` ascending, then column `B` descending, on the
stored text. -/
def compositeLt (A B : Str) (row1 row2 : StrMap Str) : Bool :=
  strLt (cellText A row1) (cellText A row2) ||
    (decide (cellText A row1 = cellText A row2) && strLt (cellText B row2) (cellText B row1))

/-- The lexicographic combination of two orders: first `lt1`, then `lt2` among the
elements that `lt1` does not separate. -/
def lexLt {α : Type} (lt1 lt2 : α → α → Bool) (a b : α) : Bool :=
  lt1 a b || (!lt1 a b && !lt1 b a && lt2 a b)

/-- The properties of a comparison that `std::stable_sort` requires (a strict weak
order). -/
structure StrictWeak {α : Type} (lt : α → α → Bool) : Prop where
  asymm : ∀ a b, lt a b = true → lt b a = false
  trans : ∀ a b c, lt a b = true → lt b c = true → lt a c = true
  negtrans : ∀ a b c, lt a b = false → lt b c = false → lt a c = false

/-- Every newline of the text lies inside a quoted region; `inside` tells whether the
text starts inside one. -/
def newlinesQuoted : Bool → Str → Bool
  | _, [] => true
  | inside, c :: cs =>
    if c = '"' then newlinesQuoted (!inside) cs
    else if c = '\n' then inside && newlinesQuoted inside cs
    else newlinesQuoted inside cs

/-- A list of texts that are the pieces of their join: no piece has a comma outside
quoted regions, and every piece but the last ends outside a quoted region. -/
def PieceList : Bool → List Str → Prop
  | _, [] => False
  | inside, [p] => outsideCommas inside p = 0
  | inside, p :: q :: r =>
    outsideCommas inside p = 0 ∧ insideAfter inside p = false ∧ PieceList false (q :: r)

/-- A field value that the round trip admits: it does not contain the placeholder, its
quotes are matched, and it has no comma outside quoted text. -/
def GoodValue (v : Str) : Prop :=
  findFirst sentinel v = none ∧ countQuotes v % 2 = 0 ∧ outsideCommas false v = 0

/-- The pieces into which the newlines cut a text, `cur` being put before the first. -/
def splitNewlines : Str → Str → List Str
  | cur, [] => [cur]
  | cur, c :: cs => if c = '\n' then cur :: splitNewlines [] cs else splitNewlines (cur ++ [c]) cs

/-- A first line and the lines that follow it, each appended behind a newline. -/
def joined (line : Str) (ls : List Str) : Str :=
  line ++ ls.flatMap (fun nextLine => '\n' :: nextLine)

/-- What the reader guarantees for a row: it is a map, its keys are headings, and the
newlines of its values lie inside quoted regions. -/
def RowInv (mHeadings : List Str) (row : StrMap Str) : Prop :=
  KeysAscending row ∧ ∀ e ∈ row, e.1 ∈ mHeadings ∧ newlinesQuoted false e.2 = true


instance : DecidablePred GoodValue := fun v => by
  unfold GoodValue
  infer_instance

/-- One step of the appendage fold: when the current text contains the trigger, a space
and the text to append are added. -/
def appendStep (current : Str) (rule : Str × Str) : Str :=
  if rule.1 <:+: current then current ++ ' ' :: rule.2 else current

/-- The rules listed for a column in the `appendages:` section, in the order of the
lines and, within a line, of the pairs. -/
def rulesFor (columnName : Str) (settingsLines : List (Str × List (Str × Str))) :
    List (Str × Str) :=
  (settingsLines.filter (fun l => decide (l.1 = columnName))).flatMap (fun l => l.2)

/-- Every key of every row is a name of the heading list. -/
def KeysInHeadings (t : CSVReader) : Prop :=
  ∀ row ∈ t.mCsvData, ∀ e ∈ row, e.1 ∈ t.mHeadings

/-- Every key of the row is among the given names. -/
def KeysIn (names : List Str) (row : StrMap Str) : Prop :=
  ∀ e ∈ row, e.1 ∈ names

/-! ### The Gregorian calendar -/

/-- Leap years of the Gregorian calendar. -/
def isLeap (y : Int) : Prop := y % 4 = 0 ∧ (y % 100 ≠ 0 ∨ y % 400 = 0)

instance (y : Int) : Decidable (isLeap y) := by unfold isLeap; infer_instance

/-- The number of days of the month `m` of the year `y`. -/
def daysInMonth (y m : Int) : Int :=
  if m = 2 then (if isLeap y then 29 else 28)
  else if m = 4 ∨ m = 6 ∨ m = 9 ∨ m = 11 then 30 else 31

/-- The date is a date of the calendar. -/
def ValidDate (date : Date) : Prop :=
  1 ≤ date.month ∧ date.month ≤ 12 ∧ 1 ≤ date.day ∧ date.day ≤ daysInMonth date.year date.month

instance (date : Date) : Decidable (ValidDate date) := by unfold ValidDate; infer_instance

/-- The day after a date. -/
def nextDay (date : Date) : Date :=
  if date.day < daysInMonth date.year date.month then { date with day := date.day + 1 }
  else if date.month < 12 then ⟨date.year, date.month + 1, 1⟩
  else ⟨date.year + 1, 1, 1⟩

/-- The day before a date. -/
def prevDay (date : Date) : Date :=
  if 1 < date.day then { date with day := date.day - 1 }
  else if 1 < date.month then ⟨date.year, date.month - 1, daysInMonth date.year (date.month - 1)⟩
  else ⟨date.year - 1, 12, 31⟩

/-- The date `n` whole days after a date (before it, for a negative `n`), found by
stepping from day to day. -/
def addDays (n : Int) (date : Date) : Date :=
  if 0 ≤ n then Nat.iterate nextDay n.toNat date else Nat.iterate prevDay n.natAbs date

/-- The position of a date in the sequence of all days. -/
def dayNumber (date : Date) : Int := daysFromCivil date.year date.month date.day

/-- A date written as two-digit day, two-digit month and the year in decimal, separated
by slashes. -/
def renderDate (date : Date) : Str :=
  twoDigits date.day ++ ['/'] ++ twoDigits date.month ++ ['/'] ++ decimal date.year

/-- The first date whose midnight the nanosecond clock holds in every time zone. -/
def clockFirst : Date := ⟨1677, 9, 23⟩

/-- The last date whose midnight the nanosecond clock holds in every time zone. -/
def clockLast : Date := ⟨2262, 4, 10⟩

/-! ## The replace loop and left-to-right replacement -/

theorem replaceAllSpec_skip (fromStr toStr : Str) (x w : Str) :
    replaceAllSpec fromStr toStr x.length (x ++ w) = replaceAllSpec fromStr toStr 0 w := by
  induction x with
  | nil => simp
  | cons c cs ih => simpa [replaceAllSpec] using ih

theorem isPrefixOf_split {p s : Str} (h : p.isPrefixOf s = true) : ∃ w, s = p ++ w := by
  rw [List.isPrefixOf_iff_prefix] at h
  obtain ⟨w, hw⟩ := h
  exact ⟨w, hw.symm⟩

theorem replaceAllSpec_match (fromStr toStr : Str) (w : Str) (hne : fromStr ≠ []) :
    replaceAllSpec fromStr toStr 0 (fromStr ++ w) = toStr ++ replaceAllSpec fromStr toStr 0 w := by
  cases hf : fromStr with
  | nil => exact absurd hf hne
  | cons f fs =>
    have hp : (f :: fs).isPrefixOf (f :: (fs ++ w)) = true := by
      rw [List.isPrefixOf_iff_prefix]; exact ⟨w, rfl⟩
    have := replaceAllSpec_skip (f :: fs) toStr fs w
    show replaceAllSpec (f :: fs) toStr 0 (f :: (fs ++ w)) = _
    rw [replaceAllSpec, if_pos hp, List.length_cons, Nat.add_sub_cancel, this]

theorem findFirst_none (fromStr toStr : Str) :
    ∀ s : Str, findFirst fromStr s = none → replaceAllSpec fromStr toStr 0 s = s := by
  intro s
  induction s with
  | nil => intro _; rfl
  | cons c cs ih =>
    intro h
    unfold findFirst at h
    split at h
    · cases h
    · rename_i hp
      simp only [Option.map_eq_none'] at h
      simp [replaceAllSpec, hp, ih h]

theorem findFirst_some (fromStr toStr : Str) (hne : fromStr ≠ []) :
    ∀ (s : Str) (i : Nat), findFirst fromStr s = some i →
      ∃ u w, s = u ++ fromStr ++ w ∧ u.length = i ∧
        replaceAllSpec fromStr toStr 0 s = u ++ toStr ++ replaceAllSpec fromStr toStr 0 w := by
  intro s
  induction s with
  | nil =>
    intro i h
    simp [findFirst, hne] at h
  | cons c cs ih =>
    intro i h
    unfold findFirst at h
    split at h
    · rename_i hp
      obtain ⟨w, hw⟩ := isPrefixOf_split hp
      refine ⟨[], w, by simpa using hw, by simpa using h, ?_⟩
      rw [hw, replaceAllSpec_match _ _ _ hne]; simp
    · rename_i hp
      simp only [Option.map_eq_some'] at h
      obtain ⟨j, hj, rfl⟩ := h
      obtain ⟨u, w, hs, hl, hr⟩ := ih j hj
      refine ⟨c :: u, w, by simp [hs], by simp [hl], ?_⟩
      simp [replaceAllSpec, hp, hr]

theorem find_append (done rem needle : Str) :
    find (done ++ rem) needle done.length = (findFirst needle rem).map (· + done.length) := by
  simp [find]

theorem replace_append (done u x w t : Str) :
    replace (done ++ (u ++ x ++ w)) (u.length + done.length) x.length t = (done ++ u ++ t) ++ w := by
  have h1 : (done ++ (u ++ x ++ w)) = (done ++ u) ++ (x ++ w) := by simp
  have h2 : u.length + done.length = (done ++ u).length := by simp [Nat.add_comm]
  unfold replace
  rw [h1, h2, List.take_left, ← List.drop_drop, List.drop_left, List.drop_left]

/-- The replace loop started behind the part `done` of the text ends within
`rem.length + 1` tests and yields the left-to-right replacement of the rest. -/
theorem replaceLoop_eq (fromStr toStr : Str) (hne : fromStr ≠ []) :
    ∀ (fuel : Nat) (done rem : Str), rem.length < fuel →
      replaceLoop fromStr toStr fuel (done ++ rem) done.length
        = some (done ++ replaceAllSpec fromStr toStr 0 rem) := by
  intro fuel
  induction fuel with
  | zero => intro done rem h; omega
  | succ n ih =>
    intro done rem h
    unfold replaceLoop
    rw [find_append]
    cases hf : findFirst fromStr rem with
    | none => simp [findFirst_none fromStr toStr rem hf]
    | some i =>
      obtain ⟨u, w, hs, hl, hr⟩ := findFirst_some fromStr toStr hne rem i hf
      have hlen : 0 < fromStr.length := List.length_pos.mpr hne
      have hw : w.length < n := by
        have : rem.length = u.length + fromStr.length + w.length := by
          rw [hs]; simp [Nat.add_assoc]
        omega
      simp only [Option.map_some']
      rw [hs, ← hl, replace_append]
      have hpos : u.length + done.length + toStr.length = (done ++ u ++ toStr).length := by
        simp; omega
      rw [hpos, ih _ _ hw, ← hs, hr]
      simp

theorem replaceLoop_start (fromStr toStr : Str) (hne : fromStr ≠ []) (fuel : Nat) (s : Str)
    (h : s.length < fuel) :
    replaceLoop fromStr toStr fuel s 0 = some (replaceAllSpec fromStr toStr 0 s) := by
  simpa using replaceLoop_eq fromStr toStr hne fuel [] s h

/-! ## The order of strings and maps -/

theorem strLt_irrefl (a : Str) : strLt a a = false := by
  induction a with
  | nil => rfl
  | cons c cs ih => simp [strLt, ih]

theorem strLt_trans : ∀ (a b c : Str), strLt a b = true → strLt b c = true → strLt a c = true := by
  intro a
  induction a with
  | nil =>
    intro b c hab hbc
    cases b with
    | nil => simp [strLt] at hab
    | cons y ys =>
      cases c with
      | nil => simp [strLt] at hbc
      | cons z zs => simp [strLt]
  | cons x xs ih =>
    intro b c hab hbc
    cases b with
    | nil => simp [strLt] at hab
    | cons y ys =>
      cases c with
      | nil => simp [strLt] at hbc
      | cons z zs =>
        simp only [strLt] at hab hbc ⊢
        by_cases h1 : x.toNat < y.toNat
        · by_cases h2 : y.toNat < z.toNat
          · simp [Nat.lt_trans h1 h2]
          · simp only [h2, if_false] at hbc
            by_cases h3 : z.toNat < y.toNat
            · simp [h3] at hbc
            · have : x.toNat < z.toNat := by omega
              simp [this]
        · simp only [h1, if_false] at hab
          by_cases h1' : y.toNat < x.toNat
          · simp [h1'] at hab
          · simp only [h1', if_false] at hab
            by_cases h2 : y.toNat < z.toNat
            · have : x.toNat < z.toNat := by omega
              simp [this]
            · simp only [h2, if_false] at hbc
              by_cases h3 : z.toNat < y.toNat
              · simp [h3] at hbc
              · simp only [h3, if_false] at hbc
                have e1 : ¬ x.toNat < z.toNat := by omega
                have e2 : ¬ z.toNat < x.toNat := by omega
                simp only [e1, e2, if_false]
                exact ih ys zs hab hbc

theorem char_eq_of_toNat_eq (a b : Char) (h : a.toNat = b.toNat) : a = b := by
  apply Char.ext
  apply UInt32.ext
  exact h

theorem strLt_total : ∀ (a b : Str), strLt a b = false → strLt b a = false → a = b := by
  intro a
  induction a with
  | nil =>
    intro b hab _
    cases b with
    | nil => rfl
    | cons y ys => simp [strLt] at hab
  | cons x xs ih =>
    intro b hab hba
    cases b with
    | nil => simp [strLt] at hba
    | cons y ys =>
      simp only [strLt] at hab hba
      by_cases h1 : x.toNat < y.toNat
      · simp [h1] at hab
      · by_cases h2 : y.toNat < x.toNat
        · simp [h2] at hba
        · simp only [h1, h2, if_false] at hab hba
          have : x = y := char_eq_of_toNat_eq x y (by omega)
          rw [this, ih ys hab hba]

theorem strLt_asymm (a b : Str) (h : strLt a b = true) : strLt b a = false := by
  cases h2 : strLt b a with
  | false => rfl
  | true =>
    have := strLt_trans a b a h h2
    rw [strLt_irrefl] at this
    cases this

theorem strLt_ne (a b : Str) (h : strLt a b = true) : a ≠ b := by
  intro e
  subst e
  rw [strLt_irrefl] at h
  cases h

/-! ### `std::map` operations -/

theorem mapFind_mapSet_self {V : Type} (k : Str) (v : V) (m : StrMap V) :
    mapFind k (mapSet k v m) = some v := by
  induction m with
  | nil => simp [mapSet, mapFind]
  | cons e rest ih =>
    obtain ⟨k', v'⟩ := e
    unfold mapSet
    split
    · simp [mapFind]
    · split
      · simp [mapFind]
      · rename_i h _
        simp [mapFind, h, ih]

theorem mapFind_mapSet_ne {V : Type} (j k : Str) (v : V) (m : StrMap V) (h : k ≠ j) :
    mapFind j (mapSet k v m) = mapFind j m := by
  induction m with
  | nil => simp [mapSet, mapFind, h]
  | cons e rest ih =>
    obtain ⟨k', v'⟩ := e
    unfold mapSet
    split
    · rename_i hk
      have : k' ≠ j := by rw [hk]; exact h
      simp [mapFind, h, this]
    · split
      · simp [mapFind, h]
      · by_cases hj : k' = j
        · simp [mapFind, hj]
        · simp [mapFind, hj, ih]

theorem mem_mapSet {V : Type} (k : Str) (v : V) (m : StrMap V) (e : Str × V)
    (h : e ∈ mapSet k v m) : e = (k, v) ∨ e ∈ m := by
  induction m with
  | nil => simpa [mapSet] using h
  | cons e' rest ih =>
    obtain ⟨k', v'⟩ := e'
    unfold mapSet at h
    split at h
    · simp only [List.mem_cons] at h ⊢
      rcases h with h | h
      · exact Or.inl h
      · exact Or.inr (Or.inr h)
    · split at h
      · simpa using h
      · simp only [List.mem_cons] at h ⊢
        rcases h with h | h
        · exact Or.inr (Or.inl h)
        · rcases ih h with h | h
          · exact Or.inl h
          · exact Or.inr (Or.inr h)

theorem keysAscending_mapSet {V : Type} (k : Str) (v : V) (m : StrMap V)
    (hm : KeysAscending m) : KeysAscending (mapSet k v m) := by
  induction m with
  | nil => simp [mapSet, KeysAscending]
  | cons e' rest ih =>
    obtain ⟨k', v'⟩ := e'
    unfold KeysAscending at hm ih ⊢
    rw [List.pairwise_cons] at hm
    unfold mapSet
    split
    · rename_i hk
      rw [List.pairwise_cons]
      refine ⟨?_, hm.2⟩
      intro b hb
      rw [← hk]
      exact hm.1 b hb
    · rename_i hk
      split
      · rename_i hlt
        rw [List.pairwise_cons]
        refine ⟨?_, List.pairwise_cons.mpr hm⟩
        intro b hb
        simp only [List.mem_cons] at hb
        rcases hb with hb | hb
        · rw [hb]; exact hlt
        · exact strLt_trans _ _ _ hlt (hm.1 b hb)
      · rename_i hlt
        rw [List.pairwise_cons]
        refine ⟨?_, ih hm.2⟩
        intro b hb
        rcases mem_mapSet k v rest b hb with hb | hb
        · rw [hb]
          cases h2 : strLt k' k with
          | true => rfl
          | false =>
            exact absurd (strLt_total k k' (by simpa using hlt) h2).symm hk
        · exact hm.1 b hb

theorem mapFind_of_mem {V : Type} (m : StrMap V) (hm : KeysAscending m) (k : Str) (v : V)
    (h : (k, v) ∈ m) : mapFind k m = some v := by
  induction m with
  | nil => simp at h
  | cons e rest ih =>
    obtain ⟨k', v'⟩ := e
    unfold KeysAscending at hm ih
    rw [List.pairwise_cons] at hm
    simp only [List.mem_cons, Prod.mk.injEq] at h
    rcases h with h | h
    · simp [mapFind, h.1, h.2]
    · have : k' ≠ k := strLt_ne _ _ (hm.1 (k, v) h)
      simp [mapFind, this, ih hm.2 h]

theorem mem_of_mapFind {V : Type} (m : StrMap V) (k : Str) (v : V)
    (h : mapFind k m = some v) : (k, v) ∈ m := by
  induction m with
  | nil => simp [mapFind] at h
  | cons e rest ih =>
    obtain ⟨k', v'⟩ := e
    unfold mapFind at h
    split at h
    · rename_i hk
      simp only [Option.some.injEq] at h
      simp [← hk, h]
    · exact List.mem_cons_of_mem _ (ih h)

/-! ### Maps with the same lookups -/

theorem keysAscending_tail {V : Type} (e : Str × V) (m : StrMap V)
    (h : KeysAscending (e :: m)) : KeysAscending m :=
  (List.pairwise_cons.mp h).2

theorem mapFind_head_tail {V : Type} (k : Str) (v : V) (m : StrMap V)
    (h : KeysAscending ((k, v) :: m)) : mapFind k m = none := by
  cases hf : mapFind k m with
  | none => rfl
  | some v' =>
    have hm := mem_of_mapFind m k v' hf
    have := (List.pairwise_cons.mp h).1 (k, v') hm
    rw [strLt_irrefl] at this
    cases this

theorem head_eq_of_lookups {V : Type} (k1 k2 : Str) (v1 v2 : V) (r1 r2 : StrMap V)
    (h1 : KeysAscending ((k1, v1) :: r1)) (h2 : KeysAscending ((k2, v2) :: r2))
    (h : ∀ k, mapFind k ((k1, v1) :: r1) = mapFind k ((k2, v2) :: r2)) :
    k1 = k2 ∧ v1 = v2 := by
  have a : mapFind k1 ((k2, v2) :: r2) = some v1 := by rw [← h k1]; simp [mapFind]
  have b : mapFind k2 ((k1, v1) :: r1) = some v2 := by rw [h k2]; simp [mapFind]
  have ma := mem_of_mapFind _ _ _ a
  have mb := mem_of_mapFind _ _ _ b
  rcases List.mem_cons.mp ma with ea | ea
  · simp only [Prod.mk.injEq] at ea; exact ea
  · have lt1 := (List.pairwise_cons.mp h2).1 _ ea
    rcases List.mem_cons.mp mb with eb | eb
    · simp only [Prod.mk.injEq] at eb; exact ⟨eb.1.symm, eb.2.symm⟩
    · have lt2 := (List.pairwise_cons.mp h1).1 _ eb
      rw [strLt_asymm _ _ lt1] at lt2
      cases lt2

/-- Two maps that hold the same value for every key are the same map. -/
theorem strMap_ext {V : Type} (m1 : StrMap V) : ∀ m2 : StrMap V,
    KeysAscending m1 → KeysAscending m2 → (∀ k, mapFind k m1 = mapFind k m2) → m1 = m2 := by
  induction m1 with
  | nil =>
    intro m2 _ _ h
    cases m2 with
    | nil => rfl
    | cons e r =>
      obtain ⟨k, v⟩ := e
      have := h k
      simp [mapFind] at this
  | cons e1 r1 ih =>
    intro m2 h1 h2 h
    obtain ⟨k1, v1⟩ := e1
    cases m2 with
    | nil =>
      have := h k1
      simp [mapFind] at this
    | cons e2 r2 =>
      obtain ⟨k2, v2⟩ := e2
      obtain ⟨hk, hv⟩ := head_eq_of_lookups k1 k2 v1 v2 r1 r2 h1 h2 h
      subst hk
      subst hv
      have hr : r1 = r2 := by
        apply ih r2 (keysAscending_tail _ _ h1) (keysAscending_tail _ _ h2)
        intro k
        by_cases hk : k1 = k
        · subst hk
          rw [mapFind_head_tail _ _ _ h1, mapFind_head_tail _ _ _ h2]
        · have := h k
          simpa [mapFind, hk] using this
      rw [hr]


/-! ## The tokenizer -/

theorem consHead_ne_nil (x : Str) (l : List Str) : consHead x l ≠ [] := by
  cases l <;> simp [consHead]

theorem piecesFrom_ne_nil (inside : Bool) (s : Str) : piecesFrom inside s ≠ [] := by
  cases s with
  | nil => simp [piecesFrom]
  | cons c cs =>
    unfold piecesFrom
    split
    · exact consHead_ne_nil _ _
    · split
      · simp
      · exact consHead_ne_nil _ _

theorem consHead_nil (l : List Str) (h : l ≠ []) : consHead [] l = l := by
  cases l with
  | nil => exact absurd rfl h
  | cons t ts => simp [consHead]

theorem consHead_append (x y : Str) (l : List Str) (h : l ≠ []) :
    consHead x (consHead y l) = consHead (x ++ y) l := by
  cases l with
  | nil => exact absurd rfl h
  | cons t ts => simp [consHead]

theorem map_consHead (f : Str → Str) (hf : ∀ a b, f (a ++ b) = f a ++ f b) (x : Str)
    (l : List Str) (h : l ≠ []) : (consHead x l).map f = consHead (f x) (l.map f) := by
  cases l with
  | nil => exact absurd rfl h
  | cons t ts => simp [consHead, hf]

theorem escapeCommas_append (a b : Str) :
    escapeCommas (a ++ b) = escapeCommas a ++ escapeCommas b := by
  simp [escapeCommas]

theorem escapeCommas_cons (c : Char) (s : Str) :
    escapeCommas (c :: s) = (if c = ',' then sentinel else [c]) ++ escapeCommas s := by
  simp [escapeCommas]

/-- The loop of the tokenizer in terms of the pieces of the text still to be read. -/
theorem splitLoop_eq (s : Str) : ∀ (tokens : List Str) (token : Str) (inside : Bool),
    splitLoop tokens token inside s
      = tokens ++ consHead token ((piecesFrom inside s).map escapeCommas) := by
  induction s with
  | nil => intro tokens token inside; simp [splitLoop, piecesFrom, consHead, escapeCommas]
  | cons c cs ih =>
    intro tokens token inside
    have hne : ∀ i, (piecesFrom i cs).map escapeCommas ≠ [] := by
      intro i; simpa using piecesFrom_ne_nil i cs
    unfold splitLoop piecesFrom
    by_cases hq : c = '"'
    · subst hq
      rw [if_pos rfl, if_pos rfl, ih,
        map_consHead _ escapeCommas_append _ _ (piecesFrom_ne_nil _ _),
        consHead_append _ _ _ (hne _)]
      simp [escapeCommas]
    · rw [if_neg hq, if_neg hq]
      by_cases hc : c = ','
      · subst hc
        cases inside with
        | true =>
          simp only [and_self, if_true, and_false, if_false, true_and, Bool.true_eq_false]
          rw [ih, map_consHead _ escapeCommas_append _ _ (piecesFrom_ne_nil _ _),
            consHead_append _ _ _ (hne _)]
          simp [escapeCommas]
        | false =>
          simp only [and_false, if_false, and_self, if_true, true_and, Bool.false_eq_true]
          rw [ih, consHead_nil _ (hne _)]
          simp [consHead, escapeCommas]
      · simp only [hc, false_and, if_false]
        rw [ih, map_consHead _ escapeCommas_append _ _ (piecesFrom_ne_nil _ _),
          consHead_append _ _ _ (hne _)]
        simp [escapeCommas, hc]

theorem splitLine_eq (line : Str) :
    splitLineAndReplaceCommas line = (piecesFrom false line).map escapeCommas := by
  unfold splitLineAndReplaceCommas
  rw [splitLoop_eq, consHead_nil _ (by simpa using piecesFrom_ne_nil false line)]
  simp

theorem intercalate_consHead (x : Str) (l : List Str) (h : l ≠ []) :
    [','].intercalate (consHead x l) = x ++ [','].intercalate l := by
  cases l with
  | nil => exact absurd rfl h
  | cons t ts =>
    cases ts with
    | nil => simp [consHead, List.intercalate]
    | cons t2 ts2 => simp [consHead, List.intercalate, List.intersperse]

theorem intercalate_cons (t : Str) (l : List Str) (h : l ≠ []) :
    [','].intercalate (t :: l) = t ++ ',' :: [','].intercalate l := by
  cases l with
  | nil => exact absurd rfl h
  | cons t2 ts2 => simp [List.intercalate, List.intersperse]

/-- The pieces of a text, joined by commas, are the text. -/
theorem intercalate_piecesFrom (s : Str) : ∀ inside : Bool,
    [','].intercalate (piecesFrom inside s) = s := by
  induction s with
  | nil => intro inside; simp [piecesFrom, List.intercalate]
  | cons c cs ih =>
    intro inside
    unfold piecesFrom
    split
    · rw [intercalate_consHead _ _ (piecesFrom_ne_nil _ _), ih]; rfl
    · split
      · rename_i h
        rw [intercalate_cons _ _ (piecesFrom_ne_nil _ _), ih, h.1]; rfl
      · rw [intercalate_consHead _ _ (piecesFrom_ne_nil _ _), ih]; rfl

theorem length_consHead (x : Str) (l : List Str) (h : l ≠ []) :
    (consHead x l).length = l.length := by
  cases l with
  | nil => exact absurd rfl h
  | cons t ts => simp [consHead]

/-- The number of pieces is one more than the number of commas outside quoted regions. -/
theorem length_piecesFrom (s : Str) : ∀ inside : Bool,
    (piecesFrom inside s).length = outsideCommas inside s + 1 := by
  induction s with
  | nil => intro inside; simp [piecesFrom, outsideCommas]
  | cons c cs ih =>
    intro inside
    unfold piecesFrom outsideCommas
    split
    · rw [length_consHead _ _ (piecesFrom_ne_nil _ _), ih]
    · split
      · simp [ih]
      · rw [length_consHead _ _ (piecesFrom_ne_nil _ _), ih]

/-! ### The placeholder -/

theorem restoreCommas_eq_spec (s : Str) : restoreCommas s = replaceAllSpec sentinel [','] 0 s := by
  unfold restoreCommas
  rw [replaceLoop_start sentinel [','] (by decide) _ s (Nat.lt_succ_self _)]
  rfl

theorem replaceAllSpec_sentinel (s : Str) : replaceAllSpec sentinel [','] 0 s = restoreRec s := by
  induction s using restoreRec.induct with
  | case1 rest ih =>
    have : sentinel.isPrefixOf ('#' :: '!' :: '*' :: rest) = true := by
      simp [sentinel, List.isPrefixOf]
    rw [replaceAllSpec, if_pos this]
    have h3 : sentinel.length - 1 = 2 := rfl
    rw [h3, replaceAllSpec, replaceAllSpec, restoreRec, ih]
    rfl
  | case2 c rest hn ih =>
    have : sentinel.isPrefixOf (c :: rest) = false := by
      by_contra hc
      simp only [Bool.not_eq_false] at hc
      obtain ⟨w, hw⟩ := isPrefixOf_split hc
      simp only [sentinel] at hw
      have h1 : "#!*".toList = ['#', '!', '*'] := rfl
      rw [h1] at hw
      simp only [List.cons_append, List.nil_append, List.cons.injEq] at hw
      obtain ⟨rfl, rfl⟩ := hw
      exact hn w rfl rfl
    rw [replaceAllSpec]
    simp only [this, Bool.false_eq_true, if_false]
    rw [restoreRec, ih]
    intro r h1 h2; exact hn r h1 h2
  | case3 => rfl

theorem restoreCommas_eq (s : Str) : restoreCommas s = restoreRec s := by
  rw [restoreCommas_eq_spec, replaceAllSpec_sentinel]

theorem restoreRec_sentinel (rest : Str) :
    restoreRec ('#' :: '!' :: '*' :: rest) = ',' :: restoreRec rest := by
  rw [restoreRec]

theorem restoreRec_cons (c : Char) (s : Str)
    (h : ∀ r, c :: s ≠ '#' :: '!' :: '*' :: r) : restoreRec (c :: s) = c :: restoreRec s := by
  rw [restoreRec]
  intro r h1 h2
  exact h r (by rw [h1, h2])

theorem restoreRec_cons_ne (c : Char) (s : Str) (h : c ≠ '#') :
    restoreRec (c :: s) = c :: restoreRec s := by
  apply restoreRec_cons
  intro r hr
  simp only [List.cons.injEq] at hr
  exact h hr.1

/-- A comma ends every partial placeholder: restoring works on both sides of it. -/
theorem restoreRec_append_comma (x y : Str) :
    restoreRec (x ++ ',' :: y) = restoreRec x ++ ',' :: restoreRec y := by
  induction x using restoreRec.induct with
  | case1 rest ih => simp [restoreRec_sentinel, ih]
  | case2 c rest hn ih =>
    have h1 : restoreRec (c :: rest) = c :: restoreRec rest :=
      restoreRec_cons c rest (fun r hr => by
        simp only [List.cons.injEq] at hr
        exact hn r hr.1 hr.2)
    have h2 : restoreRec (c :: (rest ++ ',' :: y)) = c :: restoreRec (rest ++ ',' :: y) := by
      apply restoreRec_cons
      intro r hr
      simp only [List.cons.injEq] at hr
      obtain ⟨hc, hrest⟩ := hr
      cases rest with
      | nil => simp at hrest
      | cons d rest2 =>
        cases rest2 with
        | nil => simp at hrest
        | cons e rest3 =>
          simp only [List.cons_append, List.cons.injEq] at hrest
          exact hn rest3 hc (by rw [hrest.1, hrest.2.1])
    rw [List.cons_append, h2, h1, ih]; rfl
  | case3 => simp [restoreRec, restoreRec_cons_ne]

theorem restoreRec_escapeCommas (x : Str) : restoreRec (escapeCommas x) = restoreRec x := by
  induction x using restoreRec.induct with
  | case1 rest ih =>
    have : escapeCommas ('#' :: '!' :: '*' :: rest) = '#' :: '!' :: '*' :: escapeCommas rest := by
      simp [escapeCommas_cons]
    rw [this, restoreRec_sentinel, restoreRec_sentinel, ih]
  | case2 c rest hn ih =>
    have h1 : restoreRec (c :: rest) = c :: restoreRec rest :=
      restoreRec_cons c rest (fun r hr => by
        simp only [List.cons.injEq] at hr
        exact hn r hr.1 hr.2)
    rw [h1, escapeCommas_cons]
    by_cases hc : c = ','
    · subst hc
      simp only [if_true]
      show restoreRec ('#' :: '!' :: '*' :: escapeCommas rest) = _
      rw [restoreRec_sentinel, ih]
    · simp only [hc, if_false, List.singleton_append]
      rw [restoreRec_cons, ih]
      intro r hr
      simp only [List.cons.injEq] at hr
      obtain ⟨hc2, hrest⟩ := hr
      cases rest with
      | nil => simp [escapeCommas] at hrest
      | cons d rest2 =>
        rw [escapeCommas_cons] at hrest
        by_cases hd : d = ','
        · subst hd; simp [sentinel] at hrest
        · simp only [hd, if_false, List.singleton_append, List.cons.injEq] at hrest
          obtain ⟨hd2, hrest2⟩ := hrest
          cases rest2 with
          | nil => simp [escapeCommas] at hrest2
          | cons e rest3 =>
            rw [escapeCommas_cons] at hrest2
            by_cases he : e = ','
            · subst he; simp [sentinel] at hrest2
            · simp only [he, if_false, List.singleton_append, List.cons.injEq] at hrest2
              exact hn rest3 hc2 (by rw [hd2, hrest2.1])
  | case3 => simp [escapeCommas]

/-- A text without the placeholder is left as it is. -/
theorem restoreRec_of_not_infix (x : Str) (h : ¬ sentinel <:+: x) : restoreRec x = x := by
  induction x using restoreRec.induct with
  | case1 rest ih =>
    exact absurd ⟨[], rest, rfl⟩ h
  | case2 c rest hn ih =>
    rw [restoreRec_cons c rest (fun r hr => by
      simp only [List.cons.injEq] at hr
      exact hn r hr.1 hr.2), ih]
    intro ⟨a, b, hab⟩
    exact h ⟨c :: a, b, by simp [← hab]⟩
  | case3 => rfl

theorem restoreRec_intercalate (l : List Str) :
    restoreRec ([','].intercalate l) = [','].intercalate (l.map restoreRec) := by
  induction l with
  | nil => simp [List.intercalate, restoreRec]
  | cons t ts ih =>
    cases ts with
    | nil => simp [List.intercalate]
    | cons t2 ts2 =>
      rw [intercalate_cons t (t2 :: ts2) (by simp), restoreRec_append_comma, ih]
      show _ = [','].intercalate (restoreRec t :: List.map restoreRec (t2 :: ts2))
      rw [intercalate_cons _ _ (by simp)]

/-- The fields of a line are its pieces, placeholders in them turned into commas. -/
theorem fields_eq (line : Str) : fields line = (piecesFrom false line).map restoreRec := by
  unfold fields
  rw [splitLine_eq, List.map_map]
  apply List.map_congr_left
  intro p _
  simp [restoreCommas_eq, restoreRec_escapeCommas]

/-- The fields of a line, joined by commas, are the line with its placeholders turned
into commas. -/
theorem intercalate_fields (line : Str) : [','].intercalate (fields line) = restoreRec line := by
  rw [fields_eq, ← restoreRec_intercalate, intercalate_piecesFrom]

theorem length_fields (line : Str) : (fields line).length = outsideCommas false line + 1 := by
  rw [fields_eq, List.length_map, length_piecesFrom]

/-! ### Pieces of a concatenation -/

theorem consHead_append_list (x : Str) (pre l : List Str) (h : pre ≠ []) :
    consHead x (pre ++ l) = consHead x pre ++ l := by
  cases pre with
  | nil => exact absurd rfl h
  | cons t ts => simp [consHead]

theorem countQuotes_cons_quote (cs : Str) : countQuotes ('"' :: cs) = countQuotes cs + 1 := by
  simp [countQuotes]

theorem countQuotes_cons_ne (c : Char) (cs : Str) (h : c ≠ '"') :
    countQuotes (c :: cs) = countQuotes cs := by
  simp [countQuotes, List.count_cons, h]

theorem countQuotes_append (a b : Str) : countQuotes (a ++ b) = countQuotes a + countQuotes b := by
  simp [countQuotes]

theorem insideAfter_nil (i : Bool) : insideAfter i [] = i := by
  simp [insideAfter, countQuotes]

theorem insideAfter_cons_quote (i : Bool) (cs : Str) :
    insideAfter i ('"' :: cs) = insideAfter (!i) cs := by
  unfold insideAfter
  rw [countQuotes_cons_quote]
  rcases Nat.mod_two_eq_zero_or_one (countQuotes cs) with h | h
  · have : (countQuotes cs + 1) % 2 = 1 := by omega
    cases i <;> simp [h, this]
  · have : (countQuotes cs + 1) % 2 = 0 := by omega
    cases i <;> simp [h, this]

theorem insideAfter_cons_ne (i : Bool) (c : Char) (cs : Str) (h : c ≠ '"') :
    insideAfter i (c :: cs) = insideAfter i cs := by
  unfold insideAfter
  rw [countQuotes_cons_ne c cs h]

/-- The pieces of a concatenation: the last piece of the first part continues into the
first piece of the second part. -/
theorem piecesFrom_append (p : Str) : ∀ i : Bool, ∃ pre a, piecesFrom i p = pre ++ [a] ∧
    ∀ r, piecesFrom i (p ++ r) = pre ++ consHead a (piecesFrom (insideAfter i p) r) := by
  induction p with
  | nil =>
    intro i
    refine ⟨[], [], by simp [piecesFrom], ?_⟩
    intro r
    rw [insideAfter_nil, consHead_nil _ (piecesFrom_ne_nil _ _)]; rfl
  | cons c cs ih =>
    intro i
    have key : ∀ (j : Bool) (x : Str), ∃ pre a,
        consHead x (piecesFrom j cs) = pre ++ [a] ∧
        ∀ r, consHead x (piecesFrom j (cs ++ r))
          = pre ++ consHead a (piecesFrom (insideAfter j cs) r) := by
      intro j x
      obtain ⟨pre, a, h1, h2⟩ := ih j
      cases pre with
      | nil =>
        refine ⟨[], x ++ a, by simp [h1, consHead], ?_⟩
        intro r
        rw [h2 r]
        simp only [List.nil_append]
        rw [consHead_append _ _ _ (piecesFrom_ne_nil _ _)]
      | cons t ts =>
        refine ⟨(x ++ t) :: ts, a, by simp [h1, consHead], ?_⟩
        intro r
        rw [h2 r]
        simp [consHead]
    by_cases hq : c = '"'
    · subst hq
      obtain ⟨pre, a, h1, h2⟩ := key (!i) ['"']
      refine ⟨pre, a, ?_, ?_⟩
      · rw [piecesFrom, if_pos rfl]; exact h1
      · intro r
        rw [List.cons_append, piecesFrom, if_pos rfl, insideAfter_cons_quote]
        exact h2 r
    · by_cases hc : c = ',' ∧ i = false
      · obtain ⟨pre, a, h1, h2⟩ := ih i
        refine ⟨[] :: pre, a, ?_, ?_⟩
        · rw [piecesFrom, if_neg hq, if_pos hc, h1]; rfl
        · intro r
          rw [List.cons_append, piecesFrom, if_neg hq, if_pos hc, insideAfter_cons_ne _ _ _ hq,
            h2 r]
          rfl
      · obtain ⟨pre, a, h1, h2⟩ := key i [c]
        refine ⟨pre, a, ?_, ?_⟩
        · rw [piecesFrom, if_neg hq, if_neg hc]; exact h1
        · intro r
          rw [List.cons_append, piecesFrom, if_neg hq, if_neg hc, insideAfter_cons_ne _ _ _ hq]
          exact h2 r

/-! ### Pieces and their join -/

theorem insideAfter_append (i : Bool) (a b : Str) :
    insideAfter i (a ++ b) = insideAfter (insideAfter i a) b := by
  induction a generalizing i with
  | nil => rw [insideAfter_nil]; rfl
  | cons c cs ih =>
    by_cases hq : c = '"'
    · subst hq
      rw [List.cons_append, insideAfter_cons_quote, insideAfter_cons_quote, ih]
    · rw [List.cons_append, insideAfter_cons_ne _ _ _ hq, insideAfter_cons_ne _ _ _ hq, ih]

theorem insideAfter_false_iff (p : Str) :
    insideAfter false p = false ↔ countQuotes p % 2 = 0 := by
  unfold insideAfter
  rcases Nat.mod_two_eq_zero_or_one (countQuotes p) with h | h <;> simp [h]

theorem insideAfter_false_true_iff (p : Str) :
    insideAfter false p = true ↔ countQuotes p % 2 = 1 := by
  unfold insideAfter
  rcases Nat.mod_two_eq_zero_or_one (countQuotes p) with h | h <;> simp [h]

theorem outsideCommas_cons_quote (i : Bool) (cs : Str) :
    outsideCommas i ('"' :: cs) = outsideCommas (!i) cs := by
  rw [outsideCommas, if_pos rfl]

theorem piecesFrom_cons_quote (i : Bool) (cs : Str) :
    piecesFrom i ('"' :: cs) = consHead ['"'] (piecesFrom (!i) cs) := by
  rw [piecesFrom, if_pos rfl]

theorem piecesFrom_cons_comma (cs : Str) :
    piecesFrom false (',' :: cs) = [] :: piecesFrom false cs := by
  rw [piecesFrom, if_neg (by decide), if_pos ⟨rfl, rfl⟩]

theorem piecesFrom_cons_other (i : Bool) (c : Char) (cs : Str) (hq : c ≠ '"')
    (hc : ¬ (c = ',' ∧ i = false)) :
    piecesFrom i (c :: cs) = consHead [c] (piecesFrom i cs) := by
  rw [piecesFrom, if_neg hq, if_neg hc]

theorem outsideCommas_cons_comma (cs : Str) :
    outsideCommas false (',' :: cs) = outsideCommas false cs + 1 := by
  rw [outsideCommas, if_neg (by decide), if_pos ⟨rfl, rfl⟩]

theorem outsideCommas_cons_other (i : Bool) (c : Char) (cs : Str) (hq : c ≠ '"')
    (hc : ¬ (c = ',' ∧ i = false)) :
    outsideCommas i (c :: cs) = outsideCommas i cs := by
  rw [outsideCommas, if_neg hq, if_neg hc]

/-- A text without a comma outside quoted regions is one piece. -/
theorem piecesFrom_single (p : Str) : ∀ i : Bool, outsideCommas i p = 0 →
    piecesFrom i p = [p] := by
  induction p with
  | nil => intro i _; rfl
  | cons c cs ih =>
    intro i h
    by_cases hq : c = '"'
    · subst hq
      rw [outsideCommas_cons_quote] at h
      rw [piecesFrom_cons_quote, ih _ h]; rfl
    · by_cases hc : c = ',' ∧ i = false
      · obtain ⟨rfl, rfl⟩ := hc
        rw [outsideCommas_cons_comma] at h
        omega
      · rw [outsideCommas_cons_other _ _ _ hq hc] at h
        rw [piecesFrom_cons_other _ _ _ hq hc, ih _ h]; rfl

/-- The pieces of the join of a piece list are the list. -/
theorem piecesFrom_intercalate (P : List Str) : ∀ i : Bool, PieceList i P →
    piecesFrom i ([','].intercalate P) = P := by
  induction P with
  | nil => intro i h; exact absurd h (by simp [PieceList])
  | cons p rest ih =>
    intro i h
    cases rest with
    | nil =>
      simp only [PieceList] at h
      simpa [List.intercalate] using piecesFrom_single p i h
    | cons q r =>
      simp only [PieceList] at h
      obtain ⟨h1, h2, h3⟩ := h
      rw [intercalate_cons _ _ (by simp)]
      obtain ⟨pre, a, hp, happ⟩ := piecesFrom_append p i
      rw [piecesFrom_single p i h1] at hp
      have hpre : pre = [] ∧ a = p := by
        cases pre with
        | nil => simp at hp; exact ⟨rfl, hp.symm⟩
        | cons t ts =>
          have := congrArg List.length hp
          simp at this
      obtain ⟨rfl, rfl⟩ := hpre
      rw [happ, h2, piecesFrom_cons_comma, ih false h3]
      simp [consHead]

theorem pieceList_consHead (i j : Bool) (x : Str) (P : List Str)
    (ho : ∀ p, outsideCommas i (x ++ p) = outsideCommas j p)
    (hi : ∀ p, insideAfter i (x ++ p) = insideAfter j p) (h : PieceList j P) :
    PieceList i (consHead x P) := by
  cases P with
  | nil => exact absurd h (by simp [PieceList])
  | cons p rest =>
    cases rest with
    | nil =>
      simp only [PieceList] at h
      simp only [consHead, PieceList, ho, h]
    | cons q r =>
      simp only [PieceList] at h
      simp only [consHead, PieceList, ho, hi]
      exact h

/-- The pieces of a text form a piece list. -/
theorem pieceList_piecesFrom (s : Str) : ∀ i : Bool, PieceList i (piecesFrom i s) := by
  induction s with
  | nil => intro i; simp [piecesFrom, PieceList, outsideCommas]
  | cons c cs ih =>
    intro i
    by_cases hq : c = '"'
    · subst hq
      rw [piecesFrom_cons_quote]
      exact pieceList_consHead i (!i) _ _ (fun p => outsideCommas_cons_quote i p)
        (fun p => insideAfter_cons_quote i p) (ih _)
    · by_cases hc : c = ',' ∧ i = false
      · obtain ⟨rfl, rfl⟩ := hc
        rw [piecesFrom_cons_comma]
        have := ih false
        cases hp : piecesFrom false cs with
        | nil => exact absurd hp (piecesFrom_ne_nil _ _)
        | cons q r =>
          rw [hp] at this
          simp only [PieceList]
          exact ⟨rfl, insideAfter_nil false, this⟩
      · rw [piecesFrom_cons_other _ _ _ hq hc]
        exact pieceList_consHead i i _ _ (fun p => outsideCommas_cons_other i c p hq hc)
          (fun p => insideAfter_cons_ne i c p hq) (ih _)

/-! ### Escaped tokens -/

theorem countQuotes_escapeCommas (p : Str) : countQuotes (escapeCommas p) = countQuotes p := by
  induction p with
  | nil => rfl
  | cons c cs ih =>
    rw [escapeCommas_cons]
    by_cases hc : c = ','
    · subst hc
      rw [if_pos rfl, countQuotes_append, ih, countQuotes_cons_ne _ _ (by decide)]
      have : countQuotes sentinel = 0 := by decide
      omega
    · rw [if_neg hc, countQuotes_append, ih]
      show countQuotes [c] + _ = countQuotes ([c] ++ cs)
      rw [countQuotes_append]

theorem insideAfter_escapeCommas (i : Bool) (p : Str) :
    insideAfter i (escapeCommas p) = insideAfter i p := by
  unfold insideAfter
  rw [countQuotes_escapeCommas]

theorem outsideCommas_escapeCommas (p : Str) : ∀ i : Bool, outsideCommas i (escapeCommas p) = 0 := by
  induction p with
  | nil => intro i; rfl
  | cons c cs ih =>
    intro i
    rw [escapeCommas_cons]
    by_cases hc : c = ','
    · subst hc
      rw [if_pos rfl]
      show outsideCommas i ('#' :: '!' :: '*' :: escapeCommas cs) = 0
      rw [outsideCommas_cons_other _ _ _ (by decide) (by simp),
        outsideCommas_cons_other _ _ _ (by decide) (by simp),
        outsideCommas_cons_other _ _ _ (by decide) (by simp)]
      exact ih i
    · rw [if_neg hc]
      show outsideCommas i (c :: escapeCommas cs) = 0
      by_cases hq : c = '"'
      · subst hq
        rw [outsideCommas_cons_quote]; exact ih _
      · rw [outsideCommas_cons_other _ _ _ hq (by simp [hc])]; exact ih _

theorem pieceList_map_escapeCommas (P : List Str) : ∀ i : Bool, PieceList i P →
    PieceList i (P.map escapeCommas) := by
  induction P with
  | nil => intro i h; exact h
  | cons p rest ih =>
    intro i h
    cases rest with
    | nil => simp only [List.map, PieceList]; exact outsideCommas_escapeCommas p i
    | cons q r =>
      simp only [PieceList] at h
      have := ih false h.2.2
      simp only [List.map, PieceList] at this ⊢
      exact ⟨outsideCommas_escapeCommas p i, by rw [insideAfter_escapeCommas]; exact h.2.1, this⟩

theorem escapeCommas_idem (p : Str) : escapeCommas (escapeCommas p) = escapeCommas p := by
  induction p with
  | nil => rfl
  | cons c cs ih =>
    rw [escapeCommas_cons]
    by_cases hc : c = ','
    · subst hc
      rw [if_pos rfl, escapeCommas_append, ih]
      rfl
    · rw [if_neg hc, escapeCommas_append, ih]
      simp [escapeCommas, hc]

/-- Tokenizing the comma-join of the tokens of a line gives the tokens back. -/
theorem splitLine_intercalate_splitLine (line : Str) :
    splitLineAndReplaceCommas ([','].intercalate (splitLineAndReplaceCommas line))
      = splitLineAndReplaceCommas line := by
  rw [splitLine_eq line, splitLine_eq,
    piecesFrom_intercalate _ false
      (pieceList_map_escapeCommas _ false (pieceList_piecesFrom line false)),
    List.map_map]
  apply List.map_congr_left
  intro p _
  exact escapeCommas_idem p

/-! ## The writer -/

theorem writeLoop_eq (size : Nat) (fields : List Str) : ∀ i : Nat, i + fields.length = size →
    writeLoop size i fields = [','].intercalate fields := by
  induction fields with
  | nil => intro i _; simp [writeLoop, List.intercalate]
  | cons f rest ih =>
    intro i hi
    have hsz : sizeMinusOne size = size - 1 := by
      unfold sizeMinusOne
      rw [if_neg]
      simp only [List.length_cons] at hi
      omega
    simp only [List.length_cons] at hi
    rw [writeLoop, hsz, ih (i + 1) (by omega)]
    cases rest with
    | nil =>
      have : ¬ i < size - 1 := by simp only [List.length_nil] at hi; omega
      simp [this, List.intercalate]
    | cons g r =>
      have : i < size - 1 := by simp only [List.length_cons] at hi; omega
      rw [if_pos this, intercalate_cons f (g :: r) (by simp)]
      simp

/-- The text written by `writeCsv`, line by line. -/
theorem writeCsv_eq (self : CSVReader) :
    writeCsv self = writeLine self.mHeadings ++
      (self.mCsvData.map (fun row => writeLine (rowFields self.mHeadings row))).flatten := by
  unfold writeCsv writeLine
  rw [writeLoop_eq _ _ 0 (by simp)]
  congr 1
  apply congrArg
  apply List.map_congr_left
  intro row _
  rw [writeLoop_eq _ _ 0 (by simp [rowFields])]

/-! ## Reading records -/

theorem joinLines_length (rest : List Str) : ∀ (line : Str) (quoteCount : Nat),
    (joinLines line quoteCount rest).2.length ≤ rest.length := by
  induction rest with
  | nil => intro line qc; simp [joinLines]
  | cons n rest ih =>
    intro line qc
    unfold joinLines
    split
    · exact Nat.le_succ_of_le (ih _ _)
    · simp

theorem readLoop_fuel (mHeadings : List Str) : ∀ (fuel fuel' : Nat) (lines : List Str),
    lines.length ≤ fuel → lines.length ≤ fuel' →
      readLoop mHeadings fuel lines = readLoop mHeadings fuel' lines := by
  intro fuel
  induction fuel with
  | zero =>
    intro fuel' lines h _
    have : lines = [] := List.length_eq_zero.mp (Nat.le_zero.mp h)
    subst this
    cases fuel' <;> simp [readLoop]
  | succ n ih =>
    intro fuel' lines h h'
    cases lines with
    | nil => cases fuel' <;> simp [readLoop]
    | cons l rest =>
      cases fuel' with
      | zero => simp at h'
      | succ m =>
        simp only [List.length_cons, Nat.add_le_add_iff_right] at h h'
        have hj := joinLines_length rest l (countQuotes l)
        simp only [readLoop]
        rw [ih m rest h h', ih m _ (Nat.le_trans hj h) (Nat.le_trans hj h')]

theorem readRows_nil (mHeadings : List Str) : readRows mHeadings [] = [] := by
  simp [readRows, readLoop]

/-- The outer loop of `readCsv`, one iteration unfolded. -/
theorem readRows_cons (mHeadings : List Str) (line : Str) (rest : List Str) :
    readRows mHeadings (line :: rest) =
      if line = [] then readRows mHeadings rest
      else buildRow mHeadings (joinLines line (countQuotes line) rest).1 ::
        readRows mHeadings (joinLines line (countQuotes line) rest).2 := by
  unfold readRows
  simp only [List.length_cons, readLoop]
  rw [readLoop_fuel mHeadings rest.length _ _ (joinLines_length rest line (countQuotes line))
    (Nat.le_refl _)]

theorem joinedRecord_succ (line : Str) (rest : List Str) (n : Str) (k : Nat) :
    joinedRecord line (n :: rest) (k + 1) = joinedRecord (line ++ '\n' :: n) rest k := by
  simp [joinedRecord]

/-- The inner loop of `readCsv`: it appends the next `k` lines, the running quote count
being odd before each of them, and stops on an even count or at the end of the input. -/
theorem joinLines_spec (rest : List Str) : ∀ (line : Str),
    ∃ k, k ≤ rest.length ∧
      joinLines line (countQuotes line) rest = (joinedRecord line rest k, rest.drop k) ∧
      (∀ j, j < k → countQuotes (joinedRecord line rest j) % 2 = 1) ∧
      (countQuotes (joinedRecord line rest k) % 2 = 0 ∨ k = rest.length) := by
  induction rest with
  | nil =>
    intro line
    exact ⟨0, Nat.le_refl _, by simp [joinLines, joinedRecord], by intro j hj; omega, Or.inr rfl⟩
  | cons n rest ih =>
    intro line
    by_cases hodd : countQuotes line % 2 ≠ 0
    · obtain ⟨k, hk, hj, hrun, hend⟩ := ih (line ++ '\n' :: n)
      have hc : countQuotes line + countQuotes n = countQuotes (line ++ '\n' :: n) := by
        rw [countQuotes_append, countQuotes_cons_ne _ _ (by decide)]
      refine ⟨k + 1, by simpa using hk, ?_, ?_, ?_⟩
      · rw [joinLines, if_pos hodd, hc, hj, joinedRecord_succ]; rfl
      · intro j hjk
        cases j with
        | zero => simp only [joinedRecord, List.take_zero, List.flatMap_nil, List.append_nil]; omega
        | succ j =>
          rw [joinedRecord_succ]
          exact hrun j (by omega)
      · rw [joinedRecord_succ]
        rcases hend with h | h
        · exact Or.inl h
        · exact Or.inr (by simp [h])
    · refine ⟨0, Nat.zero_le _, ?_, by intro j hj; omega, ?_⟩
      · rw [joinLines, if_neg hodd]; simp [joinedRecord]
      · left
        simp only [joinedRecord, List.take_zero, List.flatMap_nil, List.append_nil]
        omega

/-! ### Newlines and quoted regions -/

theorem newlinesQuoted_append (a b : Str) : ∀ i : Bool,
    newlinesQuoted i (a ++ b) = (newlinesQuoted i a && newlinesQuoted (insideAfter i a) b) := by
  induction a with
  | nil => intro i; simp [newlinesQuoted, insideAfter_nil]
  | cons c cs ih =>
    intro i
    by_cases hq : c = '"'
    · subst hq
      rw [List.cons_append, newlinesQuoted, if_pos rfl, newlinesQuoted, if_pos rfl, ih,
        insideAfter_cons_quote]
    · rw [List.cons_append, newlinesQuoted, if_neg hq, newlinesQuoted, if_neg hq, ih,
        insideAfter_cons_ne _ _ _ hq]
      by_cases hn : c = '\n'
      · simp [hn, Bool.and_assoc]
      · simp [hn]

theorem newlinesQuoted_cons_other (i : Bool) (c : Char) (cs : Str) (hq : c ≠ '"')
    (hn : c ≠ '\n') : newlinesQuoted i (c :: cs) = newlinesQuoted i cs := by
  rw [newlinesQuoted, if_neg hq, if_neg hn]

theorem newlinesQuoted_of_not_mem (s : Str) (h : '\n' ∉ s) : ∀ i : Bool,
    newlinesQuoted i s = true := by
  induction s with
  | nil => intro i; rfl
  | cons c cs ih =>
    intro i
    have hc : c ≠ '\n' := fun e => h (by simp [e])
    have hcs : '\n' ∉ cs := fun e => h (List.mem_cons_of_mem _ e)
    by_cases hq : c = '"'
    · subst hq
      rw [newlinesQuoted, if_pos rfl]; exact ih hcs _
    · rw [newlinesQuoted_cons_other _ _ _ hq hc]; exact ih hcs _

theorem newlinesQuoted_restoreRec (x : Str) : ∀ i : Bool,
    newlinesQuoted i (restoreRec x) = newlinesQuoted i x := by
  induction x using restoreRec.induct with
  | case1 rest ih =>
    intro i
    rw [restoreRec_sentinel, newlinesQuoted_cons_other _ _ _ (by decide) (by decide),
      newlinesQuoted_cons_other _ _ _ (by decide) (by decide),
      newlinesQuoted_cons_other _ _ _ (by decide) (by decide),
      newlinesQuoted_cons_other _ _ _ (by decide) (by decide), ih]
  | case2 c rest hn ih =>
    intro i
    rw [restoreRec_cons c rest (fun r hr => by
      simp only [List.cons.injEq] at hr
      exact hn r hr.1 hr.2)]
    rw [newlinesQuoted, newlinesQuoted, ih, ih]
  | case3 => intro i; rfl

/-- In a piece list the newlines of the join lie inside quoted regions exactly when
those of every piece do. -/
theorem newlinesQuoted_intercalate (P : List Str) : ∀ i : Bool, PieceList i P →
    (newlinesQuoted i ([','].intercalate P) = true ↔
      newlinesQuoted i (P.headD []) = true ∧ ∀ p ∈ P.tail, newlinesQuoted false p = true) := by
  induction P with
  | nil => intro i h; exact absurd h (by simp [PieceList])
  | cons p rest ih =>
    intro i h
    cases rest with
    | nil => simp [List.intercalate]
    | cons q r =>
      simp only [PieceList] at h
      rw [intercalate_cons _ _ (by simp), newlinesQuoted_append, h.2.1,
        newlinesQuoted_cons_other _ _ _ (by decide) (by decide), Bool.and_eq_true,
        ih false h.2.2]
      simp

/-! ### Lines of a text -/

theorem getlinesAux_append (w R : Str) : ∀ cur : Str,
    getlinesAux cur (w ++ '\n' :: R) = splitNewlines cur w ++ getlinesAux [] R := by
  induction w with
  | nil => intro cur; simp [getlinesAux, splitNewlines]
  | cons c cs ih =>
    intro cur
    by_cases hn : c = '\n'
    · subst hn
      simp [getlinesAux, splitNewlines, ih]
    · simp [getlinesAux, splitNewlines, hn, ih]

theorem splitNewlines_of_not_mem (s : Str) (h : '\n' ∉ s) : ∀ cur : Str,
    splitNewlines cur s = [cur ++ s] := by
  induction s with
  | nil => intro cur; simp [splitNewlines]
  | cons c cs ih =>
    intro cur
    have hc : c ≠ '\n' := fun e => h (by simp [e])
    have hcs : '\n' ∉ cs := fun e => h (List.mem_cons_of_mem _ e)
    simp [splitNewlines, hc, ih hcs]

theorem getlinesAux_not_mem (s : Str) : ∀ cur : Str, '\n' ∉ cur →
    ∀ l ∈ getlinesAux cur s, '\n' ∉ l := by
  induction s with
  | nil =>
    intro cur hcur l hl
    unfold getlinesAux at hl
    split at hl
    · simp at hl
    · simp only [List.mem_singleton] at hl
      rw [hl]; exact hcur
  | cons c cs ih =>
    intro cur hcur l hl
    unfold getlinesAux at hl
    split at hl
    · rcases List.mem_cons.mp hl with h | h
      · rw [h]; exact hcur
      · exact ih [] (by simp) l h
    · rename_i hn
      refine ih (cur ++ [c]) ?_ l hl
      intro hm
      rcases List.mem_append.mp hm with h | h
      · exact hcur h
      · simp only [List.mem_singleton] at h
        exact hn h.symm

theorem getlines_not_mem (s : Str) : ∀ l ∈ getlines s, '\n' ∉ l :=
  getlinesAux_not_mem s [] (by simp)

theorem splitNewlines_joined (w : Str) : ∀ cur : Str, ∃ l1 ls,
    splitNewlines cur w = l1 :: ls ∧ cur ++ w = joined l1 ls := by
  induction w with
  | nil => intro cur; exact ⟨cur, [], rfl, by simp [joined]⟩
  | cons c cs ih =>
    intro cur
    by_cases hn : c = '\n'
    · subst hn
      obtain ⟨l1, ls, h1, h2⟩ := ih []
      refine ⟨cur, l1 :: ls, by simp [splitNewlines, h1], ?_⟩
      simp only [List.nil_append] at h2
      simp [joined, h2]
    · obtain ⟨l1, ls, h1, h2⟩ := ih (cur ++ [c])
      refine ⟨l1, ls, by simp [splitNewlines, hn, h1], ?_⟩
      rw [← h2]; simp

theorem joined_cons (line n : Str) (ls : List Str) :
    joined line (n :: ls) = joined (line ++ '\n' :: n) ls := by
  simp [joined]

theorem joined_append (line : Str) (a : List Str) (n : Str) (b : List Str) :
    joined line (a ++ n :: b) = joined line a ++ '\n' :: joined n b := by
  simp [joined]

/-- The inner loop of `readCsv` consumes the lines of a record whose running quote
count is odd up to its last line and even at its end. -/
theorem joinLines_joined (ls : List Str) : ∀ (line : Str) (rest : List Str),
    (∀ a n b, ls = a ++ n :: b → countQuotes (joined line a) % 2 = 1) →
    countQuotes (joined line ls) % 2 = 0 →
    joinLines line (countQuotes line) (ls ++ rest) = (joined line ls, rest) := by
  induction ls with
  | nil =>
    intro line rest _ heven
    have he : countQuotes line % 2 = 0 := by simpa [joined] using heven
    cases rest with
    | nil => simp [joinLines, joined]
    | cons n r =>
      rw [List.nil_append, joinLines, if_neg (by omega)]
      simp [joined]
  | cons n ls ih =>
    intro line rest hodd heven
    have h0 : countQuotes line % 2 = 1 := by
      have := hodd [] n ls rfl
      simpa [joined] using this
    have hc : countQuotes line + countQuotes n = countQuotes (line ++ '\n' :: n) := by
      rw [countQuotes_append, countQuotes_cons_ne _ _ (by decide)]
    rw [List.cons_append, joinLines, if_pos (by omega), hc, ih (line ++ '\n' :: n) rest ?_ ?_,
      joined_cons]
    · intro a m b hs
      rw [← joined_cons]
      exact hodd (n :: a) m b (by rw [hs]; rfl)
    · rw [← joined_cons]; exact heven

/-! ### Reading a written record -/

theorem newlinesQuoted_cons_newline (cs : Str) : newlinesQuoted false ('\n' :: cs) = false := by
  rw [newlinesQuoted, if_neg (by decide), if_pos rfl]; rfl

/-- A record whose newlines lie inside quoted regions and whose quotes are matched is
read back as one record from its physical lines. -/
theorem readRows_record (mHeadings : List Str) (w : Str) (rest : List Str) (hne : w ≠ [])
    (hnl : newlinesQuoted false w = true) (heven : countQuotes w % 2 = 0) :
    readRows mHeadings (splitNewlines [] w ++ rest)
      = buildRow mHeadings w :: readRows mHeadings rest := by
  obtain ⟨l1, ls, h1, h2⟩ := splitNewlines_joined w []
  rw [List.nil_append] at h2
  have hl1 : l1 ≠ [] := by
    intro e
    subst e
    cases ls with
    | nil => exact hne (by simpa [joined] using h2)
    | cons n b =>
      have : w = '\n' :: joined n b := by rw [h2]; simp [joined]
      rw [this, newlinesQuoted_cons_newline] at hnl
      cases hnl
  have hj := joinLines_joined ls l1 rest ?_ ?_
  · rw [h1, List.cons_append, readRows_cons, if_neg hl1, hj, ← h2]
  · intro a n b hs
    rw [h2, hs, joined_append, newlinesQuoted_append, Bool.and_eq_true] at hnl
    have h3 := hnl.2
    cases hi : insideAfter false (joined l1 a) with
    | true => exact (insideAfter_false_true_iff _).mp hi
    | false =>
      rw [hi, newlinesQuoted_cons_newline] at h3
      cases h3
  · rw [← h2]; exact heven

/-! ### Rows built by the reader -/

theorem keysAscending_fillRow (hs ts : List Str) : ∀ acc : StrMap Str,
    KeysAscending acc → KeysAscending (fillRow hs ts acc) := by
  induction hs generalizing ts with
  | nil => intro acc h; simpa [fillRow] using h
  | cons h hs ih =>
    intro acc hacc
    cases ts with
    | nil => simpa [fillRow] using hacc
    | cons t ts => exact ih ts _ (keysAscending_mapSet _ _ _ hacc)

theorem mem_fillRow (hs ts : List Str) : ∀ (acc : StrMap Str) (e : Str × Str),
    e ∈ fillRow hs ts acc → e ∈ acc ∨ (e.1 ∈ hs ∧ ∃ t ∈ ts, e.2 = restoreCommas t) := by
  induction hs generalizing ts with
  | nil => intro acc e h; left; simpa [fillRow] using h
  | cons h hs ih =>
    intro acc e he
    cases ts with
    | nil => left; simpa [fillRow] using he
    | cons t ts =>
      rcases ih ts _ e he with h1 | ⟨h1, t', ht', h2⟩
      · rcases mem_mapSet _ _ _ _ h1 with h3 | h3
        · right
          rw [h3]
          exact ⟨List.mem_cons_self _ _, t, List.mem_cons_self _ _, rfl⟩
        · exact Or.inl h3
      · right
        exact ⟨List.mem_cons_of_mem _ h1, t', List.mem_cons_of_mem _ ht', h2⟩

theorem mapFind_fillRow (f g : Str → Str) (hfg : ∀ h, restoreCommas (f h) = g h) (k : Str)
    (hs : List Str) : ∀ acc : StrMap Str,
    mapFind k (fillRow hs (hs.map f) acc) = if k ∈ hs then some (g k) else mapFind k acc := by
  induction hs with
  | nil => intro acc; simp [fillRow]
  | cons h hs ih =>
    intro acc
    rw [List.map_cons, fillRow, ih, hfg]
    by_cases hk : k ∈ hs
    · simp [hk]
    · by_cases hkh : h = k
      · subst hkh
        simp [hk, mapFind_mapSet_self]
      · have : k ∉ h :: hs := by
          intro hm
          rcases List.mem_cons.mp hm with e | e
          · exact hkh e.symm
          · exact hk e
        rw [if_neg hk, if_neg this, mapFind_mapSet_ne _ _ _ _ hkh]

theorem rowInv_buildRow (mHeadings : List Str) (line : Str)
    (hnl : newlinesQuoted false line = true) : RowInv mHeadings (buildRow mHeadings line) := by
  refine ⟨keysAscending_fillRow _ _ [] (by simp [KeysAscending]), ?_⟩
  intro e he
  rcases mem_fillRow _ _ _ _ he with h | ⟨h1, t, ht, h2⟩
  · simp at h
  · refine ⟨h1, ?_⟩
    rw [splitLine_eq] at ht
    obtain ⟨p, hp, rfl⟩ := List.mem_map.mp ht
    rw [h2, restoreCommas_eq, restoreRec_escapeCommas, newlinesQuoted_restoreRec]
    have hP := pieceList_piecesFrom line false
    have := (newlinesQuoted_intercalate _ false hP).mp
      (by rw [intercalate_piecesFrom]; exact hnl)
    cases hpc : piecesFrom false line with
    | nil => rw [hpc] at hp; simp at hp
    | cons p0 ps =>
      rw [hpc] at this hp
      rcases List.mem_cons.mp hp with e | e
      · rw [e]; exact this.1
      · exact this.2 p e

theorem joinLines_newlinesQuoted (rest : List Str) : ∀ line : Str,
    (∀ l ∈ rest, '\n' ∉ l) → newlinesQuoted false line = true →
      newlinesQuoted false (joinLines line (countQuotes line) rest).1 = true := by
  induction rest with
  | nil => intro line _ h; simpa [joinLines] using h
  | cons n rest ih =>
    intro line hrest hline
    rw [joinLines]
    split
    · rename_i hodd
      have hc : countQuotes line + countQuotes n = countQuotes (line ++ '\n' :: n) := by
        rw [countQuotes_append, countQuotes_cons_ne _ _ (by decide)]
      rw [hc]
      apply ih _ (fun l hl => hrest l (List.mem_cons_of_mem _ hl))
      rw [newlinesQuoted_append, hline, (insideAfter_false_true_iff line).mpr (by omega)]
      rw [newlinesQuoted, if_neg (by decide), if_pos rfl,
        newlinesQuoted_of_not_mem n (hrest n (List.mem_cons_self _ _))]
      rfl
    · exact hline

theorem joinLines_snd_mem (rest : List Str) : ∀ (line : Str) (qc : Nat),
    ∀ x ∈ (joinLines line qc rest).2, x ∈ rest := by
  induction rest with
  | nil => intro line qc x hx; simp [joinLines] at hx
  | cons n rest ih =>
    intro line qc x hx
    rw [joinLines] at hx
    split at hx
    · exact List.mem_cons_of_mem _ (ih _ _ x hx)
    · exact hx

theorem rowInv_readRows (mHeadings : List Str) : ∀ (n : Nat) (lines : List Str),
    lines.length ≤ n → (∀ l ∈ lines, '\n' ∉ l) →
      ∀ row ∈ readRows mHeadings lines, RowInv mHeadings row := by
  intro n
  induction n with
  | zero =>
    intro lines hlen _ row hrow
    have : lines = [] := List.length_eq_zero.mp (Nat.le_zero.mp hlen)
    subst this
    rw [readRows_nil] at hrow
    simp at hrow
  | succ n ih =>
    intro lines hlen hlines row hrow
    cases lines with
    | nil => rw [readRows_nil] at hrow; simp at hrow
    | cons l rest =>
      have hrest : ∀ x ∈ rest, '\n' ∉ x := fun x hx => hlines x (List.mem_cons_of_mem _ hx)
      have hlen' : rest.length ≤ n := by simpa using hlen
      rw [readRows_cons] at hrow
      split at hrow
      · exact ih rest hlen' hrest row hrow
      · rcases List.mem_cons.mp hrow with h | h
        · rw [h]
          apply rowInv_buildRow
          exact joinLines_newlinesQuoted rest l hrest
            (newlinesQuoted_of_not_mem l (hlines l (List.mem_cons_self _ _)) false)
        · refine ih _ (Nat.le_trans (joinLines_length rest l _) hlen') ?_ row h
          intro x hx
          exact hrest x (joinLines_snd_mem rest l _ x hx)

/-! ### The written text -/

theorem mem_intercalate (c : Char) (ts : List Str) (h : c ∈ [','].intercalate ts) :
    c = ',' ∨ ∃ t ∈ ts, c ∈ t := by
  induction ts with
  | nil => simp [List.intercalate] at h
  | cons t rest ih =>
    cases rest with
    | nil =>
      right
      exact ⟨t, List.mem_cons_self _ _, by simpa [List.intercalate] using h⟩
    | cons q r =>
      rw [intercalate_cons _ _ (by simp)] at h
      rcases List.mem_append.mp h with h1 | h1
      · exact Or.inr ⟨t, List.mem_cons_self _ _, h1⟩
      · rcases List.mem_cons.mp h1 with h2 | h2
        · exact Or.inl h2
        · rcases ih h2 with h3 | ⟨t', ht', h3⟩
          · exact Or.inl h3
          · exact Or.inr ⟨t', List.mem_cons_of_mem _ ht', h3⟩

theorem mem_intercalate_of_mem (c : Char) (ts : List Str) (t : Str) (ht : t ∈ ts)
    (hc : c ∈ t) : c ∈ [','].intercalate ts := by
  induction ts with
  | nil => simp at ht
  | cons t0 rest ih =>
    cases rest with
    | nil =>
      simp only [List.mem_singleton] at ht
      subst ht
      simpa [List.intercalate] using hc
    | cons q r =>
      rw [intercalate_cons _ _ (by simp)]
      rcases List.mem_cons.mp ht with e | e
      · subst e
        exact List.mem_append_left _ hc
      · exact List.mem_append_right _ (List.mem_cons_of_mem _ (ih e))

theorem not_mem_escapeCommas (p : Str) (h : '\n' ∉ p) : '\n' ∉ escapeCommas p := by
  induction p with
  | nil => simp [escapeCommas]
  | cons c cs ih =>
    have hc : c ≠ '\n' := fun e => h (by simp [e])
    have hcs : '\n' ∉ cs := fun e => h (List.mem_cons_of_mem _ e)
    rw [escapeCommas_cons]
    intro hm
    rcases List.mem_append.mp hm with h1 | h1
    · by_cases hcomma : c = ','
      · rw [if_pos hcomma] at h1
        revert h1
        decide
      · rw [if_neg hcomma] at h1
        simp only [List.mem_singleton] at h1
        exact hc h1.symm
    · exact ih hcs h1

/-- The written heading line holds no newline. -/
theorem not_mem_heading_line (line : Str) (h : '\n' ∉ line) :
    '\n' ∉ [','].intercalate (splitLineAndReplaceCommas line) := by
  intro hm
  rcases mem_intercalate _ _ hm with h1 | ⟨t, ht, h1⟩
  · revert h1; decide
  · rw [splitLine_eq] at ht
    obtain ⟨p, hp, rfl⟩ := List.mem_map.mp ht
    refine not_mem_escapeCommas p ?_ h1
    intro hn
    apply h
    have := mem_intercalate_of_mem _ _ p hp hn
    rwa [intercalate_piecesFrom] at this

theorem countQuotes_intercalate (vs : List Str) (h : ∀ v ∈ vs, countQuotes v % 2 = 0) :
    countQuotes ([','].intercalate vs) % 2 = 0 := by
  induction vs with
  | nil => simp [List.intercalate, countQuotes]
  | cons v rest ih =>
    cases rest with
    | nil => simpa [List.intercalate] using h v (List.mem_cons_self _ _)
    | cons q r =>
      rw [intercalate_cons _ _ (by simp), countQuotes_append, countQuotes_cons_ne _ _ (by decide)]
      have h1 := h v (List.mem_cons_self _ _)
      have h2 := ih (fun u hu => h u (List.mem_cons_of_mem _ hu))
      omega

theorem pieceList_of_values (vs : List Str) (hne : vs ≠ [])
    (h : ∀ v ∈ vs, outsideCommas false v = 0 ∧ countQuotes v % 2 = 0) :
    PieceList false vs := by
  induction vs with
  | nil => exact absurd rfl hne
  | cons v rest ih =>
    cases rest with
    | nil => simp only [PieceList]; exact (h v (List.mem_cons_self _ _)).1
    | cons q r =>
      simp only [PieceList]
      have hv := h v (List.mem_cons_self _ _)
      exact ⟨hv.1, (insideAfter_false_iff v).mpr hv.2,
        ih (by simp) (fun u hu => h u (List.mem_cons_of_mem _ hu))⟩

theorem restoreCommas_escapeCommas_of_good (v : Str) (h : findFirst sentinel v = none) :
    restoreCommas (escapeCommas v) = v := by
  rw [restoreCommas_eq, restoreRec_escapeCommas, ← restoreCommas_eq, restoreCommas_eq_spec,
    findFirst_none _ _ _ h]

theorem rowFields_eq (mHeadings : List Str) (row : StrMap Str) :
    rowFields mHeadings row = mHeadings.map (fun h => cellText h row) := rfl

/-- A row that the reader built, with admissible values and a value for every
heading, is built again from its written line. -/
theorem buildRow_written (mHeadings : List Str) (hne : mHeadings ≠ []) (row : StrMap Str)
    (hinv : RowInv mHeadings row) (hgood : ∀ e ∈ row, GoodValue e.2)
    (hkeys : ∀ h ∈ mHeadings, mapFind h row ≠ none) :
    buildRow mHeadings ([','].intercalate (rowFields mHeadings row)) = row ∧
    newlinesQuoted false ([','].intercalate (rowFields mHeadings row)) = true ∧
    countQuotes ([','].intercalate (rowFields mHeadings row)) % 2 = 0 := by
  have hmem : ∀ h ∈ mHeadings, (h, cellText h row) ∈ row := by
    intro h hh
    cases hf : mapFind h row with
    | none => exact absurd hf (hkeys h hh)
    | some v =>
      have : cellText h row = v := by simp [cellText, hf]
      rw [this]
      exact mem_of_mapFind _ _ _ hf
  have hvals : ∀ v ∈ rowFields mHeadings row,
      GoodValue v ∧ newlinesQuoted false v = true := by
    intro v hv
    rw [rowFields_eq] at hv
    obtain ⟨h, hh, rfl⟩ := List.mem_map.mp hv
    exact ⟨hgood _ (hmem h hh), (hinv.2 _ (hmem h hh)).2⟩
  have hvne : rowFields mHeadings row ≠ [] := by
    rw [rowFields_eq]
    simpa using hne
  have hP : PieceList false (rowFields mHeadings row) :=
    pieceList_of_values _ hvne (fun v hv => ⟨(hvals v hv).1.2.2, (hvals v hv).1.2.1⟩)
  refine ⟨?_, ?_, ?_⟩
  · unfold buildRow
    rw [splitLine_eq, piecesFrom_intercalate _ false hP, rowFields_eq, List.map_map]
    apply strMap_ext _ _ (keysAscending_fillRow _ _ [] (by simp [KeysAscending])) hinv.1
    intro k
    have hfg : ∀ h, restoreCommas ((escapeCommas ∘ fun h => cellText h row) h)
        = (fun h => if h ∈ mHeadings then cellText h row
            else restoreCommas (escapeCommas (cellText h row))) h := by
      intro h
      by_cases hh : h ∈ mHeadings
      · simp only [Function.comp, if_pos hh]
        exact restoreCommas_escapeCommas_of_good _ (hgood _ (hmem h hh)).1
      · simp only [Function.comp, if_neg hh]
    rw [mapFind_fillRow _ _ hfg]
    by_cases hk : k ∈ mHeadings
    · rw [if_pos hk]
      simp only [if_pos hk]
      exact (mapFind_of_mem _ hinv.1 _ _ (hmem k hk)).symm
    · rw [if_neg hk]
      cases hf : mapFind k row with
      | none => rfl
      | some v => exact absurd (hinv.2 _ (mem_of_mapFind _ _ _ hf)).1 hk
  · rw [newlinesQuoted_intercalate _ false hP]
    cases hc : rowFields mHeadings row with
    | nil => exact absurd hc hvne
    | cons v0 vs =>
      rw [hc] at hvals
      exact ⟨(hvals v0 (List.mem_cons_self _ _)).2,
        fun p hp => (hvals p (List.mem_cons_of_mem _ hp)).2⟩
  · exact countQuotes_intercalate _ (fun v hv => (hvals v hv).1.2.1)

theorem splitLineAndReplaceCommas_ne_nil (line : Str) : splitLineAndReplaceCommas line ≠ [] := by
  rw [splitLine_eq]
  simpa using piecesFrom_ne_nil false line

/-- Reading the written rows gives the rows back. -/
theorem readRows_written (mHeadings : List Str) (hne : mHeadings ≠ []) (rows : List (StrMap Str))
    (hrows : ∀ row ∈ rows, RowInv mHeadings row ∧ (∀ e ∈ row, GoodValue e.2) ∧
      (∀ h ∈ mHeadings, mapFind h row ≠ none) ∧
      [','].intercalate (rowFields mHeadings row) ≠ []) :
    readRows mHeadings (getlinesAux []
        (rows.map (fun row => writeLine (rowFields mHeadings row))).flatten) = rows := by
  induction rows with
  | nil => simp [getlinesAux, readRows_nil]
  | cons row rest ih =>
    obtain ⟨hinv, hgood, hkeys, hline⟩ := hrows row (List.mem_cons_self _ _)
    obtain ⟨h1, h2, h3⟩ := buildRow_written mHeadings hne row hinv hgood hkeys
    have : ((row :: rest).map (fun row => writeLine (rowFields mHeadings row))).flatten
        = [','].intercalate (rowFields mHeadings row) ++ '\n' ::
          (rest.map (fun row => writeLine (rowFields mHeadings row))).flatten := by
      simp [writeLine]
    rw [this, getlinesAux_append, readRows_record _ _ _ hline h2 h3, h1,
      ih (fun r hr => hrows r (List.mem_cons_of_mem _ hr))]

theorem readCsv_fresh (file : Str) :
    readCsv CSVReader.fresh file
      = ⟨splitLineAndReplaceCommas ((getlines file).headD []),
         readRows (splitLineAndReplaceCommas ((getlines file).headD [])) (getlines file).tail⟩ := by
  simp [readCsv, CSVReader.fresh]

/-- The round trip of a table that the reader built. -/
theorem readCsv_writeCsv (x : Str)
    (hgood : ∀ row ∈ (readCsv CSVReader.fresh x).mCsvData, ∀ e ∈ row, GoodValue e.2)
    (hkeys : ∀ row ∈ (readCsv CSVReader.fresh x).mCsvData,
      ∀ h ∈ (readCsv CSVReader.fresh x).mHeadings, mapFind h row ≠ none)
    (hline : ∀ row ∈ (readCsv CSVReader.fresh x).mCsvData,
      [','].intercalate (rowFields (readCsv CSVReader.fresh x).mHeadings row) ≠ []) :
    readCsv CSVReader.fresh (writeCsv (readCsv CSVReader.fresh x))
      = readCsv CSVReader.fresh x := by
  have hl0 : '\n' ∉ (getlines x).headD [] := by
    cases hL : getlines x with
    | nil => simp
    | cons l ls =>
      have := getlines_not_mem x l (by rw [hL]; exact List.mem_cons_self _ _)
      simpa using this
  have htail : ∀ l ∈ (getlines x).tail, '\n' ∉ l :=
    fun l hl => getlines_not_mem x l (List.mem_of_mem_tail hl)
  rw [readCsv_fresh x] at hgood hkeys hline ⊢
  generalize hhs : splitLineAndReplaceCommas ((getlines x).headD []) = hs at hgood hkeys hline ⊢
  have hinv := rowInv_readRows hs _ (getlines x).tail (Nat.le_refl _) htail
  generalize readRows hs (getlines x).tail = rows at hgood hkeys hline hinv ⊢
  have hne : hs ≠ [] := by rw [← hhs]; exact splitLineAndReplaceCommas_ne_nil _
  have hw0 : '\n' ∉ [','].intercalate hs := by
    rw [← hhs]; exact not_mem_heading_line _ hl0
  have hsplit : splitLineAndReplaceCommas ([','].intercalate hs) = hs := by
    rw [← hhs]; exact splitLine_intercalate_splitLine _
  have hlines : getlines (writeCsv ⟨hs, rows⟩)
      = [','].intercalate hs ::
        getlinesAux [] (rows.map (fun row => writeLine (rowFields hs row))).flatten := by
    have : writeCsv ⟨hs, rows⟩ = [','].intercalate hs ++ '\n' ::
        (rows.map (fun row => writeLine (rowFields hs row))).flatten := by
      rw [writeCsv_eq]
      simp [writeLine]
    rw [this, getlines, getlinesAux_append, splitNewlines_of_not_mem _ hw0]
    rfl
  rw [readCsv_fresh, hlines]
  simp only [List.headD_cons, List.tail_cons, hsplit]
  rw [readRows_written hs hne rows
    (fun row hr => ⟨hinv row hr, hgood row hr, hkeys row hr, hline row hr⟩)]

/-! ## Column replacements -/

theorem replaceListed_cons (p : Str × Str) (rest : List (Str × Str)) (cell : Str) :
    replaceListed (p :: rest) cell = replaceListed rest (replaceAllSpec p.1 p.2 0 cell) := by
  simp [replaceListed]

/-- The pair loop on one cell ends, with enough fuel, in the cell to which the pairs of
the map were applied in the order of the map. -/
theorem applyPairs_eq (m : StrMap Str) (hne : ∀ p ∈ m, p.1 ≠ []) :
    ∀ cell : Str, ∃ n, ∀ fuel, n ≤ fuel → applyPairs fuel m cell = some (replaceListed m cell) := by
  induction m with
  | nil => intro cell; exact ⟨0, fun fuel _ => by simp [applyPairs, replaceListed]⟩
  | cons p rest ih =>
    intro cell
    obtain ⟨fromStr, toStr⟩ := p
    have hf : fromStr ≠ [] := hne (fromStr, toStr) (List.mem_cons_self _ _)
    obtain ⟨n, hn⟩ := ih (fun q hq => hne q (List.mem_cons_of_mem _ hq))
      (replaceAllSpec fromStr toStr 0 cell)
    refine ⟨max (cell.length + 1) n, ?_⟩
    intro fuel hfuel
    have h1 : cell.length < fuel := by omega
    have h2 : n ≤ fuel := by omega
    rw [applyPairs, replaceLoop_start fromStr toStr hf fuel cell h1]
    simp only [replaceListed_cons]
    exact hn fuel h2

theorem keysAscending_buildReplacementMap_aux (pairs : List (Str × Str)) :
    ∀ m : StrMap Str, KeysAscending m →
      KeysAscending (pairs.foldl (fun replacementMap pair => mapSet pair.1 pair.2 replacementMap) m) := by
  induction pairs with
  | nil => intro m hm; exact hm
  | cons p rest ih =>
    intro m hm
    exact ih _ (keysAscending_mapSet _ _ _ hm)

theorem keysAscending_buildReplacementMap (pairs : List (Str × Str)) :
    KeysAscending (buildReplacementMap pairs) :=
  keysAscending_buildReplacementMap_aux pairs [] (by simp [KeysAscending])

theorem mapFind_append_singleton (k : Str) (l : List (Str × Str)) (p : Str × Str) :
    mapFind k (p :: l) = if p.1 = k then some p.2 else mapFind k l := by
  obtain ⟨a, b⟩ := p
  simp [mapFind]

theorem mapFind_buildReplacementMap_aux (k : Str) (pairs : List (Str × Str)) :
    ∀ m : StrMap Str,
      mapFind k (pairs.foldl (fun replacementMap pair => mapSet pair.1 pair.2 replacementMap) m)
        = (mapFind k pairs.reverse).orElse (fun _ => mapFind k m) := by
  induction pairs with
  | nil => intro m; simp [mapFind]
  | cons p rest ih =>
    intro m
    have hrev : ∀ l : List (Str × Str), mapFind k (l ++ [p])
        = (mapFind k l).orElse (fun _ => if p.1 = k then some p.2 else none) := by
      intro l
      induction l with
      | nil => obtain ⟨a, b⟩ := p; simp [mapFind]
      | cons q l ihl =>
        obtain ⟨a, b⟩ := q
        by_cases ha : a = k
        · simp [mapFind, ha]
        · simp only [List.cons_append, mapFind, ha, if_false]
          exact ihl
    rw [List.foldl_cons, ih, List.reverse_cons, hrev]
    by_cases hp : p.1 = k
    · rw [← hp, mapFind_mapSet_self]
      cases mapFind p.1 rest.reverse <;> simp
    · rw [mapFind_mapSet_ne _ _ _ _ hp]
      cases mapFind k rest.reverse <;> simp [hp]

/-- The value the map holds for a `from` text is the `to` text of the last listed pair
with that `from` text. -/
theorem mapFind_buildReplacementMap (k : Str) (pairs : List (Str × Str)) :
    mapFind k (buildReplacementMap pairs) = mapFind k pairs.reverse := by
  unfold buildReplacementMap
  rw [mapFind_buildReplacementMap_aux]
  cases mapFind k pairs.reverse <;> simp [mapFind]

theorem mem_buildReplacementMap (pairs : List (Str × Str)) (p : Str × Str)
    (h : p ∈ buildReplacementMap pairs) : p ∈ pairs := by
  obtain ⟨k, v⟩ := p
  have h1 := mapFind_of_mem _ (keysAscending_buildReplacementMap pairs) k v h
  rw [mapFind_buildReplacementMap] at h1
  simpa using mem_of_mapFind _ k v h1

theorem getHeadingIndexByName_of_mem (mHeadings : List Str) (h : Str) (hm : h ∈ mHeadings) :
    ∃ i, getHeadingIndexByName mHeadings h = some i := by
  induction mHeadings with
  | nil => simp at hm
  | cons a rest ih =>
    by_cases ha : a = h
    · exact ⟨0, by simp [getHeadingIndexByName, ha]⟩
    · have : h ∈ rest := by
        rcases List.mem_cons.mp hm with e | e
        · exact absurd e.symm ha
        · exact e
      obtain ⟨i, hi⟩ := ih this
      exact ⟨i + 1, by simp [getHeadingIndexByName, ha, hi]⟩

theorem getHeadingIndexByName_of_not_mem (mHeadings : List Str) (h : Str) (hm : h ∉ mHeadings) :
    getHeadingIndexByName mHeadings h = none := by
  induction mHeadings with
  | nil => rfl
  | cons a rest ih =>
    have ha : a ≠ h := fun e => hm (by simp [e])
    have hr : h ∉ rest := fun e => hm (List.mem_cons_of_mem _ e)
    simp [getHeadingIndexByName, ha, ih hr]

theorem replaceRows_single (mHeadings : List Str) (heading : Str) (m : StrMap Str)
    (hh : heading ∈ mHeadings) (hne : ∀ p ∈ m, p.1 ≠ []) (rows : List (StrMap Str)) :
    ∃ n, ∀ fuel, n ≤ fuel → replaceRows fuel mHeadings [(heading, m)] rows
      = some (rows.map (fun row => mapSet heading (replaceListed m (cellText heading row)) row)) := by
  obtain ⟨i, hi⟩ := getHeadingIndexByName_of_mem mHeadings heading hh
  induction rows with
  | nil => exact ⟨0, fun fuel _ => by simp [replaceRows]⟩
  | cons row rest ih =>
    obtain ⟨n, hn⟩ := ih
    obtain ⟨k, hk⟩ := applyPairs_eq m hne (cellText heading row)
    refine ⟨max n k, ?_⟩
    intro fuel hfuel
    have h1 : n ≤ fuel := by omega
    have h2 : k ≤ fuel := by omega
    simp [replaceRows, replaceRow, hi, hk fuel h2, hn fuel h1]

theorem not_mem_of_mapFind_none {V : Type} (m : StrMap V) (k : Str) (h : mapFind k m = none) :
    ∀ v, (k, v) ∉ m := by
  induction m with
  | nil => intro v; simp
  | cons e rest ih =>
    obtain ⟨k', v'⟩ := e
    unfold mapFind at h
    split at h
    · cases h
    · rename_i hk
      intro v hm
      rcases List.mem_cons.mp hm with e | e
      · simp only [Prod.mk.injEq] at e
        exact hk e.1.symm
      · exact ih h v e

/-- Pairs listed in strictly ascending order of their `from` text are kept in this
order. -/
theorem buildReplacementMap_of_ascending (pairs : List (Str × Str)) (h : KeysAscending pairs) :
    buildReplacementMap pairs = pairs := by
  apply strMap_ext _ _ (keysAscending_buildReplacementMap pairs) h
  intro k
  rw [mapFind_buildReplacementMap]
  cases hf : mapFind k pairs.reverse with
  | none =>
    cases hp : mapFind k pairs with
    | none => rfl
    | some v =>
      exact absurd (List.mem_reverse.mpr (mem_of_mapFind _ _ _ hp))
        (not_mem_of_mapFind_none _ _ hf v)
  | some v =>
    exact (mapFind_of_mem _ h _ _ (List.mem_reverse.mp (mem_of_mapFind _ _ _ hf))).symm

/-- The order in which the code applies the pairs of a heading: they are kept in a map
keyed by the `from` text, so they apply in strictly ascending byte order of the `from`
text, one pair for each `from` text, its `to` text being that of the last listed pair
with this `from` text. For pairs with non-empty `from` texts the loop over the map ends
and yields the cell to which replace-all was applied for the entries of the map in this
order. Only pairs listed in strictly ascending order of their `from` texts are applied
in the listed order. -/
theorem doColumnReplacements_map_order (pairs : List (Str × Str)) (hne : ∀ p ∈ pairs, p.1 ≠ []) :
    KeysAscending (buildReplacementMap pairs) ∧
    (∀ k, mapFind k (buildReplacementMap pairs) = mapFind k pairs.reverse) ∧
    (∀ cell : Str, ∃ n, ∀ fuel, n ≤ fuel →
      applyPairs fuel (buildReplacementMap pairs) cell
        = some (replaceListed (buildReplacementMap pairs) cell)) ∧
    (∀ (self : CSVReader) (heading : Str), heading ∈ self.mHeadings →
      ∃ n, ∀ fuel, n ≤ fuel →
        doColumnReplacements fuel [(heading, pairs)] self
          = some { mHeadings := self.mHeadings
                   mCsvData := self.mCsvData.map (fun row =>
                     mapSet heading
                       (replaceListed (buildReplacementMap pairs) (cellText heading row)) row) }) ∧
    (KeysAscending pairs → buildReplacementMap pairs = pairs) := by
  have hne' : ∀ p ∈ buildReplacementMap pairs, p.1 ≠ [] :=
    fun p hp => hne p (mem_buildReplacementMap pairs p hp)
  refine ⟨keysAscending_buildReplacementMap pairs,
    fun k => mapFind_buildReplacementMap k pairs,
    applyPairs_eq _ hne', ?_, buildReplacementMap_of_ascending pairs⟩
  intro self heading hh
  obtain ⟨i, hi⟩ := getHeadingIndexByName_of_mem self.mHeadings heading hh
  obtain ⟨n, hn⟩ := replaceRows_single self.mHeadings heading (buildReplacementMap pairs) hh hne'
    self.mCsvData
  refine ⟨n, fun fuel hfuel => ?_⟩
  have hb : buildReplacements self.mHeadings [(heading, pairs)]
      = [(heading, buildReplacementMap pairs)] := by
    simp [buildReplacements, hi, mapSet]
  unfold doColumnReplacements
  rw [hb, hn fuel hfuel]

/-! ## Description dates -/

theorem isDateText_length (m : Str) (h : isDateText m = true) : m.length = 8 := by
  rcases m with _ | ⟨a1, _ | ⟨a2, _ | ⟨a3, _ | ⟨a4, _ | ⟨a5, _ | ⟨a6, _ | ⟨a7, _ | ⟨a8, _ | ⟨a9, r⟩⟩⟩⟩⟩⟩⟩⟩⟩
    <;> simp [isDateText] at h ⊢

theorem dateAt_append (m q : Str) (h : isDateText m = true) : dateAt (m ++ q) = true := by
  unfold dateAt
  rw [← isDateText_length m h, List.take_left]
  exact h

theorem dateAt_split (s : Str) (h : dateAt s = true) :
    s = s.take 8 ++ s.drop 8 ∧ isDateText (s.take 8) = true :=
  ⟨(List.take_append_drop 8 s).symm, h⟩

theorem regexSearchDate_none (s : Str) (h : regexSearchDate s = none) : NoDate s := by
  induction s with
  | nil =>
    intro p m q hs
    have hm : m = [] := by
      have := congrArg List.length hs
      simp at this
      exact List.length_eq_zero.mp (by omega)
    subst hm
    rfl
  | cons c cs ih =>
    unfold regexSearchDate at h
    split at h
    · cases h
    · rename_i hd
      intro p m q hs
      cases p with
      | nil =>
        cases hm : isDateText m with
        | false => rfl
        | true =>
          have := dateAt_append m q hm
          rw [List.nil_append] at hs
          rw [← hs] at this
          exact absurd this hd
      | cons x p' =>
        simp only [List.cons_append, List.cons.injEq] at hs
        exact ih h p' m q hs.2

theorem regexReplaceDate_skip (x q : Str) :
    regexReplaceDate x.length (x ++ q) = regexReplaceDate 0 q := by
  induction x with
  | nil => rfl
  | cons c cs ih => simpa [regexReplaceDate] using ih

theorem regexReplaceDate_match (m q : Str) (h : isDateText m = true) :
    regexReplaceDate 0 (m ++ q) = regexReplaceDate 0 q := by
  have hl := isDateText_length m h
  cases m with
  | nil => simp at hl
  | cons c cs =>
    have hd : dateAt (c :: (cs ++ q)) = true := dateAt_append (c :: cs) q h
    have h7 : cs.length = 7 := by simpa using hl
    show regexReplaceDate 0 (c :: (cs ++ q)) = _
    rw [regexReplaceDate, if_pos hd, ← h7, regexReplaceDate_skip]

theorem regexReplaceDate_noDate (s : Str) (h : regexSearchDate s = none) :
    regexReplaceDate 0 s = s := by
  induction s with
  | nil => rfl
  | cons c cs ih =>
    unfold regexSearchDate at h
    split at h
    · cases h
    · rename_i hd
      rw [regexReplaceDate, if_neg hd, ih h]

/-- The search reports the leftmost match, and the replacement removes it and goes on
behind it. -/
theorem regexSearchDate_some (s : Str) : ∀ m, regexSearchDate s = some m →
    ∃ p q, s = p ++ m ++ q ∧ LeftmostDate p m q ∧
      regexReplaceDate 0 s = p ++ regexReplaceDate 0 q := by
  induction s with
  | nil => intro m h; simp [regexSearchDate] at h
  | cons c cs ih =>
    intro m h
    unfold regexSearchDate at h
    split at h
    · rename_i hd
      simp only [Option.some.injEq] at h
      obtain ⟨h1, h2⟩ := dateAt_split _ hd
      rw [h] at h1 h2
      refine ⟨[], (c :: cs).drop 8, by simpa using h1, ⟨h2, ?_⟩, ?_⟩
      · intro p' m' q' _ _; simp
      · have h3 := regexReplaceDate_match m ((c :: cs).drop 8) h2
        rw [← h1] at h3
        rw [h3, List.nil_append]
    · rename_i hd
      obtain ⟨p, q, hs, ⟨hm, hleft⟩, hr⟩ := ih m h
      refine ⟨c :: p, q, by simp [hs], ⟨hm, ?_⟩, ?_⟩
      · intro p' m' q' he hm'
        cases p' with
        | nil =>
          exfalso
          have := dateAt_append m' q' hm'
          rw [List.nil_append] at he
          rw [← he] at this
          simp only [List.cons_append, ← hs] at this
          exact hd this
        | cons x p2 =>
          simp only [List.cons_append, List.cons.injEq] at he
          have := hleft p2 m' q' he.2 hm'
          simp only [List.length_cons]
          omega
      · rw [regexReplaceDate, if_neg hd, hr]
        simp

theorem datesRemoved_regexReplaceDate : ∀ (n : Nat) (s : Str), s.length ≤ n →
    DatesRemoved s (regexReplaceDate 0 s) := by
  intro n
  induction n with
  | zero =>
    intro s hs
    have : s = [] := List.length_eq_zero.mp (Nat.le_zero.mp hs)
    subst this
    exact DatesRemoved.none [] (regexSearchDate_none [] rfl)
  | succ n ih =>
    intro s hs
    cases h : regexSearchDate s with
    | none =>
      rw [regexReplaceDate_noDate s h]
      exact DatesRemoved.none s (regexSearchDate_none s h)
    | some m =>
      obtain ⟨p, q, hsplit, hleft, hr⟩ := regexSearchDate_some s m h
      have hm := isDateText_length m hleft.1
      have hq : q.length ≤ n := by
        have := congrArg List.length hsplit
        simp at this
        omega
      rw [hr]
      rw [hsplit]
      exact DatesRemoved.first p m q _ hleft (ih q hq)

/-! ### Rows -/

theorem mapErase_cons {V : Type} (k k' : Str) (v' : V) (rest : StrMap V) :
    mapErase k ((k', v') :: rest)
      = if k' = k then mapErase k rest else (k', v') :: mapErase k rest := by
  by_cases h : k' = k <;> simp [mapErase, List.filter_cons, h]

theorem mapFind_mapErase_self {V : Type} (k : Str) (m : StrMap V) :
    mapFind k (mapErase k m) = none := by
  induction m with
  | nil => rfl
  | cons e rest ih =>
    obtain ⟨k', v'⟩ := e
    rw [mapErase_cons]
    by_cases h : k' = k
    · rw [if_pos h]; exact ih
    · rw [if_neg h, mapFind, if_neg h]; exact ih

theorem mapFind_mapErase_ne {V : Type} (j k : Str) (m : StrMap V) (h : k ≠ j) :
    mapFind j (mapErase k m) = mapFind j m := by
  induction m with
  | nil => rfl
  | cons e rest ih =>
    obtain ⟨k', v'⟩ := e
    rw [mapErase_cons]
    by_cases hk : k' = k
    · have : k' ≠ j := by rw [hk]; exact h
      rw [if_pos hk, ih, mapFind, if_neg this]
    · rw [if_neg hk]
      by_cases hj : k' = j
      · simp [mapFind, hj]
      · simp [mapFind, hj, ih]

theorem removeHeader_append (pre post : List Str) (name : Str) (h : name ∉ pre) :
    removeHeader (pre ++ post) name = pre ++ removeHeader post name := by
  induction pre with
  | nil => rfl
  | cons a rest ih =>
    have ha : a ≠ name := fun e => h (by simp [e])
    have hr : name ∉ rest := fun e => h (List.mem_cons_of_mem _ e)
    simp [removeHeader, ha, ih hr]

/-! ### Stage 1 and stage 4 on one row -/

theorem descDateRow_none (timeStampOf : Str → Str) (row : StrMap Str)
    (h : regexSearchDate (cellText "*Description".toList row) = none) :
    mapFind "DescDate".toList (descDateRow timeStampOf row) = some "N/A".toList ∧
    mapFind "DescDateTimeStamp".toList (descDateRow timeStampOf row) = some "0".toList ∧
    mapFind "*Description".toList (descDateRow timeStampOf row)
      = some (cellText "*Description".toList row) := by
  simp only [descDateRow, h]
  refine ⟨?_, ?_, ?_⟩
  · rw [mapFind_mapSet_ne _ _ _ _ (by decide), mapFind_mapSet_self]
  · rw [mapFind_mapSet_self]
  · rw [mapFind_mapSet_ne _ _ _ _ (by decide), mapFind_mapSet_ne _ _ _ _ (by decide),
      mapFind_mapSet_self]

theorem descDateRow_some (timeStampOf : Str → Str) (row : StrMap Str) (m : Str)
    (h : regexSearchDate (cellText "*Description".toList row) = some m) :
    mapFind "DescDate".toList (descDateRow timeStampOf row) = some m ∧
    mapFind "DescDateTimeStamp".toList (descDateRow timeStampOf row) = some (timeStampOf m) ∧
    mapFind "*Description".toList (descDateRow timeStampOf row)
      = some (regexReplaceDate 0 (cellText "*Description".toList row)) := by
  simp only [descDateRow, h]
  refine ⟨?_, ?_, ?_⟩
  · rw [mapFind_mapSet_ne _ _ _ _ (by decide), mapFind_mapSet_self]
  · rw [mapFind_mapSet_self]
  · rw [mapFind_mapSet_ne _ _ _ _ (by decide), mapFind_mapSet_ne _ _ _ _ (by decide),
      mapFind_mapSet_self]

theorem cellText_mapSet_ne (j k : Str) (v : Str) (row : StrMap Str) (h : k ≠ j) :
    cellText j (mapSet k v row) = cellText j row := by
  unfold cellText
  rw [mapFind_mapSet_ne _ _ _ _ h]

theorem mapFind_eraseScratch_ne (di ti : Option Nat) (k : Str) (row : StrMap Str)
    (h1 : k ≠ "DescDate".toList) (h2 : k ≠ "DescDateTimeStamp".toList) :
    mapFind k (eraseScratch di ti row) = mapFind k row := by
  unfold eraseScratch
  cases di with
  | none =>
    cases ti with
    | none => simp only [Option.isSome_none, Bool.false_eq_true, if_false]
    | some j =>
      simp only [Option.isSome_none, Option.isSome_some, Bool.false_eq_true, if_false, if_true]
      rw [mapFind_mapErase_ne _ _ _ (Ne.symm h2)]
  | some i =>
    cases ti with
    | none =>
      simp only [Option.isSome_none, Option.isSome_some, Bool.false_eq_true, if_false, if_true]
      rw [mapFind_mapErase_ne _ _ _ (Ne.symm h1)]
    | some j =>
      simp only [Option.isSome_some, if_true]
      rw [mapFind_mapErase_ne _ _ _ (Ne.symm h2), mapFind_mapErase_ne _ _ _ (Ne.symm h1)]

theorem mapFind_eraseScratch_self (i j : Nat) (row : StrMap Str) :
    mapFind "DescDate".toList (eraseScratch (some i) (some j) row) = none ∧
    mapFind "DescDateTimeStamp".toList (eraseScratch (some i) (some j) row) = none := by
  unfold eraseScratch
  simp only [Option.isSome_some, if_true]
  refine ⟨?_, mapFind_mapErase_self _ _⟩
  rw [mapFind_mapErase_ne _ _ _ (by decide), mapFind_mapErase_self]

theorem mapFind_insertDate_description (row : StrMap Str) :
    mapFind "*Description".toList (insertDate row)
      = some (if cellText "*Description".toList row ≠ [] ∧
              (cellText "*Description".toList row).head? = some '"' then
            (cellText "*Description".toList row).take 1
              ++ (cellText "DescDate".toList row ++ " ".toList)
              ++ (cellText "*Description".toList row).drop 1
          else cellText "DescDate".toList row ++ " ".toList
            ++ cellText "*Description".toList row) := by
  simp only [insertDate]
  rw [mapFind_mapSet_self, cellText_mapSet_ne _ _ _ _ (by decide)]

theorem mapFind_insertDate_ne (k : Str) (row : StrMap Str)
    (h1 : k ≠ "*Description".toList) (h2 : k ≠ "DescDate".toList) :
    mapFind k (insertDate row) = mapFind k row := by
  simp only [insertDate]
  rw [mapFind_mapSet_ne _ _ _ _ (Ne.symm h1), mapFind_mapSet_ne _ _ _ _ (Ne.symm h2)]

/-! ## Appendages -/

theorem findFirst_isSome_iff (needle : Str) : ∀ hay : Str,
    (findFirst needle hay).isSome = true ↔ needle <:+: hay := by
  intro hay
  induction hay with
  | nil =>
    unfold findFirst
    by_cases h : needle = []
    · simp [h]
    · simp [h]
  | cons c cs ih =>
    unfold findFirst
    rw [List.infix_cons_iff]
    by_cases hp : needle.isPrefixOf (c :: cs) = true
    · rw [if_pos hp]
      simp only [Option.isSome_some, true_iff]
      exact Or.inl (List.isPrefixOf_iff_prefix.mp hp)
    · rw [if_neg hp]
      have hp' : ¬ needle <+: c :: cs := fun h => hp (List.isPrefixOf_iff_prefix.mpr h)
      simp only [Option.isSome_map', ih, hp', false_or]

theorem find_zero (text key : Str) : find text key 0 = findFirst key text := by
  unfold find
  simp

theorem find_zero_eq_none_iff (text key : Str) : find text key 0 = none ↔ ¬ key <:+: text := by
  rw [find_zero, ← findFirst_isSome_iff]
  cases findFirst key text <;> simp

theorem mapFind_applyRules_ne (columnName c : Str) (h : columnName ≠ c)
    (rules : List (Str × Str)) : ∀ row : StrMap Str,
    mapFind c (applyRules columnName rules row) = mapFind c row := by
  induction rules with
  | nil => intro row; rfl
  | cons rule rest ih =>
    intro row
    obtain ⟨key, value⟩ := rule
    unfold applyRules
    split
    · exact ih row
    · rw [ih, mapFind_mapSet_ne _ _ _ _ h]

theorem cellText_of_mapFind (c : Str) (row : StrMap Str) (text : Str)
    (h : mapFind c row = some text) : cellText c row = text := by
  simp [cellText, h]

/-- The rule loop on the cell of its column is the fold of the appendage step. -/
theorem mapFind_applyRules_self (columnName : Str) (rules : List (Str × Str)) :
    ∀ (row : StrMap Str) (text : Str), mapFind columnName row = some text →
      mapFind columnName (applyRules columnName rules row)
        = some (rules.foldl appendStep text) := by
  induction rules with
  | nil => intro row text h; exact h
  | cons rule rest ih =>
    intro row text h
    obtain ⟨key, value⟩ := rule
    have hc := cellText_of_mapFind _ _ _ h
    unfold applyRules
    rw [hc, List.foldl_cons]
    split
    · rename_i hf
      have : ¬ key <:+: text := (find_zero_eq_none_iff text key).mp hf
      have hs : appendStep text (key, value) = text := by simp [appendStep, this]
      rw [hs]
      exact ih row text h
    · rename_i p hf
      have : key <:+: text := by
        by_contra hn
        rw [(find_zero_eq_none_iff text key).mpr hn] at hf
        cases hf
      have hs : appendStep text (key, value) = text ++ ' ' :: value := by
        simp [appendStep, this]
      rw [hs]
      exact ih _ _ (mapFind_mapSet_self _ _ _)

theorem mapFind_appendRow_ne (c : Str) (m : StrMap (List (Str × Str)))
    (hm : ∀ e ∈ m, e.1 ≠ c) : ∀ row : StrMap Str,
    mapFind c (appendRow m row) = mapFind c row := by
  induction m with
  | nil => intro row; rfl
  | cons e rest ih =>
    intro row
    obtain ⟨columnName, rules⟩ := e
    have hne : columnName ≠ c := hm (columnName, rules) (List.mem_cons_self _ _)
    have ih' := ih (fun e he => hm e (List.mem_cons_of_mem _ he))
    unfold appendRow
    split
    · exact ih' row
    · split
      · rw [ih', mapFind_applyRules_ne _ _ hne]
      · exact ih' row

/-- A cell that contains `Claim Type` is left as it is by the row loop. -/
theorem mapFind_appendRow_guard (c text : Str) (hct : "Claim Type".toList <:+: text)
    (m : StrMap (List (Str × Str))) : ∀ row : StrMap Str, mapFind c row = some text →
    mapFind c (appendRow m row) = some text := by
  induction m with
  | nil => intro row h; exact h
  | cons e rest ih =>
    intro row h
    obtain ⟨columnName, rules⟩ := e
    unfold appendRow
    by_cases hc : columnName = c
    · subst hc
      rw [h]
      dsimp only
      split
      · rename_i hf
        exact absurd hct ((find_zero_eq_none_iff _ _).mp hf)
      · exact ih row h
    · split
      · exact ih row h
      · split
        · exact ih _ (by rw [mapFind_applyRules_ne _ _ hc]; exact h)
        · exact ih row h

theorem not_mem_keys_of_mapFind_none {V : Type} (m : StrMap V) (c : Str)
    (h : mapFind c m = none) : ∀ e ∈ m, e.1 ≠ c := by
  intro e he hc
  obtain ⟨k, v⟩ := e
  simp only at hc
  subst hc
  exact not_mem_of_mapFind_none m k h v he

/-- The row loop on a cell without `Claim Type`: the rules of its column are folded
over the text. -/
theorem mapFind_appendRow_fold (c text : Str) (hct : ¬ "Claim Type".toList <:+: text)
    (m : StrMap (List (Str × Str))) (hm : KeysAscending m) : ∀ row : StrMap Str,
    mapFind c row = some text →
    mapFind c (appendRow m row) = some (((mapFind c m).getD []).foldl appendStep text) := by
  induction m with
  | nil => intro row h; simpa [appendRow, mapFind] using h
  | cons e rest ih =>
    intro row h
    obtain ⟨columnName, rules⟩ := e
    unfold appendRow
    by_cases hc : columnName = c
    · subst hc
      have hrest : ∀ e ∈ rest, e.1 ≠ columnName :=
        not_mem_keys_of_mapFind_none rest columnName (mapFind_head_tail _ _ _ hm)
      rw [h]
      dsimp only
      rw [(find_zero_eq_none_iff _ _).mpr hct]
      dsimp only
      rw [mapFind_appendRow_ne _ _ hrest, mapFind_applyRules_self _ _ _ _ h]
      simp [mapFind]
    · have hfind : mapFind c ((columnName, rules) :: rest) = mapFind c rest := by
        simp [mapFind, hc]
      rw [hfind]
      have ih' := ih (keysAscending_tail _ _ hm)
      split
      · exact ih' row h
      · split
        · exact ih' _ (by rw [mapFind_applyRules_ne _ _ hc]; exact h)
        · exact ih' row h

/-! ### The appendage map -/

theorem keysAscending_addPairs (name : Str) (pairs : List (Str × Str)) :
    ∀ m : StrMap (List (Str × Str)), KeysAscending m →
      KeysAscending (pairs.foldl (fun appendagesMap pair =>
        mapSet name ((mapFind name appendagesMap).getD [] ++ [pair]) appendagesMap) m) := by
  induction pairs with
  | nil => intro m h; exact h
  | cons p rest ih => intro m h; exact ih _ (keysAscending_mapSet _ _ _ h)

theorem keysAscending_buildAppendages_aux (settingsLines : List (Str × List (Str × Str))) :
    ∀ m : StrMap (List (Str × Str)), KeysAscending m →
      KeysAscending (settingsLines.foldl (fun appendagesMap l =>
        l.2.foldl (fun appendagesMap pair =>
          mapSet l.1 ((mapFind l.1 appendagesMap).getD [] ++ [pair]) appendagesMap)
          appendagesMap) m) := by
  induction settingsLines with
  | nil => intro m h; exact h
  | cons l rest ih => intro m h; exact ih _ (keysAscending_addPairs _ _ _ h)

theorem keysAscending_buildAppendages (settingsLines : List (Str × List (Str × Str))) :
    KeysAscending (buildAppendages settingsLines) :=
  keysAscending_buildAppendages_aux settingsLines [] (by simp [KeysAscending])

theorem getD_addPairs (name c : Str) (pairs : List (Str × Str)) :
    ∀ m : StrMap (List (Str × Str)),
      (mapFind c (pairs.foldl (fun appendagesMap pair =>
        mapSet name ((mapFind name appendagesMap).getD [] ++ [pair]) appendagesMap) m)).getD []
        = (mapFind c m).getD [] ++ (if name = c then pairs else []) := by
  induction pairs with
  | nil => intro m; simp
  | cons p rest ih =>
    intro m
    rw [List.foldl_cons, ih]
    by_cases h : name = c
    · subst h
      simp [mapFind_mapSet_self]
    · simp [mapFind_mapSet_ne _ _ _ _ h, h]

theorem getD_buildAppendages_aux (c : Str) (settingsLines : List (Str × List (Str × Str))) :
    ∀ m : StrMap (List (Str × Str)),
      (mapFind c (settingsLines.foldl (fun appendagesMap l =>
        l.2.foldl (fun appendagesMap pair =>
          mapSet l.1 ((mapFind l.1 appendagesMap).getD [] ++ [pair]) appendagesMap)
          appendagesMap) m)).getD []
        = (mapFind c m).getD [] ++ rulesFor c settingsLines := by
  induction settingsLines with
  | nil => intro m; simp [rulesFor]
  | cons l rest ih =>
    intro m
    rw [List.foldl_cons, ih, getD_addPairs]
    by_cases h : l.1 = c
    · simp [rulesFor, h, List.filter_cons]
    · simp [rulesFor, h, List.filter_cons]

/-- The rules that the map holds for a column are the rules listed for it, in the
listed order. -/
theorem getD_buildAppendages (c : Str) (settingsLines : List (Str × List (Str × Str))) :
    (mapFind c (buildAppendages settingsLines)).getD [] = rulesFor c settingsLines := by
  unfold buildAppendages
  rw [getD_buildAppendages_aux]
  simp [mapFind]

/-! ## Rows as a positional zip -/

theorem mapFind_zip_none (k : Str) (hs vs : List Str) (h : k ∉ hs) :
    mapFind k (hs.zip vs) = none := by
  induction hs generalizing vs with
  | nil => rfl
  | cons a rest ih =>
    cases vs with
    | nil => rfl
    | cons v vs =>
      have ha : a ≠ k := fun e => h (by simp [e])
      have hr : k ∉ rest := fun e => h (List.mem_cons_of_mem _ e)
      simp only [List.zip_cons_cons, mapFind, if_neg ha]
      exact ih vs hr

theorem mapFind_fillRow_nodup (hs : List Str) (hnd : hs.Nodup) :
    ∀ (ts : List Str) (acc : StrMap Str) (k : Str),
      mapFind k (fillRow hs ts acc)
        = (mapFind k (hs.zip (ts.map restoreCommas))).orElse (fun _ => mapFind k acc) := by
  induction hs with
  | nil => intro ts acc k; simp [fillRow, mapFind]
  | cons h rest ih =>
    intro ts acc k
    cases ts with
    | nil => simp [fillRow, mapFind]
    | cons t ts =>
      rw [List.nodup_cons] at hnd
      rw [fillRow, ih hnd.2, List.map_cons, List.zip_cons_cons]
      by_cases hk : h = k
      · subst hk
        rw [mapFind_zip_none _ _ _ hnd.1, mapFind_mapSet_self]
        simp [mapFind]
      · rw [mapFind_mapSet_ne _ _ _ _ hk]
        simp [mapFind, hk]

theorem mapFind_zip_some (k v : Str) (hs vs : List Str) (h : mapFind k (hs.zip vs) = some v) :
    ∃ i, ∃ (h1 : i < hs.length) (h2 : i < vs.length), hs[i] = k ∧ vs[i] = v := by
  induction hs generalizing vs with
  | nil => simp [mapFind] at h
  | cons a rest ih =>
    cases vs with
    | nil => simp [mapFind] at h
    | cons w ws =>
      simp only [List.zip_cons_cons, mapFind] at h
      split at h
      · rename_i ha
        simp only [Option.some.injEq] at h
        exact ⟨0, by simp, by simp, by simpa using ha, by simpa using h⟩
      · obtain ⟨i, h1, h2, e1, e2⟩ := ih ws h
        exact ⟨i + 1, by simpa using h1, by simpa using h2, by simpa using e1, by simpa using e2⟩

theorem mapFind_zip_getElem (hs vs : List Str) (hnd : hs.Nodup) (i : Nat)
    (h1 : i < hs.length) (h2 : i < vs.length) : mapFind hs[i] (hs.zip vs) = some vs[i] := by
  induction hs generalizing vs i with
  | nil => simp at h1
  | cons a rest ih =>
    cases vs with
    | nil => simp at h2
    | cons w ws =>
      rw [List.nodup_cons] at hnd
      cases i with
      | zero => simp [mapFind]
      | succ j =>
        have hj1 : j < rest.length := by simpa using h1
        have hj2 : j < ws.length := by simpa using h2
        have hne : a ≠ rest[j] := fun e => hnd.1 (e ▸ List.getElem_mem hj1)
        simp only [List.zip_cons_cons, List.getElem_cons_succ, mapFind, if_neg hne]
        exact ih ws hnd.2 j hj1 hj2

theorem findDaysToAdd_absent (lines : List Str)
    (h : ∀ l ∈ lines, ¬ "due date additional days:".toList <:+: l) :
    findDaysToAdd lines = some 0 := by
  induction lines with
  | nil => rfl
  | cons l rest ih =>
    unfold findDaysToAdd
    rw [(find_zero_eq_none_iff _ _).mpr (h l (List.mem_cons_self _ _))]
    exact ih (fun x hx => h x (List.mem_cons_of_mem _ hx))

/-! ## Row keys and headings -/

theorem getHeadingIndexByName_some_mem (mHeadings : List Str) (name : Str) (i : Nat)
    (h : getHeadingIndexByName mHeadings name = some i) : name ∈ mHeadings := by
  by_contra hn
  rw [getHeadingIndexByName_of_not_mem _ _ hn] at h
  cases h

theorem keysIn_mapSet (names : List Str) (k v : Str) (row : StrMap Str) (hk : k ∈ names)
    (h : KeysIn names row) : KeysIn names (mapSet k v row) := by
  intro e he
  rcases mem_mapSet _ _ _ _ he with e1 | e1
  · rw [e1]; exact hk
  · exact h e e1

theorem keysIn_mono (names names' : List Str) (row : StrMap Str)
    (hsub : ∀ k ∈ names, k ∈ names') (h : KeysIn names row) : KeysIn names' row :=
  fun e he => hsub _ (h e he)

theorem mem_mapErase {V : Type} (k : Str) (m : StrMap V) (e : Str × V) (h : e ∈ mapErase k m) :
    e ∈ m ∧ e.1 ≠ k := by
  unfold mapErase at h
  rw [List.mem_filter] at h
  exact ⟨h.1, by simpa using h.2⟩

theorem mem_removeHeader (headings : List Str) (name k : Str) (hk : k ∈ headings)
    (hne : k ≠ name) : k ∈ removeHeader headings name := by
  induction headings with
  | nil => simp at hk
  | cons a rest ih =>
    unfold removeHeader
    rcases List.mem_cons.mp hk with e | e
    · subst e
      rw [if_neg hne]
      exact List.mem_cons_self _ _
    · split
      · exact e
      · exact List.mem_cons_of_mem _ (ih e)

theorem keysIn_descDateRow (names : List Str) (timeStampOf : Str → Str) (row : StrMap Str)
    (h1 : "*Description".toList ∈ names) (h2 : "DescDate".toList ∈ names)
    (h3 : "DescDateTimeStamp".toList ∈ names) (h : KeysIn names row) :
    KeysIn names (descDateRow timeStampOf row) := by
  unfold descDateRow
  dsimp only
  split
  · exact keysIn_mapSet _ _ _ _ h3 (keysIn_mapSet _ _ _ _ h2 (keysIn_mapSet _ _ _ _ h1
      (keysIn_mapSet _ _ _ _ h1 h)))
  · exact keysIn_mapSet _ _ _ _ h3 (keysIn_mapSet _ _ _ _ h2 (keysIn_mapSet _ _ _ _ h1 h))

theorem keysIn_replaceRow (fuel : Nat) (names : List Str) (m : StrMap (StrMap Str)) :
    ∀ (row out : StrMap Str), KeysIn names row → replaceRow fuel names m row = some out →
      KeysIn names out := by
  induction m with
  | nil =>
    intro row out h hr
    simp only [replaceRow, Option.some.injEq] at hr
    rw [← hr]; exact h
  | cons e rest ih =>
    intro row out h hr
    obtain ⟨heading, replacementMap⟩ := e
    unfold replaceRow at hr
    split at hr
    · exact ih row out h hr
    · rename_i i hi
      split at hr
      · cases hr
      · exact ih _ out (keysIn_mapSet _ _ _ _ (getHeadingIndexByName_some_mem _ _ _ hi) h) hr

theorem keysIn_replaceRows (fuel : Nat) (names : List Str) (m : StrMap (StrMap Str)) :
    ∀ (rows out : List (StrMap Str)), (∀ row ∈ rows, KeysIn names row) →
      replaceRows fuel names m rows = some out → ∀ row ∈ out, KeysIn names row := by
  intro rows
  induction rows with
  | nil =>
    intro out _ hr
    simp only [replaceRows, Option.some.injEq] at hr
    rw [← hr]; simp
  | cons row rest ih =>
    intro out h hr
    unfold replaceRows at hr
    split at hr
    · cases hr
    · rename_i row' hrow
      split at hr
      · cases hr
      · rename_i rest' hrest
        simp only [Option.some.injEq] at hr
        rw [← hr]
        intro r hrm
        rcases List.mem_cons.mp hrm with e | e
        · rw [e]; exact keysIn_replaceRow fuel names m row row' (h row (List.mem_cons_self _ _)) hrow
        · exact ih rest' (fun x hx => h x (List.mem_cons_of_mem _ hx)) hrest r e

theorem mem_insertSortedM {α : Type} (comp : α → α → Option Bool) (x : α) :
    ∀ (l out : List α), insertSortedM comp x l = some out → ∀ z ∈ out, z = x ∨ z ∈ l := by
  intro l
  induction l with
  | nil =>
    intro out h z hz
    simp only [insertSortedM, Option.some.injEq] at h
    rw [← h] at hz
    left; simpa using hz
  | cons y ys ih =>
    intro out h z hz
    unfold insertSortedM at h
    split at h
    · cases h
    · cases hi : insertSortedM comp x ys with
      | none => rw [hi] at h; simp at h
      | some out' =>
        rw [hi] at h
        simp only [Option.map_some', Option.some.injEq] at h
        rw [← h] at hz
        rcases List.mem_cons.mp hz with e | e
        · exact Or.inr (by rw [e]; exact List.mem_cons_self _ _)
        · rcases ih out' hi z e with e1 | e1
          · exact Or.inl e1
          · exact Or.inr (List.mem_cons_of_mem _ e1)
    · simp only [Option.some.injEq] at h
      rw [← h] at hz
      rcases List.mem_cons.mp hz with e | e
      · exact Or.inl e
      · exact Or.inr e

theorem mem_stableSortM {α : Type} (comp : α → α → Option Bool) :
    ∀ (l out : List α), stableSortM comp l = some out → ∀ z ∈ out, z ∈ l := by
  intro l
  induction l with
  | nil =>
    intro out h z hz
    simp only [stableSortM, Option.some.injEq] at h
    rw [← h] at hz
    exact hz
  | cons x xs ih =>
    intro out h z hz
    unfold stableSortM at h
    split at h
    · cases h
    · rename_i sorted hs
      rcases mem_insertSortedM comp x sorted out h z hz with e | e
      · rw [e]; exact List.mem_cons_self _ _
      · exact List.mem_cons_of_mem _ (ih sorted hs z e)

theorem mem_sortLoop (mHeadings : List Str) (order : List (Str × Str)) :
    ∀ (rows out : List (StrMap Str)), sortLoop mHeadings order rows = some out →
      ∀ z ∈ out, z ∈ rows := by
  induction order with
  | nil =>
    intro rows out h z hz
    simp only [sortLoop, Option.some.injEq] at h
    rw [← h] at hz
    exact hz
  | cons o rest ih =>
    intro rows out h z hz
    obtain ⟨heading, ord⟩ := o
    unfold sortLoop at h
    split at h
    · exact ih rows out h z hz
    · split at h
      · cases h
      · rename_i sorted hs
        exact mem_stableSortM _ rows sorted hs z (ih sorted out h z hz)

theorem keysIn_insertDate (names : List Str) (row : StrMap Str)
    (h1 : "*Description".toList ∈ names) (h2 : "DescDate".toList ∈ names)
    (h : KeysIn names row) : KeysIn names (insertDate row) := by
  unfold insertDate
  dsimp only
  exact keysIn_mapSet _ _ _ _ h1 (keysIn_mapSet _ _ _ _ h2 h)

theorem mem_eraseScratch (di ti : Option Nat) (row : StrMap Str) (e : Str × Str)
    (h : e ∈ eraseScratch di ti row) :
    e ∈ row ∧ (di.isSome = true → e.1 ≠ "DescDate".toList) ∧
      (ti.isSome = true → e.1 ≠ "DescDateTimeStamp".toList) := by
  unfold eraseScratch at h
  dsimp only at h
  cases di with
  | none =>
    cases ti with
    | none =>
      simp only [Option.isSome_none, Bool.false_eq_true, if_false] at h
      exact ⟨h, by simp, by simp⟩
    | some j =>
      simp only [Option.isSome_none, Option.isSome_some, Bool.false_eq_true, if_false,
        if_true] at h
      obtain ⟨h1, h2⟩ := mem_mapErase _ _ _ h
      exact ⟨h1, by simp, fun _ => h2⟩
  | some i =>
    cases ti with
    | none =>
      simp only [Option.isSome_none, Option.isSome_some, Bool.false_eq_true, if_false,
        if_true] at h
      obtain ⟨h1, h2⟩ := mem_mapErase _ _ _ h
      exact ⟨h1, fun _ => h2, by simp⟩
    | some j =>
      simp only [Option.isSome_some, if_true] at h
      obtain ⟨h1, h2⟩ := mem_mapErase _ _ _ h
      obtain ⟨h3, h4⟩ := mem_mapErase _ _ _ h1
      exact ⟨h3, fun _ => h4, fun _ => h2⟩

theorem keysInHeadings_applyDateToDescription (t : CSVReader) (h : KeysInHeadings t) :
    KeysInHeadings (applyDateToDescription t) := by
  unfold applyDateToDescription
  dsimp only
  cases hdesc : getHeadingIndexByName t.mHeadings "*Description".toList with
  | none => exact h
  | some idx =>
    dsimp only
    have hd := getHeadingIndexByName_some_mem _ _ _ hdesc
    intro row hrow e he
    dsimp only at hrow ⊢
    obtain ⟨r, hr, rfl⟩ := List.mem_map.mp hrow
    obtain ⟨he1, he2, he3⟩ := mem_eraseScratch _ _ _ _ he
    cases hdi : getHeadingIndexByName t.mHeadings "DescDate".toList with
    | none =>
      rw [hdi] at hr he2
      simp only [Option.isSome_none, Bool.false_eq_true, if_false] at hr ⊢
      have hk : e.1 ∈ t.mHeadings := h r hr e he1
      cases hti : getHeadingIndexByName t.mHeadings "DescDateTimeStamp".toList with
      | none => simpa using hk
      | some j =>
        rw [hti] at he3
        simp only [Option.isSome_some, if_true]
        exact mem_removeHeader _ _ _ hk (he3 rfl)
    | some i =>
      rw [hdi] at hr he2
      simp only [Option.isSome_some, if_true] at hr ⊢
      obtain ⟨r0, hr0, rfl⟩ := List.mem_map.mp hr
      have hdd := getHeadingIndexByName_some_mem _ _ _ hdi
      have hk : e.1 ∈ t.mHeadings := keysIn_insertDate _ r0 hd hdd (h r0 hr0) e he1
      have hk' := mem_removeHeader _ _ _ hk (he2 rfl)
      cases hti : getHeadingIndexByName t.mHeadings "DescDateTimeStamp".toList with
      | none => simpa using hk'
      | some j =>
        rw [hti] at he3
        simp only [Option.isSome_some, if_true]
        exact mem_removeHeader _ _ _ hk' (he3 rfl)

theorem keysIn_updateDueDateRow (zone : Zone) (daysToAdd : Int) (names : List Str)
    (hn : "*DueDate".toList ∈ names) (row : StrMap Str) (h : KeysIn names row) :
    KeysIn names (updateDueDateRow zone daysToAdd row) := by
  unfold updateDueDateRow
  dsimp only
  exact keysIn_mapSet _ _ _ _ hn h

theorem keysIn_applyRules (names : List Str) (columnName : Str) (hc : columnName ∈ names)
    (rules : List (Str × Str)) : ∀ row : StrMap Str, KeysIn names row →
      KeysIn names (applyRules columnName rules row) := by
  induction rules with
  | nil => intro row h; exact h
  | cons rule rest ih =>
    intro row h
    obtain ⟨key, value⟩ := rule
    unfold applyRules
    split
    · exact ih row h
    · exact ih _ (keysIn_mapSet _ _ _ _ hc h)

theorem keysIn_appendRow (names : List Str) (m : StrMap (List (Str × Str))) :
    ∀ row : StrMap Str, KeysIn names row → KeysIn names (appendRow m row) := by
  induction m with
  | nil => intro row h; exact h
  | cons e rest ih =>
    intro row h
    obtain ⟨columnName, rules⟩ := e
    unfold appendRow
    split
    · exact ih row h
    · rename_i text hf
      have hc : columnName ∈ names := h _ (mem_of_mapFind _ _ _ hf)
      split
      · exact ih _ (keysIn_applyRules names columnName hc rules row h)
      · exact ih row h

/-! ## The calendar -/

theorem yoe_recover (yoe doy : Int) (h0 : 0 ≤ yoe) (h1 : yoe < 400) (h2 : 0 ≤ doy)
    (h3 : doy ≤ 365) (h4 : doy = 365 → (yoe + 1) % 4 = 0 ∧ ((yoe + 1) % 100 ≠ 0 ∨ yoe = 399)) :
    (yoe * 365 + yoe / 4 - yoe / 100 + doy - (yoe * 365 + yoe / 4 - yoe / 100 + doy) / 1460
      + (yoe * 365 + yoe / 4 - yoe / 100 + doy) / 36524
      - (yoe * 365 + yoe / 4 - yoe / 100 + doy) / 146096) / 365 = yoe := by
  have hc : yoe / 100 = 0 ∨ yoe / 100 = 1 ∨ yoe / 100 = 2 ∨ yoe / 100 = 3 := by omega
  generalize hdoe : yoe * 365 + yoe / 4 - yoe / 100 + doy = doe
  have hg : doe / 36524 = yoe / 100 ∨ (doe / 36524 = yoe / 100 + 1) := by omega
  have hi : doe / 146096 = 0 ∨ (doe / 146096 = 1 ∧ yoe = 399 ∧ doy = 365) := by omega
  have hf : doe / 1460 = yoe / 4 ∨ doe / 1460 = yoe / 4 + 1 ∨ doe / 1460 = yoe / 4 - 1 := by omega
  rcases hc with hc | hc | hc | hc <;> rcases hg with hg | hg <;> rcases hi with hi | hi <;>
    rcases hf with hf | hf | hf <;> omega

/-- the day of the March-based year and its bounds -/
theorem doy_bounds (y m d : Int) (hv : ValidDate ⟨y, m, d⟩) :
    let mp := if 2 < m then m - 3 else m + 9
    let doy := (153 * mp + 2) / 5 + d - 1
    0 ≤ mp ∧ mp ≤ 11 ∧ 0 ≤ doy ∧ doy ≤ 365 ∧ (doy = 365 → m = 2 ∧ d = 29 ∧ isLeap y) ∧
      (5 * doy + 2) / 153 = mp ∧ doy - (153 * mp + 2) / 5 + 1 = d := by
  obtain ⟨h1, h2, h3, h4⟩ := hv
  simp only at h1 h2 h3 h4
  have hm : m = 1 ∨ m = 2 ∨ m = 3 ∨ m = 4 ∨ m = 5 ∨ m = 6 ∨ m = 7 ∨ m = 8 ∨ m = 9 ∨ m = 10 ∨
      m = 11 ∨ m = 12 := by omega
  unfold daysInMonth at h4
  rcases hm with rfl | rfl | rfl | rfl | rfl | rfl | rfl | rfl | rfl | rfl | rfl | rfl
  all_goals norm_num at h4 ⊢
  all_goals first
    | omega
    | (split at h4 <;> rename_i hl <;> refine ⟨by omega, by omega, ?_, by omega, by omega⟩ <;>
        intro h <;> first | exact ⟨by omega, hl⟩ | omega)

theorem civilFromDays_daysFromCivil (y m d : Int) (hv : ValidDate ⟨y, m, d⟩) :
    civilFromDays (daysFromCivil y m d) = ⟨y, m, d⟩ := by
  obtain ⟨hmp0, hmp1, hdoy0, hdoy1, hleap, hmpr, hdr⟩ := doy_bounds y m d hv
  have hm1 : 1 ≤ m := hv.1
  have hm2 : m ≤ 12 := hv.2.1
  unfold civilFromDays daysFromCivil
  dsimp only
  generalize hy' : (if m ≤ 2 then y - 1 else y) = y' at *
  generalize hmp : (if 2 < m then m - 3 else m + 9) = mp at *
  generalize hdoy : (153 * mp + 2) / 5 + d - 1 = doy at *
  have hyoe0 : 0 ≤ y' % 400 := by omega
  have hyoe1 : y' % 400 < 400 := by omega
  generalize hyoe : y' % 400 = yoe at *
  generalize hera : y' / 400 = era at *
  have hy'e : y' = 400 * era + yoe := by omega
  have hl : doy = 365 → (yoe + 1) % 4 = 0 ∧ ((yoe + 1) % 100 ≠ 0 ∨ yoe = 399) := by
    intro h
    obtain ⟨h2, _, h3⟩ := hleap h
    unfold isLeap at h3
    have : y' = y - 1 := by rw [← hy']; simp [h2]
    omega
  have hrec := yoe_recover yoe doy hyoe0 hyoe1 hdoy0 hdoy1 hl
  generalize hdoe : yoe * 365 + yoe / 4 - yoe / 100 + doy = doe at *
  have hdoe0 : 0 ≤ doe := by omega
  have hdoe1 : doe < 146097 := by omega
  have e1 : (era * 146097 + doe - 719468 + 719468) / 146097 = era := by omega
  have e2 : (era * 146097 + doe - 719468 + 719468) % 146097 = doe := by omega
  rw [e1, e2, hrec]
  have e3 : doe - (365 * yoe + yoe / 4 - yoe / 100) = doy := by omega
  rw [e3, hmpr, hdr]
  have hm : (if mp < 10 then mp + 3 else mp - 9) = m := by
    rw [← hmp]; split <;> split <;> omega
  rw [hm]
  have hyr : (if m ≤ 2 then yoe + era * 400 + 1 else yoe + era * 400) = y := by
    rw [← hy'] at hy'e
    split at hy'e <;> rename_i h
    · rw [if_pos h]; omega
    · rw [if_neg h]; omega
  rw [hyr]


theorem year_step (y : Int) :
    ((y + 1) / 400) * 146097 + ((y + 1) % 400) * 365 + ((y + 1) % 400) / 4 - ((y + 1) % 400) / 100
      = (y / 400) * 146097 + (y % 400) * 365 + (y % 400) / 4 - (y % 400) / 100
        + (if isLeap (y + 1) then 366 else 365) := by
  unfold isLeap
  by_cases h : y % 400 = 399
  · have h1 : (y + 1) % 400 = 0 := by omega
    have h2 : (y + 1) / 400 = y / 400 + 1 := by omega
    split <;> omega
  · have h1 : (y + 1) % 400 = y % 400 + 1 := by omega
    have h2 : (y + 1) / 400 = y / 400 := by omega
    split <;> omega

theorem dayNumber_nextDay (date : Date) (hv : ValidDate date) :
    dayNumber (nextDay date) = dayNumber date + 1 ∧ ValidDate (nextDay date) := by
  obtain ⟨y, m, d⟩ := date
  obtain ⟨h1, h2, h3, h4⟩ := hv
  dsimp only at h1 h2 h3 h4
  unfold nextDay
  dsimp only
  by_cases hd : d < daysInMonth y m
  · rw [if_pos hd]
    refine ⟨?_, h1, h2, by dsimp only; omega, by dsimp only; omega⟩
    unfold dayNumber daysFromCivil
    dsimp only
    omega
  · rw [if_neg hd]
    have hde : d = daysInMonth y m := by omega
    have hm : m = 1 ∨ m = 2 ∨ m = 3 ∨ m = 4 ∨ m = 5 ∨ m = 6 ∨ m = 7 ∨ m = 8 ∨ m = 9 ∨ m = 10 ∨
        m = 11 ∨ m = 12 := by omega
    have ys := year_step (y - 1)
    rw [show y - 1 + 1 = y by omega] at ys
    unfold dayNumber daysFromCivil ValidDate
    unfold daysInMonth at hde ⊢
    rcases hm with rfl | rfl | rfl | rfl | rfl | rfl | rfl | rfl | rfl | rfl | rfl | rfl
    all_goals norm_num at hde ⊢
    all_goals first
      | omega
      | (subst hde; omega)
      | (split at hde <;> split at ys <;> first | omega | contradiction)

theorem dayNumber_prevDay (date : Date) (hv : ValidDate date) :
    dayNumber (prevDay date) = dayNumber date - 1 ∧ ValidDate (prevDay date) := by
  obtain ⟨y, m, d⟩ := date
  obtain ⟨h1, h2, h3, h4⟩ := hv
  dsimp only at h1 h2 h3 h4
  unfold prevDay
  dsimp only
  by_cases hd : 1 < d
  · rw [if_pos hd]
    refine ⟨?_, h1, h2, by dsimp only; omega, by dsimp only; omega⟩
    unfold dayNumber daysFromCivil
    dsimp only
    omega
  · rw [if_neg hd]
    have hde : d = 1 := by omega
    subst hde
    have hm : m = 1 ∨ m = 2 ∨ m = 3 ∨ m = 4 ∨ m = 5 ∨ m = 6 ∨ m = 7 ∨ m = 8 ∨ m = 9 ∨ m = 10 ∨
        m = 11 ∨ m = 12 := by omega
    have ys := year_step (y - 1)
    rw [show y - 1 + 1 = y by omega] at ys
    unfold dayNumber daysFromCivil ValidDate
    unfold daysInMonth
    rcases hm with rfl | rfl | rfl | rfl | rfl | rfl | rfl | rfl | rfl | rfl | rfl | rfl
    all_goals norm_num
    all_goals first
      | omega
      | (split at ys <;> rename_i hl <;> simp only [hl, if_true, if_false] <;> omega)

/-! ## Due dates -/

theorem iterate_nextDay (k : Nat) : ∀ date : Date, ValidDate date →
    ValidDate (Nat.iterate nextDay k date) ∧
      dayNumber (Nat.iterate nextDay k date) = dayNumber date + k := by
  induction k with
  | zero => intro date hv; exact ⟨hv, by simp⟩
  | succ k ih =>
    intro date hv
    obtain ⟨h1, h2⟩ := dayNumber_nextDay date hv
    obtain ⟨h3, h4⟩ := ih (nextDay date) h2
    rw [Function.iterate_succ_apply]
    refine ⟨h3, ?_⟩
    rw [h4, h1]
    push_cast
    ring

theorem iterate_prevDay (k : Nat) : ∀ date : Date, ValidDate date →
    ValidDate (Nat.iterate prevDay k date) ∧
      dayNumber (Nat.iterate prevDay k date) = dayNumber date - k := by
  induction k with
  | zero => intro date hv; exact ⟨hv, by simp⟩
  | succ k ih =>
    intro date hv
    obtain ⟨h1, h2⟩ := dayNumber_prevDay date hv
    obtain ⟨h3, h4⟩ := ih (prevDay date) h2
    rw [Function.iterate_succ_apply]
    refine ⟨h3, ?_⟩
    rw [h4, h1]
    push_cast
    ring

theorem addDays_spec (n : Int) (date : Date) (hv : ValidDate date) :
    ValidDate (addDays n date) ∧ dayNumber (addDays n date) = dayNumber date + n := by
  unfold addDays
  split
  · rename_i h
    obtain ⟨h1, h2⟩ := iterate_nextDay n.toNat date hv
    refine ⟨h1, ?_⟩
    rw [h2, Int.toNat_of_nonneg h]
  · rename_i h
    obtain ⟨h1, h2⟩ := iterate_prevDay n.natAbs date hv
    refine ⟨h1, ?_⟩
    rw [h2]
    omega

theorem civilFromDays_dayNumber_add (n : Int) (date : Date) (hv : ValidDate date) :
    civilFromDays (dayNumber date + n) = addDays n date := by
  obtain ⟨h1, h2⟩ := addDays_spec n date hv
  rw [← h2]
  unfold dayNumber
  exact civilFromDays_daysFromCivil _ _ _ h1

theorem isDigit_digitChar (k : Nat) : isDigit (digitChar k) = true := by
  unfold digitChar
  split <;> decide

theorem isSpace_digitChar (k : Nat) : isSpace (digitChar k) = false := by
  unfold digitChar
  split <;> decide

theorem toNat_digitChar (k : Nat) (h : k < 10) : (digitChar k).toNat - '0'.toNat = k := by
  interval_cases k <;> decide

theorem digitsValue_two (a b : Nat) (ha : a < 10) (hb : b < 10) :
    digitsValue [digitChar a, digitChar b] = 10 * a + b := by
  simp only [digitsValue, List.foldl_cons, List.foldl_nil, toNat_digitChar a ha,
    toNat_digitChar b hb]
  omega

theorem digitsValue_four (a b c d : Nat) (ha : a < 10) (hb : b < 10) (hc : c < 10)
    (hd : d < 10) :
    digitsValue [digitChar a, digitChar b, digitChar c, digitChar d]
      = 1000 * a + 100 * b + 10 * c + d := by
  simp only [digitsValue, List.foldl_cons, List.foldl_nil, toNat_digitChar a ha,
    toNat_digitChar b hb, toNat_digitChar c hc, toNat_digitChar d hd]
  omega

theorem getNum_two (v lo hi : Nat) (hv : v < 100) (hlo : lo ≤ v) (hhi : v ≤ hi) (rest : Str) :
    getNum 2 lo hi (digitChar (v / 10 % 10) :: digitChar (v % 10) :: rest) = some (v, rest) := by
  have hval : digitsValue [digitChar (v / 10 % 10), digitChar (v % 10)] = v := by
    rw [digitsValue_two _ _ (by omega) (by omega)]
    omega
  unfold getNum
  simp only [List.take_succ_cons, List.take_zero, List.takeWhile_cons, isDigit_digitChar,
    if_true, List.takeWhile_nil, hval]
  simp [hlo, hhi]

theorem decimalAux_four (fuel v : Nat) (h1 : 1000 ≤ v) (h2 : v ≤ 9999) :
    decimalAux (fuel + 4) v
      = [digitChar (v / 1000), digitChar (v / 100 % 10), digitChar (v / 10 % 10),
          digitChar (v % 10)] := by
  have e1 : ¬ v < 10 := by omega
  have e2 : ¬ v / 10 < 10 := by omega
  have e3 : ¬ v / 10 / 10 < 10 := by omega
  have e4 : v / 10 / 10 / 10 < 10 := by omega
  have e7 : v / 1000 < 10 := by omega
  have e5 : v / 10 / 10 / 10 = v / 1000 := by omega
  have e6 : v / 10 / 10 % 10 = v / 100 % 10 := by omega
  simp only [decimalAux, e1, e2, e3, e4, e7, if_true, if_false, e5, e6, List.cons_append,
    List.nil_append]

theorem getNum_four (v : Nat) (h1 : 1000 ≤ v) (h2 : v ≤ 9999) :
    getNum 4 0 9999 (decimalAux (v + 1) v) = some (v, []) := by
  obtain ⟨fuel, hf⟩ : ∃ fuel, v + 1 = fuel + 4 := ⟨v - 3, by omega⟩
  rw [hf, decimalAux_four fuel v h1 h2]
  have hval : digitsValue [digitChar (v / 1000), digitChar (v / 100 % 10),
      digitChar (v / 10 % 10), digitChar (v % 10)] = v := by
    rw [digitsValue_four _ _ _ _ (by omega) (by omega) (by omega) (by omega)]
    omega
  unfold getNum
  simp only [List.take_succ_cons, List.take_zero, List.takeWhile_cons, isDigit_digitChar,
    if_true, List.takeWhile_nil, hval]
  simp [h2]

theorem stringToDate_renderDate (date : Date) (hv : ValidDate date)
    (hy1 : 1000 ≤ date.year) (hy2 : date.year ≤ 9999) :
    stringToDate (renderDate date) = ⟨date.day, date.month - 1, date.year - 1900⟩ := by
  obtain ⟨y, m, d⟩ := date
  obtain ⟨hm1, hm2, hd1, hd2⟩ := hv
  dsimp only at hm1 hm2 hd1 hd2 hy1 hy2 ⊢
  have hd3 : d ≤ 31 := by
    unfold daysInMonth at hd2
    split at hd2
    · split at hd2 <;> omega
    · split at hd2 <;> omega
  obtain ⟨dn, rfl⟩ : ∃ dn : Nat, d = dn := ⟨d.toNat, by omega⟩
  obtain ⟨mn, rfl⟩ : ∃ mn : Nat, m = mn := ⟨m.toNat, by omega⟩
  obtain ⟨yn, rfl⟩ : ∃ yn : Nat, y = yn := ⟨y.toNat, by omega⟩
  have hr : renderDate ⟨(yn : Int), (mn : Int), (dn : Int)⟩
      = digitChar (dn / 10 % 10) :: digitChar (dn % 10) :: '/' ::
        digitChar (mn / 10 % 10) :: digitChar (mn % 10) :: '/' :: decimalAux (yn + 1) yn := by
    simp [renderDate, twoDigits, decimal]
  rw [hr]
  unfold stringToDate
  have hs : (digitChar (dn / 10 % 10) :: digitChar (dn % 10) :: '/' ::
        digitChar (mn / 10 % 10) :: digitChar (mn % 10) :: '/' ::
          decimalAux (yn + 1) yn).dropWhile isSpace
      = digitChar (dn / 10 % 10) :: digitChar (dn % 10) :: '/' ::
        digitChar (mn / 10 % 10) :: digitChar (mn % 10) :: '/' :: decimalAux (yn + 1) yn := by
    rw [List.dropWhile_cons, isSpace_digitChar]
    simp
  rw [hs, getNum_two dn 1 31 (by omega) (by omega) (by omega)]
  simp only [getNum_two mn 1 12 (by omega) (by omega) (by omega),
    getNum_four yn (by omega) (by omega)]

theorem hoursToAdd_eq (n : Int) (hn : -2147483648 ≤ 24 * n ∧ 24 * n ≤ 2147483647) :
    hoursToAdd n = 24 * n := by
  unfold hoursToAdd toInt32
  omega

/-- A time point and a number of hours whose sum lies in the range of the clock: the
count of nanoseconds is exact and the conversion back gives the sum in seconds. -/
theorem toTimeT_addHours (t h : Int) (h1 : -9223372036 ≤ t + h * 3600)
    (h2 : t + h * 3600 ≤ 9223372036) :
    toTimeT (addHours (fromTimeT t) h) = t + h * 3600 := by
  have e : addHours (fromTimeT t) h = (t + h * 3600) * 1000000000 := by
    unfold addHours fromTimeT toInt64
    omega
  unfold toTimeT
  rw [e]
  exact Int.mul_tdiv_cancel _ (by decide)

theorem dayNumber_bounds (date : Date) (hv : ValidDate date) (hy1 : 1000 ≤ date.year)
    (hy2 : date.year ≤ 9999) : -354300 ≤ dayNumber date ∧ dayNumber date ≤ 2932900 := by
  obtain ⟨y, m, d⟩ := date
  obtain ⟨_, _, hdoy0, hdoy1, _, _, _⟩ := doy_bounds y m d hv
  have hm1 : 1 ≤ m := hv.1
  have hm2 : m ≤ 12 := hv.2.1
  dsimp only at hy1 hy2 hdoy0 hdoy1
  unfold dayNumber daysFromCivil
  dsimp only
  generalize hmp : (if 2 < m then m - 3 else m + 9) = mp at hdoy0 hdoy1 ⊢
  generalize hdoy : (153 * mp + 2) / 5 + d - 1 = doy at hdoy0 hdoy1 ⊢
  generalize hyy : (if m ≤ 2 then y - 1 else y) = y' at *
  have h1 : 999 ≤ y' := by rw [← hyy]; split <;> omega
  have h2 : y' ≤ 9999 := by rw [← hyy]; split <;> omega
  omega

theorem mktime_of_date (zone : Zone) (date : Date) (hv : ValidDate date) :
    mktime zone ⟨date.day, date.month - 1, date.year - 1900⟩
      = dayNumber date * 86400 - zone.utcOffset := by
  have hm1 : 1 ≤ date.month := hv.1
  have hm2 : date.month ≤ 12 := hv.2.1
  have e1 : date.year - 1900 + 1900 + (date.month - 1) / 12 = date.year := by omega
  have e2 : (date.month - 1) % 12 + 1 = date.month := by omega
  unfold mktime dayNumber
  dsimp only
  rw [e1, e2]

theorem localtime_of_day (zone : Zone)
    (hzone : ∀ t, 0 ≤ zone.dstShift t ∧ zone.dstShift t < 86400) (n : Int) (date : Date)
    (hv : ValidDate date) :
    localtime zone ((dayNumber date + n) * 86400 - zone.utcOffset)
      = ⟨(addDays n date).day, (addDays n date).month - 1, (addDays n date).year - 1900⟩ := by
  unfold localtime
  dsimp only
  generalize hmk : (dayNumber date + n) * 86400 - zone.utcOffset = t
  obtain ⟨hz1, hz2⟩ := hzone t
  have e3 : (t + zone.utcOffset + zone.dstShift t) / 86400 = dayNumber date + n := by
    omega
  rw [e3, civilFromDays_dayNumber_add n date hv]

theorem dateToString_of_date (date : Date) :
    dateToString ⟨date.day, date.month - 1, date.year - 1900⟩ = renderDate date := by
  unfold dateToString renderDate
  dsimp only
  have e1 : date.month - 1 + 1 = date.month := by omega
  have e2 : date.year - 1900 + 1900 = date.year := by omega
  rw [e1, e2]
  simp

/-- The row step on a row whose due date is a date of the calendar with a four-digit
year, when the shifted date lies in the range of the clock. -/
theorem updateDueDateRow_valid (zone : Zone)
    (hzone : ∀ t, 0 ≤ zone.dstShift t ∧ zone.dstShift t < 86400)
    (hoff : -86400 ≤ zone.utcOffset ∧ zone.utcOffset ≤ 86400) (n : Int)
    (row : StrMap Str) (date : Date)
    (hv : ValidDate date) (hy1 : 1000 ≤ date.year) (hy2 : date.year ≤ 9999)
    (hrow : mapFind "*DueDate".toList row = some (renderDate date))
    (hr1 : -106750 ≤ dayNumber (addDays n date))
    (hr2 : dayNumber (addDays n date) ≤ 106750) :
    updateDueDateRow zone n row
      = mapSet "*DueDate".toList (renderDate (addDays n date)) row := by
  obtain ⟨hb1, hb2⟩ := dayNumber_bounds date hv hy1 hy2
  have hadd : dayNumber (addDays n date) = dayNumber date + n := (addDays_spec n date hv).2
  rw [hadd] at hr1 hr2
  have hh : hoursToAdd n = 24 * n := hoursToAdd_eq n ⟨by omega, by omega⟩
  have ht : toTimeT (addHours (fromTimeT (dayNumber date * 86400 - zone.utcOffset)) (24 * n))
      = (dayNumber date + n) * 86400 - zone.utcOffset := by
    rw [toTimeT_addHours _ _ (by omega) (by omega)]
    omega
  unfold updateDueDateRow
  dsimp only
  rw [cellText_of_mapFind _ _ _ hrow, stringToDate_renderDate date hv hy1 hy2,
    mktime_of_date zone date hv, hh, ht, localtime_of_day zone hzone n date hv,
    dateToString_of_date]

theorem updateDueDate_eq (zone : Zone) (settingsFile : Str) (n : Int)
    (hfind : findDaysToAdd (getlines settingsFile) = some n) (hn0 : n ≠ 0)
    (self : CSVReader) (hh : "*DueDate".toList ∈ self.mHeadings) :
    updateDueDate zone settingsFile self
      = some { self with mCsvData := self.mCsvData.map (updateDueDateRow zone n) } := by
  obtain ⟨i, hi⟩ := getHeadingIndexByName_of_mem self.mHeadings "*DueDate".toList hh
  unfold updateDueDate
  rw [hfind]
  dsimp only
  rw [if_neg hn0, hi]

/-! ## The replace loop with an empty text to find -/

theorem findFirst_nil (s : Str) : findFirst [] s = some 0 := by
  cases s with
  | nil => simp [findFirst]
  | cons c cs => simp [findFirst]

theorem find_nil (s : Str) (pos : Nat) (h : pos ≤ s.length) : find s [] pos = some pos := by
  unfold find
  rw [if_neg (by omega), findFirst_nil]
  simp

/-- With the empty text to find the loop test succeeds at `pos` every time: the loop
does not end, whatever the number of tests allowed. -/
theorem replaceLoop_nil (toStr : Str) : ∀ (fuel : Nat) (s : Str) (pos : Nat),
    pos ≤ s.length → replaceLoop [] toStr fuel s pos = none := by
  intro fuel
  induction fuel with
  | zero => intro s pos _; rfl
  | succ n ih =>
    intro s pos h
    unfold replaceLoop
    rw [find_nil s pos h]
    dsimp only
    apply ih
    simp only [replace, List.length_append, List.length_take, List.length_drop,
      List.length_nil]
    omega

/-! ## No placeholder behind `restoreCommas` -/

theorem restoreRec_head (c : Char) (hc : c ≠ ',') : ∀ (s t : Str),
    restoreRec s = c :: t → ∃ s', s = c :: s' ∧ restoreRec s' = t := by
  intro s
  induction s using restoreRec.induct with
  | case1 rest _ =>
    intro t h
    rw [restoreRec_sentinel] at h
    simp only [List.cons.injEq] at h
    exact absurd h.1.symm hc
  | case2 d rest hn _ =>
    intro t h
    rw [restoreRec_cons d rest (fun r hr => by
      simp only [List.cons.injEq] at hr
      exact hn r hr.1 hr.2)] at h
    simp only [List.cons.injEq] at h
    exact ⟨rest, by rw [h.1], h.2⟩
  | case3 =>
    intro t h
    simp [restoreRec] at h

theorem not_prefix_restoreRec (s : Str) : ¬ sentinel <+: restoreRec s := by
  intro ⟨w, hw⟩
  have h0 : restoreRec s = '#' :: ('!' :: '*' :: w) := by rw [← hw]; rfl
  obtain ⟨s1, e1, h1⟩ := restoreRec_head '#' (by decide) s _ h0
  obtain ⟨s2, e2, h2⟩ := restoreRec_head '!' (by decide) s1 _ h1
  obtain ⟨s3, e3, _⟩ := restoreRec_head '*' (by decide) s2 _ h2
  rw [e1, e2, e3, restoreRec_sentinel] at h0
  simp only [List.cons.injEq] at h0
  exact absurd h0.1 (by decide)

theorem infix_cons_cases (p : Str) (c : Char) (s : Str) (h : p <:+: c :: s) :
    p <+: c :: s ∨ p <:+: s := by
  rw [List.infix_cons_iff] at h
  exact h

/-- The text that `restoreRec` yields contains no placeholder. -/
theorem not_infix_restoreRec (s : Str) : ¬ sentinel <:+: restoreRec s := by
  induction s using restoreRec.induct with
  | case1 rest ih =>
    rw [restoreRec_sentinel]
    intro h
    rcases infix_cons_cases _ _ _ h with h1 | h1
    · obtain ⟨w, hw⟩ := h1
      have : '#' = ',' := by
        have hw' : '#' :: ('!' :: '*' :: w) = ',' :: restoreRec rest := hw
        simp only [List.cons.injEq] at hw'
        exact hw'.1
      exact absurd this (by decide)
    · exact ih h1
  | case2 c rest hn ih =>
    have e : restoreRec (c :: rest) = c :: restoreRec rest :=
      restoreRec_cons c rest (fun r hr => by
        simp only [List.cons.injEq] at hr
        exact hn r hr.1 hr.2)
    intro h
    rcases infix_cons_cases _ _ _ (e ▸ h) with h1 | h1
    · exact not_prefix_restoreRec (c :: rest) (e ▸ h1)
    · exact ih h1
  | case3 =>
    intro h
    have := List.IsInfix.length_le h
    simp [sentinel, restoreRec] at this

theorem readRows_buildRow (mHeadings : List Str) : ∀ (n : Nat) (lines : List Str),
    lines.length ≤ n → ∀ row ∈ readRows mHeadings lines, ∃ w, row = buildRow mHeadings w := by
  intro n
  induction n with
  | zero =>
    intro lines hlen row hrow
    have : lines = [] := List.length_eq_zero.mp (Nat.le_zero.mp hlen)
    subst this
    rw [readRows_nil] at hrow
    simp at hrow
  | succ n ih =>
    intro lines hlen row hrow
    cases lines with
    | nil => rw [readRows_nil] at hrow; simp at hrow
    | cons l rest =>
      have hlen' : rest.length ≤ n := by simpa using hlen
      rw [readRows_cons] at hrow
      split at hrow
      · exact ih rest hlen' row hrow
      · rcases List.mem_cons.mp hrow with h | h
        · exact ⟨_, h⟩
        · exact ih _ (Nat.le_trans (joinLines_length rest l _) hlen') row h

theorem value_buildRow (mHeadings : List Str) (line : Str) (e : Str × Str)
    (he : e ∈ buildRow mHeadings line) : ∃ t, e.2 = restoreCommas t := by
  rcases mem_fillRow _ _ _ _ he with h | ⟨_, t, _, h2⟩
  · simp at h
  · exact ⟨t, h2⟩

/-! ## The number of rows -/

theorem perm_insertSortedM {α : Type} (comp : α → α → Option Bool) (x : α) :
    ∀ (l out : List α), insertSortedM comp x l = some out → out.Perm (x :: l) := by
  intro l
  induction l with
  | nil =>
    intro out h
    simp only [insertSortedM, Option.some.injEq] at h
    rw [← h]
  | cons y ys ih =>
    intro out h
    unfold insertSortedM at h
    split at h
    · cases h
    · cases hi : insertSortedM comp x ys with
      | none => rw [hi] at h; simp at h
      | some out' =>
        rw [hi] at h
        simp only [Option.map_some', Option.some.injEq] at h
        rw [← h]
        exact ((ih out' hi).cons y).trans (List.Perm.swap x y ys)
    · simp only [Option.some.injEq] at h
      rw [← h]

theorem perm_stableSortM {α : Type} (comp : α → α → Option Bool) :
    ∀ (l out : List α), stableSortM comp l = some out → out.Perm l := by
  intro l
  induction l with
  | nil =>
    intro out h
    simp only [stableSortM, Option.some.injEq] at h
    rw [← h]
  | cons x xs ih =>
    intro out h
    unfold stableSortM at h
    split at h
    · cases h
    · rename_i sorted hs
      exact (perm_insertSortedM comp x sorted out h).trans ((ih sorted hs).cons x)

theorem perm_sortLoop (mHeadings : List Str) (order : List (Str × Str)) :
    ∀ (rows out : List (StrMap Str)), sortLoop mHeadings order rows = some out →
      out.Perm rows := by
  induction order with
  | nil =>
    intro rows out h
    simp only [sortLoop, Option.some.injEq] at h
    rw [← h]
  | cons o rest ih =>
    intro rows out h
    obtain ⟨heading, ord⟩ := o
    unfold sortLoop at h
    split at h
    · exact ih rows out h
    · split at h
      · cases h
      · rename_i sorted hs
        exact (ih sorted out h).trans (perm_stableSortM _ rows sorted hs)

theorem length_replaceRows (fuel : Nat) (names : List Str) (m : StrMap (StrMap Str)) :
    ∀ (rows out : List (StrMap Str)), replaceRows fuel names m rows = some out →
      out.length = rows.length := by
  intro rows
  induction rows with
  | nil =>
    intro out hr
    simp only [replaceRows, Option.some.injEq] at hr
    rw [← hr]
  | cons row rest ih =>
    intro out hr
    unfold replaceRows at hr
    split at hr
    · cases hr
    · split at hr
      · cases hr
      · rename_i rest' hrest
        simp only [Option.some.injEq] at hr
        rw [← hr, List.length_cons, List.length_cons, ih rest' hrest]

/-! ## Stable sorting -/

section Sorting

variable {α : Type}

theorem mem_insertSorted (lt : α → α → Bool) (x z : α) (l : List α) :
    z ∈ insertSorted lt x l ↔ z = x ∨ z ∈ l := by
  induction l with
  | nil => simp [insertSorted]
  | cons y ys ih =>
    unfold insertSorted
    split
    · simp only [List.mem_cons, ih]
      constructor
      · rintro (h | h | h)
        · exact Or.inr (Or.inl h)
        · exact Or.inl h
        · exact Or.inr (Or.inr h)
      · rintro (h | h | h)
        · exact Or.inr (Or.inl h)
        · exact Or.inl h
        · exact Or.inr (Or.inr h)
    · simp

theorem mem_stableSort (lt : α → α → Bool) (z : α) (l : List α) :
    z ∈ stableSort lt l ↔ z ∈ l := by
  induction l with
  | nil => simp [stableSort]
  | cons x xs ih => simp [stableSort, mem_insertSorted, ih]

theorem perm_insertSorted (lt : α → α → Bool) (x : α) (l : List α) :
    (insertSorted lt x l).Perm (x :: l) := by
  induction l with
  | nil => simp [insertSorted]
  | cons y ys ih =>
    unfold insertSorted
    split
    · exact ((List.Perm.cons y ih).trans (List.Perm.swap x y ys))
    · exact List.Perm.refl _

theorem perm_stableSort (lt : α → α → Bool) (l : List α) : (stableSort lt l).Perm l := by
  induction l with
  | nil => simp [stableSort]
  | cons x xs ih => exact (perm_insertSorted lt x _).trans (List.Perm.cons x ih)

theorem sorted_insertSorted (lt : α → α → Bool) (hlt : StrictWeak lt) (x : α) (l : List α)
    (h : l.Pairwise (fun a b => lt b a = false)) :
    (insertSorted lt x l).Pairwise (fun a b => lt b a = false) := by
  induction l with
  | nil => simp [insertSorted]
  | cons y ys ih =>
    rw [List.pairwise_cons] at h
    unfold insertSorted
    split
    · rename_i hyx
      rw [List.pairwise_cons]
      refine ⟨?_, ih h.2⟩
      intro z hz
      rcases (mem_insertSorted lt x z ys).mp hz with hz | hz
      · rw [hz]; exact hlt.asymm _ _ hyx
      · exact h.1 z hz
    · rename_i hyx
      have hyx' : lt y x = false := by simpa using hyx
      rw [List.pairwise_cons]
      refine ⟨?_, List.pairwise_cons.mpr h⟩
      intro z hz
      rcases List.mem_cons.mp hz with hz | hz
      · rw [hz]; exact hyx'
      · exact hlt.negtrans _ _ _ (h.1 z hz) hyx'

theorem sorted_stableSort (lt : α → α → Bool) (hlt : StrictWeak lt) (l : List α) :
    (stableSort lt l).Pairwise (fun a b => lt b a = false) := by
  induction l with
  | nil => simp [stableSort]
  | cons x xs ih => exact sorted_insertSorted lt hlt x _ ih

/-- Elements of one class, none of which is less than another, keep their order. -/
theorem filter_insertSorted (lt : α → α → Bool) (p : α → Bool)
    (hp : ∀ a b, p a = true → p b = true → lt a b = false) (x : α) (l : List α) :
    (insertSorted lt x l).filter p = (x :: l).filter p := by
  induction l with
  | nil => simp [insertSorted]
  | cons y ys ih =>
    unfold insertSorted
    split
    · rename_i hyx
      rw [List.filter_cons, ih]
      by_cases hpx : p x = true
      · have hpy : p y = false := by
          cases h : p y with
          | false => rfl
          | true => rw [hp y x h hpx] at hyx; cases hyx
        simp [List.filter_cons, hpx, hpy]
      · simp [List.filter_cons, hpx]
    · rfl

theorem filter_stableSort (lt : α → α → Bool) (p : α → Bool)
    (hp : ∀ a b, p a = true → p b = true → lt a b = false) (l : List α) :
    (stableSort lt l).filter p = l.filter p := by
  induction l with
  | nil => simp [stableSort]
  | cons x xs ih =>
    rw [stableSort, filter_insertSorted lt p hp, List.filter_cons, List.filter_cons, ih]

theorem insertSorted_lex_eq (lt1 lt2 : α → α → Bool) (x : α) (m : List α)
    (h : ∀ z ∈ m, lt2 z x = false) :
    insertSorted (lexLt lt1 lt2) x m = insertSorted lt1 x m := by
  induction m with
  | nil => rfl
  | cons y ys ih =>
    have hy : lexLt lt1 lt2 y x = lt1 y x := by
      simp [lexLt, h y (List.mem_cons_self _ _)]
    unfold insertSorted
    rw [hy, ih (fun z hz => h z (List.mem_cons_of_mem _ hz))]

/-- Inserting under the first order an element that the second order puts before `x`
commutes with inserting `x` under the combined order. -/
theorem insertSorted_comm (lt1 lt2 : α → α → Bool) (h1 : StrictWeak lt1) (x y : α)
    (hyx : lt2 y x = true) (m : List α) :
    insertSorted lt1 y (insertSorted (lexLt lt1 lt2) x m)
      = insertSorted (lexLt lt1 lt2) x (insertSorted lt1 y m) := by
  have hlex : lexLt lt1 lt2 y x = !lt1 x y := by
    cases hxy : lt1 x y with
    | true => simp [lexLt, h1.asymm x y hxy, hyx, hxy]
    | false => cases hyx1 : lt1 y x <;> simp [lexLt, hyx, hxy, hyx1]
  induction m with
  | nil =>
    simp only [insertSorted, hlex]
    cases lt1 x y <;> simp
  | cons z zs ih =>
    cases hzx : lexLt lt1 lt2 z x with
    | true =>
      cases hzy : lt1 z y with
      | true => simp [insertSorted, hzx, hzy, ih]
      | false =>
        have hxy : lt1 x y = false := by
          cases hxy : lt1 x y with
          | false => rfl
          | true =>
            exfalso
            cases hzx1 : lt1 z x with
            | true =>
              rw [h1.trans z x y hzx1 hxy] at hzy; cases hzy
            | false =>
              have hxz : lt1 x z = false := by
                cases hxz : lt1 x z with
                | false => rfl
                | true => simp [lexLt, hzx1, hxz] at hzx
              rw [h1.negtrans x z y hxz hzy] at hxy; cases hxy
        simp [insertSorted, hzx, hzy, hlex, hxy]
    | false =>
      have hzx1 : lt1 z x = false := by
        cases h : lt1 z x with
        | false => rfl
        | true => simp [lexLt, h] at hzx
      cases hzy : lt1 z y with
      | true =>
        have hxy : lt1 x y = true := by
          cases hxy : lt1 x y with
          | true => rfl
          | false => rw [h1.negtrans z x y hzx1 hxy] at hzy; cases hzy
        simp [insertSorted, hzx, hzy, hxy]
      | false =>
        cases hxy : lt1 x y <;> simp [insertSorted, hzx, hzy, hlex, hxy]

theorem stableSort_insertSorted (lt1 lt2 : α → α → Bool) (h1 : StrictWeak lt1)
    (h2 : StrictWeak lt2) (x : α) (l : List α)
    (hl : l.Pairwise (fun a b => lt2 b a = false)) :
    stableSort lt1 (insertSorted lt2 x l)
      = insertSorted (lexLt lt1 lt2) x (stableSort lt1 l) := by
  induction l with
  | nil => rfl
  | cons y ys ih =>
    rw [List.pairwise_cons] at hl
    cases hyx : lt2 y x with
    | true =>
      have e : insertSorted lt2 x (y :: ys) = y :: insertSorted lt2 x ys := by
        simp [insertSorted, hyx]
      rw [e, stableSort, ih hl.2, insertSorted_comm lt1 lt2 h1 x y hyx]
      rfl
    | false =>
      have e : insertSorted lt2 x (y :: ys) = x :: y :: ys := by
        simp [insertSorted, hyx]
      have : ∀ z ∈ stableSort lt1 (y :: ys), lt2 z x = false := by
        intro z hz
        rcases List.mem_cons.mp ((mem_stableSort lt1 z _).mp hz) with hz | hz
        · rw [hz]; exact hyx
        · exact h2.negtrans _ _ _ (hl.1 z hz) hyx
      rw [e, insertSorted_lex_eq lt1 lt2 x _ this]
      rfl

/-- A stable sort by the less significant order followed by a stable sort by the more
significant order is one stable sort by the combined order. -/
theorem stableSort_stableSort (lt1 lt2 : α → α → Bool) (h1 : StrictWeak lt1)
    (h2 : StrictWeak lt2) (l : List α) :
    stableSort lt1 (stableSort lt2 l) = stableSort (lexLt lt1 lt2) l := by
  induction l with
  | nil => rfl
  | cons x xs ih =>
    rw [stableSort, stableSort_insertSorted lt1 lt2 h1 h2 x _ (sorted_stableSort lt2 h2 xs), ih]
    rfl

end Sorting

/-! ### Sorting rows by columns -/

theorem strLt_trichotomy (a b : Str) : strLt a b = true ∨ a = b ∨ strLt b a = true := by
  cases h1 : strLt a b with
  | true => exact Or.inl rfl
  | false =>
    cases h2 : strLt b a with
    | true => exact Or.inr (Or.inr rfl)
    | false => exact Or.inr (Or.inl (strLt_total a b h1 h2))

theorem strLt_negtrans (a b c : Str) (h1 : strLt a b = false) (h2 : strLt b c = false) :
    strLt a c = false := by
  cases h : strLt a c with
  | false => rfl
  | true =>
    exfalso
    rcases strLt_trichotomy a b with hab | hab | hab
    · rw [hab] at h1; cases h1
    · subst hab; rw [h] at h2; cases h2
    · rw [strLt_trans b a c hab h] at h2; cases h2

theorem strictWeak_columnLt (heading : Str) (ascending : Bool) :
    StrictWeak (columnLt heading ascending) := by
  cases ascending with
  | true =>
    exact ⟨fun a b h => strLt_asymm _ _ h, fun a b c h1 h2 => strLt_trans _ _ _ h1 h2,
      fun a b c h1 h2 => strLt_negtrans _ _ _ h1 h2⟩
  | false =>
    exact ⟨fun a b h => strLt_asymm _ _ h, fun a b c h1 h2 => strLt_trans _ _ _ h2 h1,
      fun a b c h1 h2 => strLt_negtrans _ _ _ h2 h1⟩

theorem lexLt_columnLt (A B : Str) :
    lexLt (columnLt A true) (columnLt B false) = compositeLt A B := by
  funext r1 r2
  simp only [lexLt, columnLt, compositeLt, if_true, Bool.false_eq_true, if_false]
  rcases strLt_trichotomy (cellText A r1) (cellText A r2) with h | h | h
  · simp [h]
  · simp [h, strLt_irrefl]
  · have h1 := strLt_asymm _ _ h
    have h2 : cellText A r1 ≠ cellText A r2 := fun e => strLt_ne _ _ h e.symm
    simp [h, h1, h2]

theorem compositeLt_false_iff (A B : Str) (r1 r2 : StrMap Str) :
    compositeLt A B r1 r2 = false ↔
      strLt (cellText A r1) (cellText A r2) = false ∧
      (cellText A r1 = cellText A r2 → strLt (cellText B r2) (cellText B r1) = false) := by
  unfold compositeLt
  cases strLt (cellText A r1) (cellText A r2) <;>
    by_cases h : cellText A r1 = cellText A r2 <;> simp [h]

theorem strictWeak_compositeLt (A B : Str) : StrictWeak (compositeLt A B) := by
  refine ⟨?_, ?_, ?_⟩
  · intro a b h
    rw [compositeLt_false_iff]
    unfold compositeLt at h
    simp only [Bool.or_eq_true, Bool.and_eq_true, decide_eq_true_eq] at h
    rcases h with h | ⟨h1, h2⟩
    · exact ⟨strLt_asymm _ _ h, fun e => absurd e.symm (strLt_ne _ _ h)⟩
    · exact ⟨by rw [h1]; exact strLt_irrefl _, fun _ => strLt_asymm _ _ h2⟩
  · intro a b c hab hbc
    unfold compositeLt at hab hbc ⊢
    simp only [Bool.or_eq_true, Bool.and_eq_true, decide_eq_true_eq] at hab hbc ⊢
    rcases hab with h | ⟨h1, h2⟩
    · rcases hbc with h' | ⟨h1', _⟩
      · exact Or.inl (strLt_trans _ _ _ h h')
      · exact Or.inl (by rw [← h1']; exact h)
    · rcases hbc with h' | ⟨h1', h2'⟩
      · exact Or.inl (by rw [h1]; exact h')
      · exact Or.inr ⟨h1.trans h1', strLt_trans _ _ _ h2' h2⟩
  · intro a b c hab hbc
    rw [compositeLt_false_iff] at hab hbc ⊢
    refine ⟨strLt_negtrans _ _ _ hab.1 hbc.1, ?_⟩
    intro e
    have hba : cellText A a = cellText A b := by
      rcases strLt_trichotomy (cellText A a) (cellText A b) with h | h | h
      · rw [h] at hab; cases hab.1
      · exact h
      · rw [e] at h
        rw [h] at hbc; cases hbc.1
    exact strLt_negtrans _ _ _ (hbc.2 (hba.symm.trans e)) (hab.2 hba)

theorem compareRows_eq (heading : Str) (ascending : Bool) (r1 r2 : StrMap Str)
    (h1 : mapFind heading r1 ≠ none) (h2 : mapFind heading r2 ≠ none) :
    compareRows heading ascending r1 r2 = some (columnLt heading ascending r1 r2) := by
  unfold compareRows columnLt cellText
  cases e1 : mapFind heading r1 with
  | none => exact absurd e1 h1
  | some a =>
    cases e2 : mapFind heading r2 with
    | none => exact absurd e2 h2
    | some b => rfl

theorem insertSortedM_eq (heading : Str) (ascending : Bool) (x : StrMap Str)
    (l : List (StrMap Str)) (hx : mapFind heading x ≠ none)
    (hl : ∀ r ∈ l, mapFind heading r ≠ none) :
    insertSortedM (compareRows heading ascending) x l
      = some (insertSorted (columnLt heading ascending) x l) := by
  induction l with
  | nil => rfl
  | cons y ys ih =>
    have hy := hl y (List.mem_cons_self _ _)
    have hys := ih (fun r hr => hl r (List.mem_cons_of_mem _ hr))
    unfold insertSortedM insertSorted
    rw [compareRows_eq heading ascending y x hy hx]
    cases columnLt heading ascending y x with
    | true => simp [hys]
    | false => simp

/-- When every row has the key, no comparison throws and the sort of the rows is the
stable sort by the column. -/
theorem stableSortM_eq (heading : Str) (ascending : Bool) (l : List (StrMap Str))
    (hl : ∀ r ∈ l, mapFind heading r ≠ none) :
    stableSortM (compareRows heading ascending) l
      = some (stableSort (columnLt heading ascending) l) := by
  induction l with
  | nil => rfl
  | cons x xs ih =>
    have hxs : ∀ r ∈ xs, mapFind heading r ≠ none :=
      fun r hr => hl r (List.mem_cons_of_mem _ hr)
    unfold stableSortM
    rw [ih hxs]
    simp only []
    rw [insertSortedM_eq heading ascending x _ (hl x (List.mem_cons_self _ _))
      (fun r hr => hxs r ((mem_stableSort _ r xs).mp hr))]
    rfl

/-! ## The claims -/

/-- C1, as stated, fails: in the input `A,B` / `1` no field value contains a comma
outside quoted text, the placeholder or an unmatched quote, but the record has fewer
fields than there are headings; its row has no key `B`, the row read back from the
written text has the key `B` with an empty value. -/
theorem C1_round_trip_false :
    (∀ row ∈ (readCsv CSVReader.fresh "A,B\n1\n".toList).mCsvData, ∀ e ∈ row, GoodValue e.2) ∧
    readCsv CSVReader.fresh (writeCsv (readCsv CSVReader.fresh "A,B\n1\n".toList))
      ≠ readCsv CSVReader.fresh "A,B\n1\n".toList := by
  decide

/-- The round trip also fails for a row that is written as an empty line: with the one
heading `A` the record `,x` gives a row with an empty value, and the empty line written
for it is skipped when the text is read back. -/
theorem round_trip_empty_line_false :
    (∀ row ∈ (readCsv CSVReader.fresh "A\n,x\n".toList).mCsvData, ∀ e ∈ row, GoodValue e.2) ∧
    (∀ row ∈ (readCsv CSVReader.fresh "A\n,x\n".toList).mCsvData,
      ∀ h ∈ (readCsv CSVReader.fresh "A\n,x\n".toList).mHeadings, mapFind h row ≠ none) ∧
    readCsv CSVReader.fresh (writeCsv (readCsv CSVReader.fresh "A\n,x\n".toList))
      ≠ readCsv CSVReader.fresh "A\n,x\n".toList := by
  decide

/-- C1 (amended): for every input text in which no stored field value contains the
placeholder, an unmatched quote or a comma outside quoted text, every row has a value
for every heading, and no row is written as an empty line, reading the text that
`writeCsv` produces from `readCsv x` yields the same heading list and the same sequence
of row maps as `readCsv x`. -/
theorem C1_round_trip (x : Str)
    (hgood : ∀ row ∈ (readCsv CSVReader.fresh x).mCsvData, ∀ e ∈ row, GoodValue e.2)
    (hkeys : ∀ row ∈ (readCsv CSVReader.fresh x).mCsvData,
      ∀ h ∈ (readCsv CSVReader.fresh x).mHeadings, mapFind h row ≠ none)
    (hline : ∀ row ∈ (readCsv CSVReader.fresh x).mCsvData,
      [','].intercalate (rowFields (readCsv CSVReader.fresh x).mHeadings row) ≠ []) :
    readCsv CSVReader.fresh (writeCsv (readCsv CSVReader.fresh x))
      = readCsv CSVReader.fresh x :=
  readCsv_writeCsv x hgood hkeys hline

/-- C1, witness: a file with a quoted comma and a quoted field that spans two lines. -/
theorem C1_round_trip_witness :
    (∀ row ∈ (readCsv CSVReader.fresh "A,B\n1,\"x,y\"\n\"m\nn\",2\n".toList).mCsvData,
      ∀ e ∈ row, GoodValue e.2) ∧
    (∀ row ∈ (readCsv CSVReader.fresh "A,B\n1,\"x,y\"\n\"m\nn\",2\n".toList).mCsvData,
      ∀ h ∈ (readCsv CSVReader.fresh "A,B\n1,\"x,y\"\n\"m\nn\",2\n".toList).mHeadings,
        mapFind h row ≠ none) ∧
    (∀ row ∈ (readCsv CSVReader.fresh "A,B\n1,\"x,y\"\n\"m\nn\",2\n".toList).mCsvData,
      [','].intercalate
        (rowFields (readCsv CSVReader.fresh "A,B\n1,\"x,y\"\n\"m\nn\",2\n".toList).mHeadings
          row) ≠ []) ∧
    readCsv CSVReader.fresh
        (writeCsv (readCsv CSVReader.fresh "A,B\n1,\"x,y\"\n\"m\nn\",2\n".toList))
      = readCsv CSVReader.fresh "A,B\n1,\"x,y\"\n\"m\nn\",2\n".toList :=
  ⟨by decide, by decide, by decide,
    C1_round_trip "A,B\n1,\"x,y\"\n\"m\nn\",2\n".toList (by decide) (by decide) (by decide)⟩

/-- C2, as stated, fails: tokenizing the line `a,"b,c",d` and unescaping the tokens does
not yield the fields `a`, `b,c`, `d`. -/
theorem C2_fields_without_quotes_false :
    (splitLineAndReplaceCommas "a,\"b,c\",d".toList).map restoreCommas
      ≠ ["a".toList, "b,c".toList, "d".toList] := by
  decide

/-- C2 (amended): for every line the number of fields is one more than the number of
commas outside quoted regions, so a comma inside a quoted region does not separate
fields; such a comma is kept as data: it stands inside one field, the fields before it
and the part of its field before it joining to the text before the comma (placeholders
restored), and likewise behind it. The quote characters stay in the fields: the line
`a,"b,c",d` yields exactly the 3 fields `a`, `"b,c"`, `d`. -/
theorem C2_quoted_comma_kept :
    (∀ line : Str,
      ((splitLineAndReplaceCommas line).map restoreCommas).length
        = outsideCommas false line + 1) ∧
    (∀ p q : Str, countQuotes p % 2 = 1 →
      ∃ pre a b post,
        (splitLineAndReplaceCommas (p ++ ',' :: q)).map restoreCommas
          = pre ++ (a ++ ',' :: b) :: post ∧
        [','].intercalate (pre ++ [a]) = restoreCommas p ∧
        [','].intercalate (b :: post) = restoreCommas q) ∧
    (splitLineAndReplaceCommas "a,\"b,c\",d".toList).map restoreCommas
      = ["a".toList, "\"b,c\"".toList, "d".toList] := by
  refine ⟨length_fields, ?_, by decide⟩
  intro p q hp
  obtain ⟨pre, a, h1, h2⟩ := piecesFrom_append p false
  have hin : insideAfter false p = true := by simp [insideAfter, hp]
  have h3 : piecesFrom true (',' :: q) = consHead [','] (piecesFrom true q) := by
    rw [piecesFrom]; simp
  cases hq : piecesFrom true q with
  | nil => exact absurd hq (piecesFrom_ne_nil _ _)
  | cons b post =>
    refine ⟨pre.map restoreRec, restoreRec a, restoreRec b, post.map restoreRec, ?_, ?_, ?_⟩
    · have := fields_eq (p ++ ',' :: q)
      unfold fields at this
      rw [this, h2, hin, h3, hq]
      simp [consHead, restoreRec_append_comma]
    · have : pre.map restoreRec ++ [restoreRec a] = (piecesFrom false p).map restoreRec := by
        rw [h1]; simp
      rw [this, ← restoreRec_intercalate, intercalate_piecesFrom, restoreCommas_eq]
    · have : restoreRec b :: post.map restoreRec = (piecesFrom true q).map restoreRec := by
        rw [hq]; simp
      rw [this, ← restoreRec_intercalate, intercalate_piecesFrom, restoreCommas_eq]

/-- C2, witness: in the line `a,"b,c",d` the comma behind `a,"b` lies inside a quoted
region and stands inside one field. -/
theorem C2_quoted_comma_kept_witness :
    countQuotes "a,\"b".toList % 2 = 1 ∧
    ∃ pre a b post,
      (splitLineAndReplaceCommas ("a,\"b".toList ++ ',' :: "c\",d".toList)).map restoreCommas
        = pre ++ (a ++ ',' :: b) :: post ∧
      [','].intercalate (pre ++ [a]) = restoreCommas "a,\"b".toList ∧
      [','].intercalate (b :: post) = restoreCommas "c\",d".toList :=
  ⟨by decide, C2_quoted_comma_kept.2.1 "a,\"b".toList "c\",d".toList (by decide)⟩

/-- C3, as stated, fails: for the headings `A,B,C` and the physical lines `1,"multi` and
`line",2` the values of the row are not `1`, `multi\nline`, `2`. -/
theorem C3_value_without_quotes_false :
    (readCsv CSVReader.fresh "A,B,C\n1,\"multi\nline\",2\n".toList).mCsvData.map
        (rowFields ["A".toList, "B".toList, "C".toList])
      ≠ [["1".toList, "multi\nline".toList, "2".toList]] := by
  decide

/-- C3 (amended): a data record whose first physical line has an odd number of quote
characters is joined with the `k` following physical lines, each behind
a newline, where the running quote count is odd before each appended line and `k` is
the first count at which it is even, or all lines left when the input is exhausted
first; exactly one row is built from the joined record and reading goes on behind it.
The quote characters stay in the value: for the headings `A,B,C` and the physical lines
`1,"multi` and `line",2` the single row has the values `1`, `"multi\nline"`, `2`. -/
theorem C3_multiline_joining :
    (∀ (mHeadings : List Str) (line : Str) (rest : List Str),
      countQuotes line % 2 = 1 →
      ∃ k, k ≤ rest.length ∧
        readRows mHeadings (line :: rest)
          = buildRow mHeadings (joinedRecord line rest k) :: readRows mHeadings (rest.drop k) ∧
        (∀ j, j < k → countQuotes (joinedRecord line rest j) % 2 = 1) ∧
        (countQuotes (joinedRecord line rest k) % 2 = 0 ∨ k = rest.length)) ∧
    readCsv CSVReader.fresh "A,B,C\n1,\"multi\nline\",2\n".toList
      = ⟨["A".toList, "B".toList, "C".toList],
         [[("A".toList, "1".toList), ("B".toList, "\"multi\nline\"".toList),
           ("C".toList, "2".toList)]]⟩ := by
  refine ⟨?_, by decide⟩
  intro mHeadings line rest hodd
  have hne : line ≠ [] := by
    intro e
    rw [e] at hodd
    simp [countQuotes] at hodd
  obtain ⟨k, hk, hj, hrun, hend⟩ := joinLines_spec rest line
  refine ⟨k, hk, ?_, hrun, hend⟩
  rw [readRows_cons, if_neg hne, hj]

/-- C3, witness: the record that starts with the physical line `1,"multi`. -/
theorem C3_multiline_joining_witness :
    countQuotes "1,\"multi".toList % 2 = 1 ∧
    ∃ k, k ≤ ["line\",2".toList].length ∧
      readRows ["A".toList, "B".toList, "C".toList] ("1,\"multi".toList :: ["line\",2".toList])
        = buildRow ["A".toList, "B".toList, "C".toList]
            (joinedRecord "1,\"multi".toList ["line\",2".toList] k) ::
          readRows ["A".toList, "B".toList, "C".toList] (["line\",2".toList].drop k) ∧
      (∀ j, j < k → countQuotes (joinedRecord "1,\"multi".toList ["line\",2".toList] j) % 2 = 1) ∧
      (countQuotes (joinedRecord "1,\"multi".toList ["line\",2".toList] k) % 2 = 0
        ∨ k = ["line\",2".toList].length) :=
  ⟨by decide,
    C3_multiline_joining.1 ["A".toList, "B".toList, "C".toList] "1,\"multi".toList
      ["line\",2".toList] (by decide)⟩

/-- C4: for a table with the columns `A` and `B` in which every row has a value for
both, `applySorting` with the sort specification `[(A, asc), (B, desc)]` ends without
an error and orders the rows as one stable sort of the input under the composite order
"A ascending, then B descending" on the stored text does, which is also the order of a
stable sort by B descending followed by a stable sort by A ascending. In the result the
rows are in ascending order of A, rows with equal A are in descending order of B, the
rows are the input rows, and the rows that agree on A and on B keep their input order. -/
theorem C4_two_key_sort (self : CSVReader) (A B : Str)
    (hA : A ∈ self.mHeadings) (hB : B ∈ self.mHeadings)
    (hrows : ∀ row ∈ self.mCsvData, mapFind A row ≠ none ∧ mapFind B row ≠ none) :
    applySorting [(A, "asc".toList), (B, "desc".toList)] self
      = some { mHeadings := self.mHeadings
               mCsvData := stableSort (compositeLt A B) self.mCsvData } ∧
    stableSort (compositeLt A B) self.mCsvData
      = stableSort (columnLt A true) (stableSort (columnLt B false) self.mCsvData) ∧
    (stableSort (compositeLt A B) self.mCsvData).Pairwise (fun r1 r2 =>
      strLt (cellText A r2) (cellText A r1) = false ∧
      (cellText A r2 = cellText A r1 → strLt (cellText B r1) (cellText B r2) = false)) ∧
    (stableSort (compositeLt A B) self.mCsvData).Perm self.mCsvData ∧
    (∀ a b : Str,
      (stableSort (compositeLt A B) self.mCsvData).filter
          (fun r => decide (cellText A r = a) && decide (cellText B r = b))
        = self.mCsvData.filter
          (fun r => decide (cellText A r = a) && decide (cellText B r = b))) := by
  have hcomp : stableSort (compositeLt A B) self.mCsvData
      = stableSort (columnLt A true) (stableSort (columnLt B false) self.mCsvData) := by
    rw [stableSort_stableSort _ _ (strictWeak_columnLt A true) (strictWeak_columnLt B false),
      lexLt_columnLt]
  refine ⟨?_, hcomp, ?_, perm_stableSort _ _, ?_⟩
  · obtain ⟨i, hi⟩ := getHeadingIndexByName_of_mem _ _ hA
    obtain ⟨j, hj⟩ := getHeadingIndexByName_of_mem _ _ hB
    have h1 := stableSortM_eq B false self.mCsvData (fun r hr => (hrows r hr).2)
    have h2 := stableSortM_eq A true (stableSort (columnLt B false) self.mCsvData)
      (fun r hr => (hrows r ((mem_stableSort _ r _).mp hr)).1)
    have e1 : decide ("desc".toList = "asc".toList) = false := by decide
    have e2 : decide ("asc".toList = "asc".toList) = true := by decide
    have e3 : ([(A, "asc".toList), (B, "desc".toList)] : List (Str × Str)) ≠ [] := by
      intro h; cases h
    unfold applySorting
    rw [if_neg e3]
    have e4 : decide True = true := rfl
    simp only [List.reverse_cons, List.reverse_nil, List.nil_append, List.singleton_append,
      sortLoop, hi, hj, e1, e2, e4, h1, h2, hcomp]
  · have := sorted_stableSort _ (strictWeak_compositeLt A B) self.mCsvData
    refine this.imp ?_
    intro r1 r2 h
    exact (compositeLt_false_iff A B r2 r1).mp h
  · intro a b
    apply filter_stableSort
    intro r1 r2 h1 h2
    simp only [Bool.and_eq_true, decide_eq_true_eq] at h1 h2
    rw [compositeLt_false_iff]
    rw [h1.1, h2.1, h1.2, h2.2]
    exact ⟨strLt_irrefl _, fun _ => strLt_irrefl _⟩

/-- C4, witness: three rows, two of them with equal `A`. -/
theorem C4_two_key_sort_witness :
    "A".toList ∈ ["A".toList, "B".toList] ∧ "B".toList ∈ ["A".toList, "B".toList] ∧
    applySorting [("A".toList, "asc".toList), ("B".toList, "desc".toList)]
        ⟨["A".toList, "B".toList],
         [[("A".toList, "2".toList), ("B".toList, "x".toList)],
          [("A".toList, "1".toList), ("B".toList, "x".toList)],
          [("A".toList, "1".toList), ("B".toList, "y".toList)]]⟩
      = some ⟨["A".toList, "B".toList],
          stableSort (compositeLt "A".toList "B".toList)
            [[("A".toList, "2".toList), ("B".toList, "x".toList)],
             [("A".toList, "1".toList), ("B".toList, "x".toList)],
             [("A".toList, "1".toList), ("B".toList, "y".toList)]]⟩ :=
  ⟨by decide, by decide,
    (C4_two_key_sort
      ⟨["A".toList, "B".toList],
       [[("A".toList, "2".toList), ("B".toList, "x".toList)],
        [("A".toList, "1".toList), ("B".toList, "x".toList)],
        [("A".toList, "1".toList), ("B".toList, "y".toList)]]⟩
      "A".toList "B".toList (by decide) (by decide) (by decide)).1⟩

/-- C5, the code at pairs that are not listed in ascending order of their `from` texts:
the pairs are kept in a map and applied in key order, not in the listed order. With the
pairs `"b"="c"`, `"a"="b"` the cell `a` becomes `c`, while the listed order gives `b`;
with `"Day TTP"="X"`, `"Day"="Y"` the cell `Day TTP` becomes `Y TTP`, while the listed
order gives `X`. -/
theorem C5_listed_order_not_kept :
    doColumnReplacements 5
        [("A".toList, [("b".toList, "c".toList), ("a".toList, "b".toList)])]
        ⟨["A".toList], [[("A".toList, "a".toList)]]⟩
      = some ⟨["A".toList], [[("A".toList, "c".toList)]]⟩ ∧
    replaceListed [("b".toList, "c".toList), ("a".toList, "b".toList)] "a".toList = "b".toList ∧
    buildReplacementMap [("Day TTP".toList, "X".toList), ("Day".toList, "Y".toList)]
      = [("Day".toList, "Y".toList), ("Day TTP".toList, "X".toList)] ∧
    doColumnReplacements 10
        [("A".toList, [("Day TTP".toList, "X".toList), ("Day".toList, "Y".toList)])]
        ⟨["A".toList], [[("A".toList, "Day TTP".toList)]]⟩
      = some ⟨["A".toList], [[("A".toList, "Y TTP".toList)]]⟩ ∧
    replaceListed [("Day TTP".toList, "X".toList), ("Day".toList, "Y".toList)] "Day TTP".toList
      = "X".toList := by
  decide

/-- C6: for a non-empty `from` text the replace loop of `doColumnReplacements` ends
within `cell.length + 1` tests of its condition and yields the text in which every
occurrence of `from` found scanning from the left, each scan resuming behind the text
just inserted, is replaced by `to`; `a` to `aa` turns `aa` into `aaaa`, and `aa` to `a`
turns `aaa` into `aa`. -/
theorem C6_replace_all (fromStr toStr cell : Str) (hne : fromStr ≠ []) :
    (∀ fuel, cell.length < fuel →
      replaceLoop fromStr toStr fuel cell 0 = some (replaceAllSpec fromStr toStr 0 cell)) ∧
    replaceLoop "a".toList "aa".toList 3 "aa".toList 0 = some "aaaa".toList ∧
    replaceLoop "aa".toList "a".toList 4 "aaa".toList 0 = some "aa".toList := by
  refine ⟨fun fuel h => replaceLoop_start fromStr toStr hne fuel cell h, by decide, by decide⟩

/-- C6, witness: `a` to `aa` on the cell `aa`, with 3 tests of the loop condition. -/
theorem C6_replace_all_witness :
    "a".toList ≠ [] ∧
    replaceLoop "a".toList "aa".toList 3 "aa".toList 0
      = some (replaceAllSpec "a".toList "aa".toList 0 "aa".toList) :=
  ⟨by decide, (C6_replace_all "a".toList "aa".toList "aa".toList (by decide)).1 3 (by decide)⟩

/-- C7: in a table that has a `*Description` column every row is treated by the row
step of `addDescriptionDateColumn`, and for every row: if the description contains a
text of the shape dd/mm/yy, then `DescDate` is the leftmost such text and the description
becomes the original text with every non-overlapping match removed; if it contains none,
then `DescDate` is `N/A`, `DescDateTimeStamp` is `0` and the description text is the
original one. `Payment 01/02/23 received` gives `01/02/23` and leaves `Payment`, two
spaces, `received`. -/
theorem C7_description_date (timeStampOf : Str → Str) (self : CSVReader)
    (hdesc : "*Description".toList ∈ self.mHeadings) :
    (addDescriptionDateColumn timeStampOf self).mCsvData
      = self.mCsvData.map (descDateRow timeStampOf) ∧
    (∀ row : StrMap Str,
      ((∃ p m q, cellText "*Description".toList row = p ++ m ++ q ∧ isDateText m = true) →
        ∃ p m q, cellText "*Description".toList row = p ++ m ++ q ∧ LeftmostDate p m q ∧
          mapFind "DescDate".toList (descDateRow timeStampOf row) = some m ∧
          ∃ d, mapFind "*Description".toList (descDateRow timeStampOf row) = some d ∧
            DatesRemoved (cellText "*Description".toList row) d) ∧
      (NoDate (cellText "*Description".toList row) →
        mapFind "DescDate".toList (descDateRow timeStampOf row) = some "N/A".toList ∧
        mapFind "DescDateTimeStamp".toList (descDateRow timeStampOf row) = some "0".toList ∧
        mapFind "*Description".toList (descDateRow timeStampOf row)
          = some (cellText "*Description".toList row))) ∧
    (mapFind "DescDate".toList
        (descDateRow timeStampOf [("*Description".toList, "Payment 01/02/23 received".toList)])
        = some "01/02/23".toList ∧
      mapFind "*Description".toList
        (descDateRow timeStampOf [("*Description".toList, "Payment 01/02/23 received".toList)])
        = some "Payment  received".toList) := by
  refine ⟨?_, ?_, ?_⟩
  · have hmem : "*Description".toList
        ∈ self.mHeadings ++ ["DescDate".toList] ++ ["DescDateTimeStamp".toList] :=
      List.mem_append_left _ (List.mem_append_left _ hdesc)
    obtain ⟨i, hi⟩ := getHeadingIndexByName_of_mem _ _ hmem
    simp only [addDescriptionDateColumn, hi]
  · intro row
    cases h : regexSearchDate (cellText "*Description".toList row) with
    | none =>
      have hno := regexSearchDate_none _ h
      refine ⟨?_, fun _ => descDateRow_none timeStampOf row h⟩
      rintro ⟨p, m, q, hs, hm⟩
      rw [hno p m q hs] at hm
      cases hm
    | some m =>
      obtain ⟨p, q, hs, hleft, hr⟩ := regexSearchDate_some _ m h
      obtain ⟨h1, _, h3⟩ := descDateRow_some timeStampOf row m h
      refine ⟨fun _ => ⟨p, m, q, hs, hleft, h1, _, h3,
        datesRemoved_regexReplaceDate _ _ (Nat.le_refl _)⟩, ?_⟩
      intro hno
      have := hno p m q hs
      rw [hleft.1] at this
      cases this
  · have h : regexSearchDate (cellText "*Description".toList
        [("*Description".toList, "Payment 01/02/23 received".toList)])
        = some "01/02/23".toList := by decide
    obtain ⟨h1, _, h3⟩ := descDateRow_some timeStampOf _ _ h
    exact ⟨h1, by rw [h3]; decide⟩

/-- C7, witness: the table with the one heading `*Description` and the one row
`Payment 01/02/23 received`. -/
theorem C7_description_date_witness :
    "*Description".toList ∈ ["*Description".toList] ∧
    (addDescriptionDateColumn (fun _ => "0".toList)
        ⟨["*Description".toList],
         [[("*Description".toList, "Payment 01/02/23 received".toList)]]⟩).mCsvData
      = [[("*Description".toList, "Payment 01/02/23 received".toList)]].map
          (descDateRow (fun _ => "0".toList)) :=
  ⟨by decide,
    (C7_description_date (fun _ => "0".toList)
      ⟨["*Description".toList],
       [[("*Description".toList, "Payment 01/02/23 received".toList)]]⟩ (by decide)).1⟩

/-- C8, the code at a table without a `*Description` column: the rows are unchanged,
but the heading list has grown by `DescDate` and `DescDateTimeStamp`. -/
theorem C8_headings_grow (timeStampOf : Str → Str) :
    addDescriptionDateColumn timeStampOf ⟨["A".toList], [[("A".toList, "1".toList)]]⟩
      = ⟨["A".toList, "DescDate".toList, "DescDateTimeStamp".toList],
         [[("A".toList, "1".toList)]]⟩ ∧
    (addDescriptionDateColumn timeStampOf ⟨["A".toList], [[("A".toList, "1".toList)]]⟩).mHeadings
      ≠ ["A".toList] := by
  have h : getHeadingIndexByName
      (["A".toList] ++ ["DescDate".toList] ++ ["DescDateTimeStamp".toList])
      "*Description".toList = none := by decide
  constructor
  · simp only [addDescriptionDateColumn, h]
    rfl
  · simp only [addDescriptionDateColumn, h]
    decide

/-- C9: in a table that has the columns `*Description` and `DescDate` every row is
treated by the two row steps of `applyDateToDescription`, and for every row: a
description that starts with a quote becomes the quote, `DescDate`, a space and the rest
of the old description; any other description, the empty one included, becomes
`DescDate`, a space and the old description; every field other than the description and
the two scratch fields is unchanged. -/
theorem C9_date_reinsertion (self : CSVReader)
    (hdesc : "*Description".toList ∈ self.mHeadings)
    (hdate : "DescDate".toList ∈ self.mHeadings) :
    (applyDateToDescription self).mCsvData
      = self.mCsvData.map (fun row =>
          eraseScratch (getHeadingIndexByName self.mHeadings "DescDate".toList)
            (getHeadingIndexByName self.mHeadings "DescDateTimeStamp".toList)
            (insertDate row)) ∧
    (∀ (row : StrMap Str) (di ti : Option Nat),
      (∀ rest, cellText "*Description".toList row = '"' :: rest →
        mapFind "*Description".toList (eraseScratch di ti (insertDate row))
          = some ('"' :: (cellText "DescDate".toList row ++ ' ' :: rest))) ∧
      ((∀ rest, cellText "*Description".toList row ≠ '"' :: rest) →
        mapFind "*Description".toList (eraseScratch di ti (insertDate row))
          = some (cellText "DescDate".toList row ++ ' ' :: cellText "*Description".toList row)) ∧
      (∀ k, k ≠ "*Description".toList → k ≠ "DescDate".toList →
        k ≠ "DescDateTimeStamp".toList →
        mapFind k (eraseScratch di ti (insertDate row)) = mapFind k row)) := by
  constructor
  · obtain ⟨i, hi⟩ := getHeadingIndexByName_of_mem _ _ hdesc
    obtain ⟨j, hj⟩ := getHeadingIndexByName_of_mem _ _ hdate
    simp only [applyDateToDescription, hi, hj, Option.isSome_some, if_true, List.map_map]
    rfl
  · intro row di ti
    refine ⟨?_, ?_, ?_⟩
    · intro rest hr
      rw [mapFind_eraseScratch_ne _ _ _ _ (by decide) (by decide),
        mapFind_insertDate_description, hr]
      simp
    · intro hr
      rw [mapFind_eraseScratch_ne _ _ _ _ (by decide) (by decide),
        mapFind_insertDate_description]
      have : ¬ (cellText "*Description".toList row ≠ [] ∧
          (cellText "*Description".toList row).head? = some '"') := by
        rintro ⟨_, h2⟩
        cases hc : cellText "*Description".toList row with
        | nil => rw [hc] at h2; simp at h2
        | cons c cs =>
          rw [hc] at h2
          simp only [List.head?_cons, Option.some.injEq] at h2
          exact hr cs (by rw [hc, h2])
      rw [if_neg this]
      simp
    · intro k h1 h2 h3
      rw [mapFind_eraseScratch_ne _ _ _ _ h2 h3, mapFind_insertDate_ne _ _ h1 h2]

/-- C9, witness: a table with the headings `*Description` and `DescDate` and one row. -/
theorem C9_date_reinsertion_witness :
    "*Description".toList ∈ ["*Description".toList, "DescDate".toList] ∧
    "DescDate".toList ∈ ["*Description".toList, "DescDate".toList] ∧
    (applyDateToDescription
        ⟨["*Description".toList, "DescDate".toList],
         [[("*Description".toList, "\"x,y\"".toList), ("DescDate".toList, "N/A".toList)]]⟩).mCsvData
      = [[("*Description".toList, "\"x,y\"".toList), ("DescDate".toList, "N/A".toList)]].map
          (fun row =>
            eraseScratch
              (getHeadingIndexByName ["*Description".toList, "DescDate".toList] "DescDate".toList)
              (getHeadingIndexByName ["*Description".toList, "DescDate".toList]
                "DescDateTimeStamp".toList)
              (insertDate row)) :=
  ⟨by decide, by decide,
    (C9_date_reinsertion
      ⟨["*Description".toList, "DescDate".toList],
       [[("*Description".toList, "\"x,y\"".toList), ("DescDate".toList, "N/A".toList)]]⟩
      (by decide) (by decide)).1⟩

/-- C10: for a table that has a `*Description` heading and neither a `DescDate` nor a
`DescDateTimeStamp` heading, `applyDateToDescription`, run on the heading list that
`addDescriptionDateColumn` left and on any rows (those left by the stages in between),
gives back the original heading list and leaves no row with a `DescDate` or
`DescDateTimeStamp` key; so does the direct composition of the two stages. -/
theorem C10_scratch_columns_removed (timeStampOf : Str → Str) (self : CSVReader)
    (hdesc : "*Description".toList ∈ self.mHeadings)
    (h1 : "DescDate".toList ∉ self.mHeadings)
    (h2 : "DescDateTimeStamp".toList ∉ self.mHeadings) :
    (∀ rows : List (StrMap Str),
      (applyDateToDescription
          ⟨(addDescriptionDateColumn timeStampOf self).mHeadings, rows⟩).mHeadings
        = self.mHeadings ∧
      ∀ row ∈ (applyDateToDescription
          ⟨(addDescriptionDateColumn timeStampOf self).mHeadings, rows⟩).mCsvData,
        mapFind "DescDate".toList row = none ∧
        mapFind "DescDateTimeStamp".toList row = none) ∧
    (applyDateToDescription (addDescriptionDateColumn timeStampOf self)).mHeadings
      = self.mHeadings ∧
    ∀ row ∈ (applyDateToDescription (addDescriptionDateColumn timeStampOf self)).mCsvData,
      mapFind "DescDate".toList row = none ∧ mapFind "DescDateTimeStamp".toList row = none := by
  have hH : (addDescriptionDateColumn timeStampOf self).mHeadings
      = self.mHeadings ++ ["DescDate".toList, "DescDateTimeStamp".toList] := by
    simp only [addDescriptionDateColumn]
    split <;> simp only [List.append_assoc, List.singleton_append]
  have key : ∀ rows : List (StrMap Str),
      (applyDateToDescription
          ⟨(addDescriptionDateColumn timeStampOf self).mHeadings, rows⟩).mHeadings
        = self.mHeadings ∧
      ∀ row ∈ (applyDateToDescription
          ⟨(addDescriptionDateColumn timeStampOf self).mHeadings, rows⟩).mCsvData,
        mapFind "DescDate".toList row = none ∧
        mapFind "DescDateTimeStamp".toList row = none := by
    intro rows
    rw [hH]
    obtain ⟨i, hi⟩ := getHeadingIndexByName_of_mem
      (self.mHeadings ++ ["DescDate".toList, "DescDateTimeStamp".toList])
      "*Description".toList (List.mem_append_left _ hdesc)
    obtain ⟨j, hj⟩ := getHeadingIndexByName_of_mem
      (self.mHeadings ++ ["DescDate".toList, "DescDateTimeStamp".toList])
      "DescDate".toList (List.mem_append_right _ (by decide))
    obtain ⟨k, hk⟩ := getHeadingIndexByName_of_mem
      (self.mHeadings ++ ["DescDate".toList, "DescDateTimeStamp".toList])
      "DescDateTimeStamp".toList (List.mem_append_right _ (by decide))
    simp only [applyDateToDescription, hi, hj, hk, Option.isSome_some, if_true]
    constructor
    · rw [removeHeader_append _ _ _ h1]
      have e1 : removeHeader ["DescDate".toList, "DescDateTimeStamp".toList] "DescDate".toList
          = ["DescDateTimeStamp".toList] := by decide
      rw [e1, removeHeader_append _ _ _ h2]
      have e2 : removeHeader ["DescDateTimeStamp".toList] "DescDateTimeStamp".toList = [] := by
        decide
      rw [e2, List.append_nil]
    · intro row hrow
      simp only [List.mem_map] at hrow
      obtain ⟨r, _, rfl⟩ := hrow
      exact mapFind_eraseScratch_self j k r
  exact ⟨key, key (addDescriptionDateColumn timeStampOf self).mCsvData⟩

/-- C10, witness: a table with the headings `A` and `*Description`. -/
theorem C10_scratch_columns_removed_witness :
    "*Description".toList ∈ ["A".toList, "*Description".toList] ∧
    "DescDate".toList ∉ ["A".toList, "*Description".toList] ∧
    "DescDateTimeStamp".toList ∉ ["A".toList, "*Description".toList] ∧
    (applyDateToDescription (addDescriptionDateColumn (fun _ => "0".toList)
        ⟨["A".toList, "*Description".toList],
         [[("*Description".toList, "due 01/02/23".toList), ("A".toList, "1".toList)]]⟩)).mHeadings
      = ["A".toList, "*Description".toList] :=
  ⟨by decide, by decide, by decide,
    (C10_scratch_columns_removed (fun _ => "0".toList)
      ⟨["A".toList, "*Description".toList],
       [[("*Description".toList, "due 01/02/23".toList), ("A".toList, "1".toList)]]⟩
      (by decide) (by decide) (by decide)).2.1⟩

/-- C12: for every row, every column and every list of appendage settings: a cell that
contains the text `Claim Type` before the appendage stage holds the same text behind it;
`addAppendages` treats every row by the row loop. -/
theorem C12_appendage_guard (settingsLines : List (Str × List (Str × Str))) :
    (∀ self : CSVReader,
      (addAppendages settingsLines self).mCsvData
        = self.mCsvData.map (appendRow (buildAppendages settingsLines))) ∧
    (∀ (row : StrMap Str) (columnName text : Str),
      mapFind columnName row = some text → "Claim Type".toList <:+: text →
      mapFind columnName (appendRow (buildAppendages settingsLines) row) = some text) := by
  refine ⟨fun self => rfl, ?_⟩
  intro row columnName text hcell hct
  exact mapFind_appendRow_guard columnName text hct _ row hcell

/-- C12, witness: a cell with `Claim Type` and a rule whose trigger it contains. -/
theorem C12_appendage_guard_witness :
    mapFind "X".toList [("X".toList, "A Claim Type".toList)] = some "A Claim Type".toList ∧
    "Claim Type".toList <:+: "A Claim Type".toList ∧
    mapFind "X".toList
        (appendRow (buildAppendages [("X".toList, [("A".toList, "B".toList)])])
          [("X".toList, "A Claim Type".toList)])
      = some "A Claim Type".toList :=
  ⟨by decide, by decide,
    (C12_appendage_guard [("X".toList, [("A".toList, "B".toList)])]).2
      [("X".toList, "A Claim Type".toList)] "X".toList "A Claim Type".toList
      (by decide) (by decide)⟩

/-- C13: for every table, every row of it and every cell that exists in the row and does
not contain `Claim Type`, the cell of the same row behind `addAppendages` is the left
fold, over the rules listed for its column in listed order, of the step "when the
current text contains the trigger, add a space and the text to append"; each rule is
tested against the text as extended by the rules before it, so with the rules `A` to
`B`, `B` to `C` `addAppendages` turns the cell `A` into `A B C`. -/
theorem C13_appendage_fold (settingsLines : List (Str × List (Str × Str)))
    (self : CSVReader) (i : Nat) (row : StrMap Str) (columnName text : Str)
    (hrow : self.mCsvData[i]? = some row)
    (hcell : mapFind columnName row = some text)
    (hct : ¬ "Claim Type".toList <:+: text) :
    (∃ row', (addAppendages settingsLines self).mCsvData[i]? = some row' ∧
      mapFind columnName row'
        = some ((rulesFor columnName settingsLines).foldl appendStep text)) ∧
    (addAppendages settingsLines self).mHeadings = self.mHeadings ∧
    addAppendages [("X".toList, [("A".toList, "B".toList), ("B".toList, "C".toList)])]
        ⟨["X".toList], [[("X".toList, "A".toList)]]⟩
      = ⟨["X".toList], [[("X".toList, "A B C".toList)]]⟩ := by
  refine ⟨⟨appendRow (buildAppendages settingsLines) row, ?_, ?_⟩, rfl, by decide⟩
  · unfold addAppendages
    dsimp only
    rw [List.getElem?_map, hrow]
    rfl
  · rw [mapFind_appendRow_fold columnName text hct _ (keysAscending_buildAppendages _) row
      hcell, getD_buildAppendages]

/-- C13, witness: a table of two rows, the second with the cell `A` of the column `X`,
and the rules `A` to `B`, `B` to `C`. -/
theorem C13_appendage_fold_witness :
    (⟨["X".toList], [[("X".toList, "n".toList)], [("X".toList, "A".toList)]]⟩ :
      CSVReader).mCsvData[1]? = some [("X".toList, "A".toList)] ∧
    mapFind "X".toList [("X".toList, "A".toList)] = some "A".toList ∧
    ¬ "Claim Type".toList <:+: "A".toList ∧
    (rulesFor "X".toList
        [("X".toList, [("A".toList, "B".toList), ("B".toList, "C".toList)])]).foldl
        appendStep "A".toList = "A B C".toList ∧
    ∃ row',
      (addAppendages [("X".toList, [("A".toList, "B".toList), ("B".toList, "C".toList)])]
        ⟨["X".toList], [[("X".toList, "n".toList)], [("X".toList, "A".toList)]]⟩).mCsvData[1]?
        = some row' ∧
      mapFind "X".toList row'
        = some ((rulesFor "X".toList
            [("X".toList, [("A".toList, "B".toList), ("B".toList, "C".toList)])]).foldl
            appendStep "A".toList) :=
  ⟨by decide, by decide, by decide, by decide,
    (C13_appendage_fold [("X".toList, [("A".toList, "B".toList), ("B".toList, "C".toList)])]
      ⟨["X".toList], [[("X".toList, "n".toList)], [("X".toList, "A".toList)]]⟩ 1
      [("X".toList, "A".toList)] "X".toList "A".toList (by decide) (by decide)
      (by decide)).1⟩

/-- C14, the code at a first line with a quoted comma: the heading is stored with the
placeholder, not with the comma that `restoreCommas` gives, and it is written with the
placeholder. -/
theorem C14_heading_keeps_placeholder :
    (readCsv CSVReader.fresh "\"a,b\",c\n1,2\n".toList).mHeadings
      = ["\"a#!*b\"".toList, "c".toList] ∧
    (splitLineAndReplaceCommas "\"a,b\",c".toList).map restoreCommas
      = ["\"a,b\"".toList, "c".toList] ∧
    writeCsv (readCsv CSVReader.fresh "\"a,b\",c\n1,2\n".toList)
      = "\"a#!*b\",c\n1,2\n".toList := by
  decide

/-- C15: for a heading list of unique names and every logical record, the row built has
for every index below both the number of headings and the number of tokens the
unescaped token under the heading of this index, it has no other key, and a heading at
an index from the number of tokens on is absent from the row. -/
theorem C15_positional_zip (mHeadings : List Str) (line : Str) (hnd : mHeadings.Nodup) :
    (∀ (i : Nat) (h1 : i < mHeadings.length)
        (h2 : i < (splitLineAndReplaceCommas line).length),
      mapFind mHeadings[i] (buildRow mHeadings line)
        = some (restoreCommas (splitLineAndReplaceCommas line)[i])) ∧
    (∀ k v, mapFind k (buildRow mHeadings line) = some v →
      ∃ i, ∃ (h1 : i < mHeadings.length) (h2 : i < (splitLineAndReplaceCommas line).length),
        mHeadings[i] = k ∧ v = restoreCommas (splitLineAndReplaceCommas line)[i]) ∧
    (∀ (j : Nat) (h : j < mHeadings.length), (splitLineAndReplaceCommas line).length ≤ j →
      mapFind mHeadings[j] (buildRow mHeadings line) = none) := by
  have hfind : ∀ k, mapFind k (buildRow mHeadings line)
      = mapFind k (mHeadings.zip ((splitLineAndReplaceCommas line).map restoreCommas)) := by
    intro k
    unfold buildRow
    rw [mapFind_fillRow_nodup mHeadings hnd]
    cases mapFind k (mHeadings.zip ((splitLineAndReplaceCommas line).map restoreCommas)) <;>
      simp [mapFind]
  have hsome : ∀ k v, mapFind k (buildRow mHeadings line) = some v →
      ∃ i, ∃ (h1 : i < mHeadings.length) (h2 : i < (splitLineAndReplaceCommas line).length),
        mHeadings[i] = k ∧ v = restoreCommas (splitLineAndReplaceCommas line)[i] := by
    intro k v h
    rw [hfind] at h
    obtain ⟨i, h1, h2, e1, e2⟩ := mapFind_zip_some _ _ _ _ h
    have h2' : i < (splitLineAndReplaceCommas line).length := by simpa using h2
    exact ⟨i, h1, h2', e1, by rw [← e2]; simp⟩
  refine ⟨?_, hsome, ?_⟩
  · intro i h1 h2
    rw [hfind, mapFind_zip_getElem _ _ hnd i h1 (by simpa using h2)]
    simp
  · intro j h hj
    cases hf : mapFind mHeadings[j] (buildRow mHeadings line) with
    | none => rfl
    | some v =>
      obtain ⟨i, h1, h2, e1, _⟩ := hsome _ _ hf
      have : i = j := (List.Nodup.getElem_inj_iff hnd).mp e1
      omega

/-- C15, witness: two headings and a record with three tokens. -/
theorem C15_positional_zip_witness :
    ["A".toList, "B".toList].Nodup ∧
    ∀ (i : Nat) (h1 : i < ["A".toList, "B".toList].length)
        (h2 : i < (splitLineAndReplaceCommas "1,\"x,y\",3".toList).length),
      mapFind ["A".toList, "B".toList][i] (buildRow ["A".toList, "B".toList] "1,\"x,y\",3".toList)
        = some (restoreCommas (splitLineAndReplaceCommas "1,\"x,y\",3".toList)[i]) :=
  ⟨by decide, (C15_positional_zip ["A".toList, "B".toList] "1,\"x,y\",3".toList (by decide)).1⟩

/-- C16: the text written by `writeCsv` is the heading names joined by commas and a
newline, followed, for each row in table order, by one line that ends with a newline
and consists of, for each heading in heading order, the value stored in the row for the
heading, or the empty text when the row has no such key, joined by commas. -/
theorem C16_writer_format (self : CSVReader) :
    writeCsv self
      = ([','].intercalate self.mHeadings ++ ['\n']) ++
        (self.mCsvData.map (fun row =>
          [','].intercalate (self.mHeadings.map (fun h =>
            match mapFind h row with
            | some value => value
            | none => [])) ++ ['\n'])).flatten := by
  have hfield : ∀ (row : StrMap Str) (h : Str),
      (mapFind h row).getD [] = (match mapFind h row with
        | some value => value
        | none => []) := by
    intro row h
    cases mapFind h row <;> rfl
  rw [writeCsv_eq]
  unfold writeLine rowFields
  simp only [hfield]
  rfl


/-- C17 (table invariant): in the table built by `readCsv` every key of every row is a
heading, and each of the six stages `addDescriptionDateColumn`, `doColumnReplacements`,
`applySorting`, `applyDateToDescription`, `updateDueDate` and `addAppendages`, under any
settings, turns a table with this property into a table with this property. -/
theorem C17_table_invariant :
    (∀ file : Str, KeysInHeadings (readCsv CSVReader.fresh file)) ∧
    (∀ (timeStampOf : Str → Str) (t : CSVReader), KeysInHeadings t →
      KeysInHeadings (addDescriptionDateColumn timeStampOf t)) ∧
    (∀ (fuel : Nat) (settingsLines : List (Str × List (Str × Str))) (t t' : CSVReader),
      KeysInHeadings t → doColumnReplacements fuel settingsLines t = some t' →
        KeysInHeadings t') ∧
    (∀ (sortOrder : List (Str × Str)) (t t' : CSVReader),
      KeysInHeadings t → applySorting sortOrder t = some t' → KeysInHeadings t') ∧
    (∀ t : CSVReader, KeysInHeadings t → KeysInHeadings (applyDateToDescription t)) ∧
    (∀ (zone : Zone) (settingsFile : Str) (t t' : CSVReader),
      KeysInHeadings t → updateDueDate zone settingsFile t = some t' → KeysInHeadings t') ∧
    (∀ (settingsLines : List (Str × List (Str × Str))) (t : CSVReader),
      KeysInHeadings t → KeysInHeadings (addAppendages settingsLines t)) := by
  refine ⟨?_, ?_, ?_, ?_, ?_, ?_, ?_⟩
  · intro file row hrow e he
    unfold readCsv CSVReader.fresh at hrow ⊢
    dsimp only at hrow ⊢
    rw [List.nil_append] at hrow
    have hl : ∀ l ∈ (getlines file).tail, '\n' ∉ l :=
      fun l hl => getlines_not_mem file l (List.mem_of_mem_tail hl)
    exact ((rowInv_readRows _ _ _ (le_refl _) hl row hrow).2 e he).1
  · intro timeStampOf t h
    unfold addDescriptionDateColumn
    dsimp only
    have hsub : ∀ k ∈ t.mHeadings,
        k ∈ t.mHeadings ++ ["DescDate".toList] ++ ["DescDateTimeStamp".toList] :=
      fun k hk => List.mem_append_left _ (List.mem_append_left _ hk)
    split
    · intro row hrow e he
      exact hsub _ (h row hrow e he)
    · rename_i idx hidx
      intro row hrow e he
      dsimp only at hrow ⊢
      obtain ⟨r, hr, rfl⟩ := List.mem_map.mp hrow
      refine keysIn_descDateRow _ timeStampOf r (getHeadingIndexByName_some_mem _ _ _ hidx)
        ?_ ?_ (keysIn_mono _ _ r hsub (h r hr)) e he
      · exact List.mem_append_left _ (List.mem_append_right _ (List.mem_singleton_self _))
      · exact List.mem_append_right _ (List.mem_singleton_self _)
  · intro fuel settingsLines t t' h hr
    unfold doColumnReplacements at hr
    split at hr
    · cases hr
    · rename_i rows hrows
      simp only [Option.some.injEq] at hr
      rw [← hr]
      exact keysIn_replaceRows fuel _ _ _ rows h hrows
  · intro sortOrder t t' h hr
    unfold applySorting at hr
    split at hr
    · simp only [Option.some.injEq] at hr
      rw [← hr]; exact h
    · split at hr
      · cases hr
      · rename_i rows hrows
        simp only [Option.some.injEq] at hr
        rw [← hr]
        intro row hrow
        exact h row (mem_sortLoop _ _ _ rows hrows row hrow)
  · exact keysInHeadings_applyDateToDescription
  · intro zone settingsFile t t' h hr
    unfold updateDueDate at hr
    split at hr
    · cases hr
    · split at hr
      · simp only [Option.some.injEq] at hr
        rw [← hr]; exact h
      · split at hr
        · simp only [Option.some.injEq] at hr
          rw [← hr]; exact h
        · rename_i idx hidx
          simp only [Option.some.injEq] at hr
          rw [← hr]
          intro row hrow
          obtain ⟨r, hr', rfl⟩ := List.mem_map.mp hrow
          exact keysIn_updateDueDateRow zone _ _ (getHeadingIndexByName_some_mem _ _ _ hidx)
            r (h r hr')
  · intro settingsLines t h row hrow
    unfold addAppendages at hrow
    dsimp only at hrow
    obtain ⟨r, hr, rfl⟩ := List.mem_map.mp hrow
    exact keysIn_appendRow _ _ r (h r hr)

/-- The invariant along a run of all six stages on a table with one record. -/
theorem C17_table_invariant_witness :
    doColumnReplacements 100 [("Name".toList, [("bob".toList, "Bob".toList)])]
        (addDescriptionDateColumn (fun _ => "0".toList)
          (readCsv CSVReader.fresh
            "Name,*Description,*DueDate\nbob,x 01/02/24,30/01/2024\n".toList))
      = some ⟨["Name".toList, "*Description".toList, "*DueDate".toList, "DescDate".toList,
          "DescDateTimeStamp".toList],
        [[("*Description".toList, "x ".toList), ("*DueDate".toList, "30/01/2024".toList),
          ("DescDate".toList, "01/02/24".toList), ("DescDateTimeStamp".toList, "0".toList),
          ("Name".toList, "Bob".toList)]]⟩ ∧
    applySorting [("Name".toList, "asc".toList)]
        ⟨["Name".toList, "*Description".toList, "*DueDate".toList, "DescDate".toList,
          "DescDateTimeStamp".toList],
        [[("*Description".toList, "x ".toList), ("*DueDate".toList, "30/01/2024".toList),
          ("DescDate".toList, "01/02/24".toList), ("DescDateTimeStamp".toList, "0".toList),
          ("Name".toList, "Bob".toList)]]⟩
      = some ⟨["Name".toList, "*Description".toList, "*DueDate".toList, "DescDate".toList,
          "DescDateTimeStamp".toList],
        [[("*Description".toList, "x ".toList), ("*DueDate".toList, "30/01/2024".toList),
          ("DescDate".toList, "01/02/24".toList), ("DescDateTimeStamp".toList, "0".toList),
          ("Name".toList, "Bob".toList)]]⟩ ∧
    updateDueDate ⟨0, fun _ => 0⟩ "due date additional days:5".toList
        (applyDateToDescription
          ⟨["Name".toList, "*Description".toList, "*DueDate".toList, "DescDate".toList,
            "DescDateTimeStamp".toList],
          [[("*Description".toList, "x ".toList), ("*DueDate".toList, "30/01/2024".toList),
            ("DescDate".toList, "01/02/24".toList), ("DescDateTimeStamp".toList, "0".toList),
            ("Name".toList, "Bob".toList)]]⟩)
      = some ⟨["Name".toList, "*Description".toList, "*DueDate".toList],
        [[("*Description".toList, "01/02/24 x ".toList),
          ("*DueDate".toList, "04/02/2024".toList), ("Name".toList, "Bob".toList)]]⟩ ∧
    KeysInHeadings (addAppendages [("Name".toList, [("Bob".toList, "!".toList)])]
      ⟨["Name".toList, "*Description".toList, "*DueDate".toList],
        [[("*Description".toList, "01/02/24 x ".toList),
          ("*DueDate".toList, "04/02/2024".toList), ("Name".toList, "Bob".toList)]]⟩) := by
  have e1 : doColumnReplacements 100 [("Name".toList, [("bob".toList, "Bob".toList)])]
        (addDescriptionDateColumn (fun _ => "0".toList)
          (readCsv CSVReader.fresh
            "Name,*Description,*DueDate\nbob,x 01/02/24,30/01/2024\n".toList))
      = some ⟨["Name".toList, "*Description".toList, "*DueDate".toList, "DescDate".toList,
          "DescDateTimeStamp".toList],
        [[("*Description".toList, "x ".toList), ("*DueDate".toList, "30/01/2024".toList),
          ("DescDate".toList, "01/02/24".toList), ("DescDateTimeStamp".toList, "0".toList),
          ("Name".toList, "Bob".toList)]]⟩ := by decide
  have e2 : applySorting [("Name".toList, "asc".toList)]
        ⟨["Name".toList, "*Description".toList, "*DueDate".toList, "DescDate".toList,
          "DescDateTimeStamp".toList],
        [[("*Description".toList, "x ".toList), ("*DueDate".toList, "30/01/2024".toList),
          ("DescDate".toList, "01/02/24".toList), ("DescDateTimeStamp".toList, "0".toList),
          ("Name".toList, "Bob".toList)]]⟩
      = some ⟨["Name".toList, "*Description".toList, "*DueDate".toList, "DescDate".toList,
          "DescDateTimeStamp".toList],
        [[("*Description".toList, "x ".toList), ("*DueDate".toList, "30/01/2024".toList),
          ("DescDate".toList, "01/02/24".toList), ("DescDateTimeStamp".toList, "0".toList),
          ("Name".toList, "Bob".toList)]]⟩ := by decide
  have e3 : updateDueDate ⟨0, fun _ => 0⟩ "due date additional days:5".toList
        (applyDateToDescription
          ⟨["Name".toList, "*Description".toList, "*DueDate".toList, "DescDate".toList,
            "DescDateTimeStamp".toList],
          [[("*Description".toList, "x ".toList), ("*DueDate".toList, "30/01/2024".toList),
            ("DescDate".toList, "01/02/24".toList), ("DescDateTimeStamp".toList, "0".toList),
            ("Name".toList, "Bob".toList)]]⟩)
      = some ⟨["Name".toList, "*Description".toList, "*DueDate".toList],
        [[("*Description".toList, "01/02/24 x ".toList),
          ("*DueDate".toList, "04/02/2024".toList), ("Name".toList, "Bob".toList)]]⟩ := by
    decide
  have h0 := C17_table_invariant.1
    "Name,*Description,*DueDate\nbob,x 01/02/24,30/01/2024\n".toList
  have h1 := C17_table_invariant.2.1 (fun _ => "0".toList) _ h0
  have h2 := C17_table_invariant.2.2.1 _ _ _ _ h1 e1
  have h3 := C17_table_invariant.2.2.2.1 _ _ _ h2 e2
  have h4 := C17_table_invariant.2.2.2.2.1 _ h3
  have h5 := C17_table_invariant.2.2.2.2.2.1 _ _ _ _ h4 e3
  exact ⟨e1, e2, e3, C17_table_invariant.2.2.2.2.2.2 _ _ h5⟩

/-- C18, the code at a table read by `readCsv` in which a row lacks the sort column: the
comparison calls `row.at(heading)` for the row without the key `B`, which throws, and the
sort stage does not complete. -/
theorem C18_sort_throws :
    (getHeadingIndexByName (readCsv CSVReader.fresh "A,B\n1\n2,x\n".toList).mHeadings "B".toList
      = some 1) ∧
    (readCsv CSVReader.fresh "A,B\n1\n2,x\n".toList).mCsvData
      = [[("A".toList, "1".toList)], [("A".toList, "2".toList), ("B".toList, "x".toList)]] ∧
    applySorting [("B".toList, "asc".toList)] (readCsv CSVReader.fresh "A,B\n1\n2,x\n".toList)
      = none := by
  decide

/-- C19, the code at a settings file whose line `due date additional days:abc` has no
number behind the colon: `std::stoi` throws and `updateDueDate` does not complete,
whatever the table and the time zone. -/
theorem C19_stoi_throws (zone : Zone) (self : CSVReader) :
    stoi "abc".toList = none ∧
    findDaysToAdd (getlines "sort order:\nend:\ndue date additional days:abc\n".toList) = none ∧
    updateDueDate zone "sort order:\nend:\ndue date additional days:abc\n".toList self = none := by
  have h : findDaysToAdd (getlines "sort order:\nend:\ndue date additional days:abc\n".toList)
      = none := by decide
  refine ⟨by decide, h, ?_⟩
  unfold updateDueDate
  rw [h]

/-- C20, the code at a row whose `*DueDate` field is empty, with 5 additional days, in
the zone UTC and in a zone ten hours ahead with one hour of daylight saving: the empty
text does not parse, `tm` stays zeroed, and the field is overwritten with the date 5
days behind "day 0 of January 1900". -/
theorem C20_unparsable_date_overwritten :
    stringToDate "".toList = ⟨0, 0, 0⟩ ∧
    updateDueDate ⟨0, fun _ => 0⟩ "due date additional days:5\n".toList
        ⟨["*DueDate".toList], [[("*DueDate".toList, "".toList)]]⟩
      = some ⟨["*DueDate".toList], [[("*DueDate".toList, "05/01/1900".toList)]]⟩ ∧
    updateDueDate ⟨36000, fun _ => 3600⟩ "due date additional days:5\n".toList
        ⟨["*DueDate".toList], [[("*DueDate".toList, "".toList)]]⟩
      = some ⟨["*DueDate".toList], [[("*DueDate".toList, "05/01/1900".toList)]]⟩ := by
  decide

/-- C21, the code at a pair whose `from` text is empty (the settings line `A: ""="x"`):
`find` succeeds at `pos` in every test of the loop condition, the text `to` is inserted
and `pos` stays within the text, so the replace loop yields no result for any number of
tests, whatever the cell and the text `to`, and `doColumnReplacements` does not end. -/
theorem C21_empty_from_never_ends (fuel : Nat) (toStr cell : Str) :
    replaceLoop [] toStr fuel cell 0 = none ∧
    find "a".toList [] 0 = some 0 ∧
    replace "a".toList 0 0 "x".toList = "xa".toList ∧
    find "xa".toList [] 1 = some 1 ∧
    buildReplacements ["A".toList] [("A".toList, [([], "x".toList)])]
      = [("A".toList, [([], "x".toList)])] ∧
    doColumnReplacements fuel [("A".toList, [([], "x".toList)])]
        ⟨["A".toList], [[("A".toList, "a".toList)]]⟩
      = none := by
  have hb : buildReplacements ["A".toList] [("A".toList, [([], "x".toList)])]
      = [("A".toList, [([], "x".toList)])] := by decide
  have hg : getHeadingIndexByName ["A".toList] "A".toList = some 0 := by decide
  refine ⟨replaceLoop_nil toStr fuel cell 0 (Nat.zero_le _), by decide, by decide, by decide,
    hb, ?_⟩
  unfold doColumnReplacements
  dsimp only
  rw [hb]
  unfold replaceRows replaceRow
  rw [hg]
  dsimp only
  unfold applyPairs
  rw [replaceLoop_nil "x".toList fuel _ 0 (Nat.zero_le _)]

/-- C22: for every text the result of `restoreCommas` is the text with every placeholder,
found scanning from the left, replaced by a comma, and it contains no placeholder;
`restoreCommas` applied twice gives the same as applied once; and no value stored in a
row of the table that `readCsv` builds contains the placeholder. -/
theorem C22_restore_complete :
    (∀ s : Str, restoreCommas s = restoreRec s ∧ ¬ sentinel <:+: restoreCommas s) ∧
    (∀ s : Str, restoreCommas (restoreCommas s) = restoreCommas s) ∧
    (∀ (file : Str) (row : StrMap Str), row ∈ (readCsv CSVReader.fresh file).mCsvData →
      ∀ e ∈ row, ¬ sentinel <:+: e.2) := by
  have h1 : ∀ s : Str, ¬ sentinel <:+: restoreCommas s := by
    intro s
    rw [restoreCommas_eq]
    exact not_infix_restoreRec s
  refine ⟨fun s => ⟨restoreCommas_eq s, h1 s⟩, ?_, ?_⟩
  · intro s
    rw [restoreCommas_eq (restoreCommas s)]
    exact restoreRec_of_not_infix _ (h1 s)
  · intro file row hrow e he
    unfold readCsv CSVReader.fresh at hrow
    dsimp only at hrow
    rw [List.nil_append] at hrow
    obtain ⟨w, hw⟩ := readRows_buildRow _ _ _ (le_refl _) row hrow
    rw [hw] at he
    obtain ⟨t, ht⟩ := value_buildRow _ _ e he
    rw [ht]
    exact h1 t

/-- C22, witness: the record `1,"x,y"` under the headings `A,B`; the value stored for `B`
is the quoted text with the comma. -/
theorem C22_restore_complete_witness :
    [("A".toList, "1".toList), ("B".toList, "\"x,y\"".toList)]
      ∈ (readCsv CSVReader.fresh "A,B\n1,\"x,y\"\n".toList).mCsvData ∧
    ("B".toList, "\"x,y\"".toList)
      ∈ [("A".toList, "1".toList), ("B".toList, "\"x,y\"".toList)] ∧
    ¬ sentinel <:+: "\"x,y\"".toList :=
  ⟨by decide, by decide,
    C22_restore_complete.2.2 "A,B\n1,\"x,y\"\n".toList
      [("A".toList, "1".toList), ("B".toList, "\"x,y\"".toList)] (by decide)
      ("B".toList, "\"x,y\"".toList) (by decide)⟩

/-- C23: for every line that does not contain the placeholder, the tokens of
`splitLineAndReplaceCommas`, each passed through `restoreCommas` and joined by commas,
are the line itself, and the number of tokens is one more than the number of commas
outside quoted regions. -/
theorem C23_tokenizing_loses_nothing (line : Str) (h : ¬ sentinel <:+: line) :
    [','].intercalate ((splitLineAndReplaceCommas line).map restoreCommas) = line ∧
    (splitLineAndReplaceCommas line).length = outsideCommas false line + 1 := by
  have h1 := intercalate_fields line
  have h2 := length_fields line
  unfold fields at h1 h2
  rw [List.length_map] at h2
  exact ⟨by rw [h1, restoreRec_of_not_infix line h], h2⟩

/-- C23, witness: the line `a,"b,c",d` has three tokens, the second with its quotes and
its comma. -/
theorem C23_tokenizing_loses_nothing_witness :
    ¬ sentinel <:+: "a,\"b,c\",d".toList ∧
    (splitLineAndReplaceCommas "a,\"b,c\",d".toList).map restoreCommas
      = ["a".toList, "\"b,c\"".toList, "d".toList] ∧
    [','].intercalate ((splitLineAndReplaceCommas "a,\"b,c\",d".toList).map restoreCommas)
      = "a,\"b,c\",d".toList ∧
    (splitLineAndReplaceCommas "a,\"b,c\",d".toList).length
      = outsideCommas false "a,\"b,c\",d".toList + 1 :=
  ⟨by decide, by decide,
    (C23_tokenizing_loses_nothing "a,\"b,c\",d".toList (by decide)).1,
    (C23_tokenizing_loses_nothing "a,\"b,c\",d".toList (by decide)).2⟩

/-- C24: each of the six stages, when it completes, returns a table with as many rows as
it was given, under any settings; the rows that `applySorting` returns are a permutation
of the rows it was given and its heading list is the one it was given. -/
theorem C24_rows_preserved :
    (∀ (timeStampOf : Str → Str) (t : CSVReader),
      (addDescriptionDateColumn timeStampOf t).mCsvData.length = t.mCsvData.length) ∧
    (∀ (fuel : Nat) (settingsLines : List (Str × List (Str × Str))) (t t' : CSVReader),
      doColumnReplacements fuel settingsLines t = some t' →
        t'.mCsvData.length = t.mCsvData.length) ∧
    (∀ (sortOrder : List (Str × Str)) (t t' : CSVReader),
      applySorting sortOrder t = some t' →
        t'.mCsvData.Perm t.mCsvData ∧ t'.mHeadings = t.mHeadings ∧
          t'.mCsvData.length = t.mCsvData.length) ∧
    (∀ t : CSVReader, (applyDateToDescription t).mCsvData.length = t.mCsvData.length) ∧
    (∀ (zone : Zone) (settingsFile : Str) (t t' : CSVReader),
      updateDueDate zone settingsFile t = some t' →
        t'.mCsvData.length = t.mCsvData.length) ∧
    (∀ (settingsLines : List (Str × List (Str × Str))) (t : CSVReader),
      (addAppendages settingsLines t).mCsvData.length = t.mCsvData.length) := by
  refine ⟨?_, ?_, ?_, ?_, ?_, ?_⟩
  · intro timeStampOf t
    unfold addDescriptionDateColumn
    dsimp only
    split
    · rfl
    · simp
  · intro fuel settingsLines t t' hr
    unfold doColumnReplacements at hr
    split at hr
    · cases hr
    · rename_i rows hrows
      simp only [Option.some.injEq] at hr
      rw [← hr]
      exact length_replaceRows fuel _ _ _ rows hrows
  · intro sortOrder t t' hr
    unfold applySorting at hr
    split at hr
    · simp only [Option.some.injEq] at hr
      rw [← hr]
      exact ⟨List.Perm.refl _, rfl, rfl⟩
    · split at hr
      · cases hr
      · rename_i rows hrows
        simp only [Option.some.injEq] at hr
        rw [← hr]
        have hp := perm_sortLoop _ _ _ rows hrows
        exact ⟨hp, rfl, hp.length_eq⟩
  · intro t
    unfold applyDateToDescription
    dsimp only
    split
    · rfl
    · simp only [List.length_map]
      split <;> simp
  · intro zone settingsFile t t' hr
    unfold updateDueDate at hr
    split at hr
    · cases hr
    · split at hr
      · simp only [Option.some.injEq] at hr
        rw [← hr]
      · split at hr
        · simp only [Option.some.injEq] at hr
          rw [← hr]
        · simp only [Option.some.injEq] at hr
          rw [← hr]
          simp
  · intro settingsLines t
    unfold addAppendages
    simp

/-- C24, witness: a replacement, a sort that exchanges two rows, and a due-date shift. -/
theorem C24_rows_preserved_witness :
    (doColumnReplacements 10 [("Name".toList, [("bob".toList, "Bob".toList)])]
        ⟨["Name".toList], [[("Name".toList, "zed".toList)], [("Name".toList, "bob".toList)]]⟩
      = some ⟨["Name".toList],
          [[("Name".toList, "zed".toList)], [("Name".toList, "Bob".toList)]]⟩ ∧
      [[("Name".toList, "zed".toList)], [("Name".toList, "Bob".toList)]].length
        = [[("Name".toList, "zed".toList)], [("Name".toList, "bob".toList)]].length) ∧
    (applySorting [("Name".toList, "asc".toList)]
        ⟨["Name".toList], [[("Name".toList, "zed".toList)], [("Name".toList, "Bob".toList)]]⟩
      = some ⟨["Name".toList],
          [[("Name".toList, "Bob".toList)], [("Name".toList, "zed".toList)]]⟩ ∧
      [[("Name".toList, "Bob".toList)], [("Name".toList, "zed".toList)]].Perm
        [[("Name".toList, "zed".toList)], [("Name".toList, "Bob".toList)]]) ∧
    (updateDueDate ⟨0, fun _ => 0⟩ "due date additional days:5".toList
        ⟨["*DueDate".toList], [[("*DueDate".toList, "30/01/2024".toList)]]⟩
      = some ⟨["*DueDate".toList], [[("*DueDate".toList, "04/02/2024".toList)]]⟩ ∧
      [[("*DueDate".toList, "04/02/2024".toList)]].length
        = [[("*DueDate".toList, "30/01/2024".toList)]].length) :=
  ⟨⟨by decide, C24_rows_preserved.2.1 10 [("Name".toList, [("bob".toList, "Bob".toList)])]
      ⟨["Name".toList], [[("Name".toList, "zed".toList)], [("Name".toList, "bob".toList)]]⟩
      ⟨["Name".toList], [[("Name".toList, "zed".toList)], [("Name".toList, "Bob".toList)]]⟩
      (by decide)⟩,
    ⟨by decide, (C24_rows_preserved.2.2.1 [("Name".toList, "asc".toList)]
      ⟨["Name".toList], [[("Name".toList, "zed".toList)], [("Name".toList, "Bob".toList)]]⟩
      ⟨["Name".toList], [[("Name".toList, "Bob".toList)], [("Name".toList, "zed".toList)]]⟩
      (by decide)).1⟩,
    ⟨by decide, C24_rows_preserved.2.2.2.2.1 ⟨0, fun _ => 0⟩
      "due date additional days:5".toList
      ⟨["*DueDate".toList], [[("*DueDate".toList, "30/01/2024".toList)]]⟩
      ⟨["*DueDate".toList], [[("*DueDate".toList, "04/02/2024".toList)]]⟩ (by decide)⟩⟩

end CsvHelper
